import Mathlib

/-! # Hamiltonian walks on rectangular grids

A shallow embedding of `grid.hpp` (class `Grid`: `is_valid`, `backtrack`,
`sample_path`) and of `main.cpp` (`backbite`, `sample_path_pyramid`), followed
by the properties proved about them.

Conventions of the embedding.

* `int` is `Int`; the arithmetic of the program is taken in the range where the
  C++ operations do not overflow (signed overflow has no defined result).  The
  one place where the range matters for a statement, the subtraction in
  `is_valid`, also has a 32-bit model with wrap-around (`Grid.is_valid_wrapped`).
* `std::vector` is `List`; an index outside the vector and `back()`/`pop_back()`
  on an empty vector have no defined result, and neither has the use of a
  `vector<bool>` constructed with a negative size; a `vector` of rows
  constructed with a negative size throws.  These operations return
  `Except Fault _`.  A fault that stands for the absence of a defined result
  promises nothing about the compiled program, which may stop abnormally or go
  on running and even return a value.
* `std::mt19937` is a stream of raw draws (`Rng`); `std::shuffle` and
  `std::uniform_int_distribution` consume draws from it.  Quantifying over
  every `Rng` quantifies over every outcome of the random choices.
* Recursion and the retry loop carry a step budget; `Fault.outOfFuel` says the
  budget was exhausted.
-/

namespace Walks

/-! ## Points, directions, random draws -/

/-- `using Point = std::pair<int, int>` : (row, column). -/
abbrev Point := Int × Int

/-- `using Points = std::vector<Point>`. -/
abbrev Points := List Point

/-- The global `directions` array of `grid.hpp`. -/
def directions : List Point := [(0, 1), (1, 0), (0, -1), (-1, 0)]

/-- Ways in which a call does not return a value. -/
inductive Fault where
  /-- an index outside a vector (`visited[y][x]`, `path[i]`, `back()`) -/
  | outOfBounds
  /-- `pop_back()` on an empty vector -/
  | emptyPop
  /-- the `std::length_error` thrown by `std::vector<T>(n, value)` when `n`,
  converted to `size_t`, exceeds `max_size()` -/
  | lengthError
  /-- the use of a `std::vector<bool>` constructed with a negative size: the
  constructor does not check the size and the object has no defined state -/
  | badSize
  /-- the step budget of the embedding ran out -/
  | outOfFuel
  deriving DecidableEq, Repr

/-- State of a `std::mt19937`: the raw values it will produce, in order
(zeros once the list is used up). -/
abbrev Rng := List Nat

/-- One raw draw. -/
def Rng.next : Rng → Nat × Rng
  | [] => (0, [])
  | r :: rs => (r, rs)

/-- `std::uniform_int_distribution<>(lo, lo + span)(rng)` with `span : Nat`:
a value in `[lo, lo + span]`, given as its offset from `lo`. -/
def uniform_int (span : Nat) (rng : Rng) : Nat × Rng :=
  let d := Rng.next rng
  (d.1 % (span + 1), d.2)

/-- Worker of `shuffle`: `n` elements remain to be placed. -/
def shuffleAux : Nat → Points → Rng → Points × Rng
  | 0, _, rng => ([], rng)
  | n + 1, xs, rng =>
    let d := Rng.next rng
    let i := d.1 % xs.length
    match xs.get? i with
    | none => ([], d.2)
    | some x =>
      let r := shuffleAux n (xs.eraseIdx i) d.2
      (x :: r.1, r.2)

/-- `std::shuffle(xs.begin(), xs.end(), rng)`: the result is a rearrangement of
`xs` selected by the draws (each position is filled with one of the remaining
elements, chosen by one draw), so every rearrangement is the outcome of some
generator state. -/
def shuffle (xs : Points) (rng : Rng) : Points × Rng :=
  shuffleAux xs.length xs rng

/-! ## The visited mask -/

/-- `std::vector<std::vector<bool>>`. -/
abbrev Mask := List (List Bool)

/-- `std::vector<std::vector<bool>>(h, std::vector<bool>(w, false))`. -/
def Mask.fresh (h w : Nat) : Mask := List.replicate h (List.replicate w false)

/-- Read `visited[y][x]`; `none` when an index is outside the vector. -/
def Mask.read (v : Mask) (y x : Int) : Option Bool :=
  if 0 ≤ y ∧ 0 ≤ x then
    match v.get? y.toNat with
    | none => none
    | some row => row.get? x.toNat
  else none

/-- Assign `visited[y][x] = b`; `none` when an index is outside the vector. -/
def Mask.write (v : Mask) (y x : Int) (b : Bool) : Option Mask :=
  if 0 ≤ y ∧ 0 ≤ x then
    match v.get? y.toNat with
    | none => none
    | some row =>
      if x.toNat < row.length then some (v.set y.toNat (row.set x.toNat b)) else none
  else none

/-- `path.pop_back()`; `none` on an empty vector. -/
def popBack (path : Points) : Option Points :=
  if path.isEmpty then none else some path.dropLast

/-! ## class Grid -/

/-- The geometry of a `Grid`: `height`, `width`, `bias`.  The private member
`rng` of the class is threaded separately (in `Search.rng`). -/
structure Grid where
  height : Int
  width : Int
  bias : Point
  deriving DecidableEq, Repr

/-- `Grid::is_valid`, with the two subtractions over the integers: the function
of the program wherever neither subtraction overflows `int`
(`Grid.is_valid_wrapped` is the 32-bit function, `Grid.is_valid_wrapped_eq`
their agreement). -/
def Grid.is_valid (g : Grid) (p : Point) : Bool :=
  let local_y := p.1 - g.bias.1
  let local_x := p.2 - g.bias.2
  decide (local_y ≥ 0) && decide (local_y < g.height) &&
    decide (local_x ≥ 0) && decide (local_x < g.width)

/-- The value that a 32-bit `int` holds after an operation whose mathematical
result is `x`: `x` itself when it lies in `[-2^31, 2^31)`, and otherwise the
integer of that range congruent to `x` modulo `2^32` (two's complement
wrap-around, what the compiled program computes where the C++ standard leaves
signed overflow undefined). -/
def wrapInt (x : Int) : Int := (x + 2 ^ 31) % 2 ^ 32 - 2 ^ 31

/-- `Grid::is_valid` with the two subtractions carried out in 32-bit `int`
arithmetic. -/
def Grid.is_valid_wrapped (g : Grid) (p : Point) : Bool :=
  let local_y := wrapInt (p.1 - g.bias.1)
  let local_x := wrapInt (p.2 - g.bias.2)
  decide (local_y ≥ 0) && decide (local_y < g.height) &&
    decide (local_x ≥ 0) && decide (local_x < g.width)

/-- The mutable state `Grid::backtrack` works on: the two reference parameters
`visited` and `path`, and the member `rng` of the grid. -/
structure Search where
  visited : Mask
  path : Points
  rng : Rng

/-- The loop `for (neighbor : neighbors) if (backtrack(neighbor, ...)) return true;`
with the recursive call abstracted as `call`.  `(false, s)` means the loop ran
to its end. -/
def tryEach (call : Point → Search → Except Fault (Bool × Search)) :
    Points → Search → Except Fault (Bool × Search)
  | [], s => .ok (false, s)
  | n :: ns, s =>
    match call n s with
    | .error e => .error e
    | .ok (true, s1) => .ok (true, s1)
    | .ok (false, s1) => tryEach call ns s1

/-- The loop over `directions` in `Grid::backtrack` that fills `neighbors`:
the in-region, not yet visited neighbours of `start`, in direction order.  The
mask is read only for a neighbour that passed `is_valid` (short-circuit `&&`). -/
def Grid.collect (g : Grid) (visited : Mask) (start : Point) :
    List Point → Except Fault Points
  | [] => .ok []
  | d :: ds =>
    let ny := start.1 + d.1
    let nx := start.2 + d.2
    let neighbor : Point := (ny, nx)
    let local_ny := ny - g.bias.1
    let local_nx := nx - g.bias.2
    if g.is_valid neighbor then
      match visited.read local_ny local_nx with
      | none => .error .outOfBounds
      | some true => g.collect visited start ds
      | some false =>
        match g.collect visited start ds with
        | .error e => .error e
        | .ok rest => .ok (neighbor :: rest)
    else g.collect visited start ds

/-- The test `start.first == ty && start.second == tx` over `target_end`. -/
def hitsTarget (start : Point) (target_end : Points) : Bool :=
  target_end.any (fun t => decide (start.1 = t.1) && decide (start.2 = t.2))

/-- The unwinding `visited[local_y][local_x] = false; path.pop_back(); return false;`. -/
def unwind (s : Search) (local_y local_x : Int) : Except Fault (Bool × Search) :=
  match s.visited.write local_y local_x false with
  | none => .error .outOfBounds
  | some visited1 =>
    match popBack s.path with
    | none => .error .emptyPop
    | some path1 => .ok (false, ⟨visited1, path1, s.rng⟩)

/-- `Grid::backtrack`.  The first argument bounds the depth of the recursion. -/
def Grid.backtrack (g : Grid) (target_end : Points) :
    Nat → Point → Search → Except Fault (Bool × Search)
  | 0, _, _ => .error .outOfFuel
  | fuel + 1, start, s =>
    let local_y := start.1 - g.bias.1
    let local_x := start.2 - g.bias.2
    match s.visited.write local_y local_x true with
    | none => .error .outOfBounds
    | some visited =>
      let path := s.path ++ [start]
      if (path.length : Int) = g.width * g.height then
        if !target_end.isEmpty then
          if hitsTarget start target_end then
            .ok (true, ⟨visited, path, s.rng⟩)
          else unwind ⟨visited, path, s.rng⟩ local_y local_x
        else .ok (true, ⟨visited, path, s.rng⟩)
      else
        match g.collect visited start directions with
        | .error e => .error e
        | .ok neighbors =>
          let sh := shuffle neighbors s.rng
          match tryEach (fun n t => g.backtrack target_end fuel n t) sh.1
              ⟨visited, path, sh.2⟩ with
          | .error e => .error e
          | .ok (true, s1) => .ok (true, s1)
          | .ok (false, s1) => unwind s1 local_y local_x

/-- The constructor `std::vector<bool>(n, value)` of the C++ library, called
with an `int`.  The library does not check the size: a negative `n` becomes a
`size_t` beyond `max_size()`, nothing is thrown, and the object that is built
has no defined state (`none`). -/
def vectorBool (n : Int) (value : Bool) : Option (List Bool) :=
  if n < 0 then none else some (List.replicate n.toNat value)

/-- The constructor `std::vector<std::vector<bool>>(n, row)` of the C++ library,
called with an `int`.  The library first compares the size with `max_size()`
and throws `std::length_error` for a negative `n`; then it fills the vector
with copies of `row`, which has no defined result for a row without a defined
state. -/
def vectorRows (n : Int) (row : Option (List Bool)) : Except Fault Mask :=
  if n < 0 then .error .lengthError
  else
    match row with
    | none => .error .badSize
    | some r => .ok (List.replicate n.toNat r)

/-- `Grid::sample_path(start, target_end)`.  Returns the path and the state of
the grid's generator after the call.  The mask is
`std::vector<std::vector<bool>>(height, std::vector<bool>(width, false))`;
nothing in the function tests `start`, `height` or `width`.  The recursion
budget is one more than the number of cells. -/
def Grid.sample_path (g : Grid) (start : Point) (target_end : Points) (rng : Rng) :
    Except Fault (Points × Rng) :=
  match vectorRows g.height (vectorBool g.width false) with
  | .error e => .error e
  | .ok visited =>
    match g.backtrack target_end ((g.height * g.width).toNat + 1) start ⟨visited, [], rng⟩ with
    | .error e => .error e
    | .ok (true, s) => .ok (s.path, s.rng)
    | .ok (false, s) => .ok ([], s.rng)

/-- The counting loop `for (int x = lo; x < hi; x++) body(x)` acting on an
accumulated vector; the first argument bounds the number of iterations. -/
def forLoop (body : Int → Points → Points) : Nat → Int → Int → Points → Points
  | 0, _, _, out => out
  | k + 1, x, hi, out => if x < hi then forLoop body k (x + 1) hi (body x out) else out

/-- The loop `for (int x = lo; x < hi; x++) target_end.push_back(f x)` started
on an empty vector. -/
def pushRange (f : Int → Point) (lo hi : Int) : Points :=
  forLoop (fun x out => out ++ [f x]) (hi - lo).toNat lo hi []

/-- `Grid::sample_path(start, end_side)`, the overload taking a side name: it
fills `target_end` according to the name and calls `sample_path(start, target_end)`
(for `"any"`, `sample_path(start)`; for any other string `target_end` stays empty). -/
def Grid.sample_path_side (g : Grid) (start : Point) (end_side : String) (rng : Rng) :
    Except Fault (Points × Rng) :=
  if end_side = "top" then
    let y := g.bias.1
    g.sample_path start (pushRange (fun x => (y, x)) g.bias.2 (g.bias.2 + g.width)) rng
  else if end_side = "bottom" then
    let y := g.bias.1 + g.height - 1
    g.sample_path start (pushRange (fun x => (y, x)) g.bias.2 (g.bias.2 + g.width)) rng
  else if end_side = "left" then
    let x := g.bias.2
    g.sample_path start (pushRange (fun y => (y, x)) g.bias.1 (g.bias.1 + g.height)) rng
  else if end_side = "right" then
    let x := g.bias.2 + g.width - 1
    g.sample_path start (pushRange (fun y => (y, x)) g.bias.1 (g.bias.1 + g.height)) rng
  else if end_side = "any" then g.sample_path start [] rng
  else g.sample_path start [] rng

/-! ## main.cpp : backbite -/

/-- The neighbour collection of `backbite`: the 4-neighbours of the endpoint
inside `[0,height) x [0,width)`, in direction order. -/
def biteNeighbors (end_y end_x height width : Int) : Points :=
  directions.filterMap (fun d =>
    let ny := end_y + d.1
    let nx := end_x + d.2
    if ny ≥ 0 ∧ ny < height ∧ nx ≥ 0 ∧ nx < width then some (ny, nx) else none)

/-- The two `std::reverse` branches of `backbite`, for the bite found at
position `k` of the path (`k < path.length`). -/
def biteReverse (path : Points) (end_index k : Nat) : Points :=
  if end_index = 0 then
    if k ≠ 0 then (path.take k).reverse ++ path.drop k else path
  else
    if k + 1 ≠ path.length then path.take (k + 1) ++ (path.drop (k + 1)).reverse else path

/-- `std::find(path.begin(), path.end(), b) - path.begin()`: the position of the
first occurrence of `b`, the length of the path when there is none. -/
def findPos (b : Point) : Points → Nat
  | [] => 0
  | x :: xs => if x = b then 0 else findPos b xs + 1

/-- `backbite(path, height, width, rng)`: the path after the call and the
generator after the call. -/
def backbite (path : Points) (height width : Int) (rng : Rng) : Except Fault (Points × Rng) :=
  let e := uniform_int 1 rng
  let end_index : Nat := if e.1 = 0 then 0 else path.length - 1
  match path.get? end_index with
  | none => .error .outOfBounds
  | some en =>
    let neighbors := biteNeighbors en.1 en.2 height width
    if neighbors.isEmpty then .ok (path, e.2)
    else
      let c := uniform_int (neighbors.length - 1) e.2
      match neighbors.get? c.1 with
      | none => .error .outOfBounds
      | some bite =>
        let k := findPos bite path
        if k = path.length then .ok (path, c.2)
        else .ok (biteReverse path end_index k, c.2)

/-- The loop `for (int i = 0; i < backbite_steps; i++) backbite(path, m, n, rng);`
of `main`. -/
def backbite_loop : Nat → Points → Int → Int → Rng → Except Fault (Points × Rng)
  | 0, path, _, _, rng => .ok (path, rng)
  | k + 1, path, height, width, rng =>
    match backbite path height width rng with
    | .error e => .error e
    | .ok r => backbite_loop k r.1 height width r.2

/-! ## main.cpp : sample_path_pyramid -/

/-- The choice of `end_side` from the current and the next coarse cell
(`none` when the current cell is the last one). -/
def endSide (cur : Point) (next : Option Point) : String :=
  match next with
  | none => "any"
  | some nx =>
    if nx.1 = cur.1 + 1 then "bottom"
    else if nx.1 = cur.1 - 1 then "top"
    else if nx.2 = cur.2 + 1 then "right"
    else if nx.2 = cur.2 - 1 then "left"
    else "any"

/-- The start of a sub-path after the first: `last_pos` moved one unit in the
direction from the previous coarse cell to the current one. -/
def stepStart (prev cur last_pos : Point) : Point :=
  if prev.1 < cur.1 then (last_pos.1 + 1, last_pos.2)
  else if prev.1 > cur.1 then (last_pos.1 - 1, last_pos.2)
  else if prev.2 < cur.2 then (last_pos.1, last_pos.2 + 1)
  else if prev.2 > cur.2 then (last_pos.1, last_pos.2 - 1)
  else last_pos

/-- The vector `possible_starts` of the first sub-grid: all its cells, row by row. -/
def possibleStarts (cur : Point) (subgrid_m subgrid_n : Int) : Points :=
  forLoop
    (fun yy out =>
      forLoop (fun xx out1 => out1 ++ [(yy, xx)]) subgrid_n.toNat
        (cur.2 * subgrid_n) (cur.2 * subgrid_n + subgrid_n) out)
    subgrid_m.toNat (cur.1 * subgrid_m) (cur.1 * subgrid_m + subgrid_m) []

/-- The start cell computed inside the retry loop, with the generator `rng` of
the caller after the computation. -/
def chooseStart (prev : Option Point) (cur : Point) (full_path : Points)
    (subgrid_m subgrid_n : Int) (rng : Rng) : Except Fault (Point × Rng) :=
  match prev with
  | some pv =>
    match full_path.getLast? with
    | none => .error .outOfBounds
    | some last_pos => .ok (stepStart pv cur last_pos, rng)
  | none =>
    let possible_starts := possibleStarts cur subgrid_m subgrid_n
    if possible_starts.isEmpty then .error .outOfBounds
    else
      let d := uniform_int (possible_starts.length - 1) rng
      match possible_starts.get? d.1 with
      | none => .error .outOfBounds
      | some st => .ok (st, d.2)

/-- The loop `while (subgrid_path.empty()) ...` for one coarse cell.  The
first argument bounds the number of attempts; `rng` is the generator passed to
`sample_path_pyramid`, `grng` the generator owned by the `Grid subgrid`. -/
def retryLoop (g : Grid) (prev : Option Point) (cur : Point) (full_path : Points)
    (end_side : String) : Nat → Rng → Rng → Except Fault (Points × Rng × Rng)
  | 0, _, _ => .error .outOfFuel
  | k + 1, rng, grng =>
    match chooseStart prev cur full_path g.height g.width rng with
    | .error e => .error e
    | .ok st =>
      match g.sample_path_side st.1 end_side grng with
      | .error e => .error e
      | .ok r =>
        if r.1.isEmpty then retryLoop g prev cur full_path end_side k st.2 r.2
        else .ok (r.1, st.2, r.2)

/-- The loop `for (size_t i = 0; i < lowres_path.size(); i++)` of
`sample_path_pyramid`, on the coarse cells still to do: `prev` is
`lowres_path[i-1]` (`none` for `i = 0`), the head of the list is
`lowres_path[i]` and the head of its tail is `lowres_path[i+1]`. -/
def pyramidLoop (retries : Nat) (subgrid_m subgrid_n : Int) :
    Option Point → Points → Points → Rng → Rng → Except Fault (Points × Rng × Rng)
  | _, [], full_path, rng, grng => .ok (full_path, rng, grng)
  | prev, cur :: rest, full_path, rng, grng =>
    let subgrid : Grid := ⟨subgrid_m, subgrid_n, (cur.1 * subgrid_m, cur.2 * subgrid_n)⟩
    let end_side := endSide cur rest.head?
    match retryLoop subgrid prev cur full_path end_side retries rng grng with
    | .error e => .error e
    | .ok r => pyramidLoop retries subgrid_m subgrid_n (some cur) rest (full_path ++ r.1) r.2.1 r.2.2

/-- `sample_path_pyramid(lowres_path, lowres_m, lowres_n, subgrid_m, subgrid_n, rng)`.
`retries` bounds the attempts of each retry loop; `seed` is the state that
`std::random_device` gives to the generator of the local `Grid subgrid`. -/
def sample_path_pyramid (retries : Nat) (lowres_path : Points) (lowres_m lowres_n : Int)
    (subgrid_m subgrid_n : Int) (rng seed : Rng) : Except Fault (Points × Rng) :=
  match pyramidLoop retries subgrid_m subgrid_n none lowres_path [] rng seed with
  | .error e => .error e
  | .ok r => .ok (r.1, r.2.1)

/-! ## Vocabulary of the properties -/

/-- Two cells are 4-adjacent: they differ by exactly one unit in exactly one
coordinate. -/
def adjacent (p q : Point) : Prop :=
  (p.1 = q.1 ∧ (p.2 - q.2).natAbs = 1) ∨ (p.2 = q.2 ∧ (p.1 - q.1).natAbs = 1)

instance adjacentDecidable (p q : Point) : Decidable (adjacent p q) := by
  unfold adjacent; infer_instance

/-- A complete path of the region `g`: as many points as the region has cells,
no point twice, exactly the cells of the region, consecutive points 4-adjacent. -/
structure IsHamPath (g : Grid) (p : Points) : Prop where
  length_eq : (p.length : Int) = g.height * g.width
  nodup : p.Nodup
  cells : ∀ q, q ∈ p ↔ g.is_valid q = true
  chain : p.Chain' adjacent

/-- A cell on which a search with target set `target_end` may end: any cell
when the set is empty, a member of the set otherwise. -/
def accepted (target_end : Points) (q : Point) : Prop :=
  target_end = [] ∨ q ∈ target_end

/-- The boundary line of the region named by a side, in absolute coordinates,
as the specification words it: `top` is the `width` cells `(by, bx .. bx+w-1)`,
`bottom` the `width` cells `(by+h-1, bx .. bx+w-1)`, `left` the `height` cells
`(by .. by+h-1, bx)`, `right` the `height` cells `(by .. by+h-1, bx+w-1)`;
`any` (like every other name) puts no constraint. -/
def Grid.boundaryLine (g : Grid) (side : String) : Points :=
  if side = "top" then
    (List.range g.width.toNat).map (fun (j : Nat) => (g.bias.1, g.bias.2 + (j : Int)))
  else if side = "bottom" then
    (List.range g.width.toNat).map (fun (j : Nat) => (g.bias.1 + g.height - 1, g.bias.2 + (j : Int)))
  else if side = "left" then
    (List.range g.height.toNat).map (fun (i : Nat) => (g.bias.1 + (i : Int), g.bias.2))
  else if side = "right" then
    (List.range g.height.toNat).map (fun (i : Nat) => (g.bias.1 + (i : Int), g.bias.2 + g.width - 1))
  else []

/-- A mask of `h` rows of `w` entries each. -/
def Mask.Shaped (v : Mask) (h w : Nat) : Prop :=
  v.length = h ∧ ∀ row ∈ v, row.length = w

/-- The cells of the region, row by row. -/
def Grid.cellList (g : Grid) : Points :=
  (List.range g.height.toNat).flatMap (fun (i : Nat) =>
    (List.range g.width.toNat).map (fun (j : Nat) => (g.bias.1 + (i : Int), g.bias.2 + (j : Int))))

/-- What remains of a search that stands at `start` with `k` cells already on
the path and visited mask `v` (in which `start` is still unmarked): `rest`
continues `start` to a complete path.  The cells `start :: rest` are pairwise
distinct, unmarked in `v`, consecutive ones are 4-adjacent, together with the
`k` earlier cells they are as many as the region has cells, and the last of
them is accepted by the target set. -/
structure Completion (g : Grid) (target_end : Points) (v : Mask) (k : Nat) (start : Point)
    (rest : Points) : Prop where
  chain : (start :: rest).Chain' adjacent
  nodup : (start :: rest).Nodup
  unmarked : ∀ q ∈ start :: rest, v.read (q.1 - g.bias.1) (q.2 - g.bias.2) = some false
  count : ((k : Int) + 1 + (rest.length : Int)) = g.width * g.height
  last_ok : accepted target_end (rest.getLastD start)

/-- The call did not fault: it returned a value, or the step budget of the
embedding ran out (the program is still running). -/
def NoFault {α : Type} (r : Except Fault α) : Prop :=
  (∃ a, r = .ok a) ∨ r = .error .outOfFuel

/-- The choices made by one `backbite`, read off its first lines: the index
`end_index` of the chosen endpoint (`0` for the front) and the chosen in-bounds
neighbour `bite`; `none` when the path is empty or the endpoint has no
in-bounds neighbour. -/
def bitePick (path : Points) (height width : Int) (rng : Rng) : Option (Nat × Point) :=
  let e := uniform_int 1 rng
  let end_index : Nat := if e.1 = 0 then 0 else path.length - 1
  match path.get? end_index with
  | none => none
  | some en =>
    let neighbors := biteNeighbors en.1 en.2 height width
    if neighbors.isEmpty then none
    else
      let c := uniform_int (neighbors.length - 1) e.2
      match neighbors.get? c.1 with
      | none => none
      | some bite => some (end_index, bite)

/-- The number of cells marked visited in a mask. -/
def Mask.marked (v : Mask) : Nat := (v.map (fun row => row.count true)).sum

/-- The number of cells not marked visited in a mask. -/
def Mask.free (v : Mask) : Nat := (v.map (fun row => row.count false)).sum

/-- The states in which the loop `for (neighbor : neighbors) if (backtrack(..)) ..`
enters its nested calls, in order: the state before each call made by `tryEach`. -/
def tryEachEntries (call : Point → Search → Except Fault (Bool × Search)) :
    Points → Search → List Search
  | [], _ => []
  | n :: ns, s =>
    s :: (match call n s with
      | .ok (false, s1) => tryEachEntries call ns s1
      | _ => [])

/-- Row `i` of the region in the direction the serpentine path runs through it:
left to right for an even `i`, right to left for an odd `i`. -/
def Grid.snakeRow (g : Grid) (i : Nat) : Points :=
  if i % 2 = 0 then
    (List.range g.width.toNat).map (fun (j : Nat) => (g.bias.1 + (i : Int), g.bias.2 + (j : Int)))
  else
    ((List.range g.width.toNat).map
      (fun (j : Nat) => (g.bias.1 + (i : Int), g.bias.2 + (j : Int)))).reverse

/-- The serpentine path of the region: its rows from the first to the last,
each in the direction opposite to the one before, beginning at the corner
cell `bias`. -/
def Grid.snake (g : Grid) : Points := (List.range g.height.toNat).flatMap g.snakeRow

theorem Mask.fresh_shaped (h w : Nat) : (Mask.fresh h w).Shaped h w := by
  constructor
  · simp [Mask.fresh]
  · intro row hrow
    simp [Mask.fresh] at hrow
    rw [hrow.2]; simp

theorem Mask.read_eq_some_iff (v : Mask) (y x : Int) (b : Bool) :
    v.read y x = some b ↔
      0 ≤ y ∧ 0 ≤ x ∧ ∃ row, v.get? y.toNat = some row ∧ row.get? x.toNat = some b := by
  unfold Mask.read
  by_cases hyx : 0 ≤ y ∧ 0 ≤ x
  · rw [if_pos hyx]
    cases hrow : v.get? y.toNat with
    | none => simp
    | some row => simp [hyx.1, hyx.2]
  · rw [if_neg hyx]
    constructor
    · intro h; cases h
    · rintro ⟨h1, h2, _⟩; exact absurd ⟨h1, h2⟩ hyx

theorem Mask.write_eq_some_iff (v : Mask) (y x : Int) (b : Bool) (v1 : Mask) :
    v.write y x b = some v1 ↔
      0 ≤ y ∧ 0 ≤ x ∧ ∃ row, v.get? y.toNat = some row ∧ x.toNat < row.length ∧
        v1 = v.set y.toNat (row.set x.toNat b) := by
  unfold Mask.write
  by_cases hyx : 0 ≤ y ∧ 0 ≤ x
  · rw [if_pos hyx]
    cases hrow : v.get? y.toNat with
    | none => simp
    | some row =>
      by_cases hx : x.toNat < row.length
      · simp only [if_pos hx]
        constructor
        · intro h; cases h; exact ⟨hyx.1, hyx.2, row, rfl, hx, rfl⟩
        · rintro ⟨_, _, row1, h1, _, h3⟩
          cases h1; rw [h3]
      · simp only [if_neg hx]
        constructor
        · intro h; cases h
        · rintro ⟨_, _, row1, h1, h2, _⟩
          cases h1; exact absurd h2 hx
  · rw [if_neg hyx]
    constructor
    · intro h; cases h
    · rintro ⟨h1, h2, _⟩; exact absurd ⟨h1, h2⟩ hyx

theorem Mask.read_isSome_of_shaped {v : Mask} {h w : Nat} (hv : v.Shaped h w) {y x : Int}
    (hy0 : 0 ≤ y) (hy : y < h) (hx0 : 0 ≤ x) (hx : x < w) : ∃ b, v.read y x = some b := by
  have hyn : y.toNat < v.length := by rw [hv.1]; omega
  obtain ⟨row, hrow⟩ : ∃ row, v.get? y.toNat = some row := ⟨_, List.get?_eq_get hyn⟩
  have hlen : row.length = w := hv.2 row (List.get?_mem hrow)
  have hxn : x.toNat < row.length := by omega
  exact ⟨row.get ⟨_, hxn⟩, (Mask.read_eq_some_iff v y x _).2 ⟨hy0, hx0, row, hrow, List.get?_eq_get hxn⟩⟩

theorem Mask.read_bounds {v : Mask} {h w : Nat} (hv : v.Shaped h w) {y x : Int} {b : Bool}
    (hr : v.read y x = some b) : 0 ≤ y ∧ y < h ∧ 0 ≤ x ∧ x < w := by
  obtain ⟨hy0, hx0, row, hrow, hb⟩ := (Mask.read_eq_some_iff v y x b).1 hr
  have hlen : row.length = w := hv.2 row (List.get?_mem hrow)
  have h1 : y.toNat < v.length := (List.get?_eq_some.1 hrow).1
  have h2 : x.toNat < row.length := (List.get?_eq_some.1 hb).1
  have := hv.1
  omega

theorem Mask.write_of_read {v : Mask} {y x : Int} {b : Bool} (hr : v.read y x = some b)
    (c : Bool) : ∃ v1, v.write y x c = some v1 := by
  obtain ⟨hy0, hx0, row, hrow, hb⟩ := (Mask.read_eq_some_iff v y x b).1 hr
  exact ⟨_, (Mask.write_eq_some_iff v y x c _).2
    ⟨hy0, hx0, row, hrow, (List.get?_eq_some.1 hb).1, rfl⟩⟩

theorem Mask.read_of_write {v v1 : Mask} {y x : Int} {c : Bool} (hw : v.write y x c = some v1) :
    ∃ b, v.read y x = some b := by
  obtain ⟨hy0, hx0, row, hrow, hx, _⟩ := (Mask.write_eq_some_iff v y x c v1).1 hw
  exact ⟨row.get ⟨_, hx⟩, (Mask.read_eq_some_iff v y x _).2 ⟨hy0, hx0, row, hrow, List.get?_eq_get hx⟩⟩

theorem Mask.write_shaped {v v1 : Mask} {h w : Nat} {y x : Int} {c : Bool}
    (hw : v.write y x c = some v1) (hv : v.Shaped h w) : v1.Shaped h w := by
  obtain ⟨hy0, hx0, row, hrow, hx, rfl⟩ := (Mask.write_eq_some_iff v y x c v1).1 hw
  constructor
  · simpa using hv.1
  · intro r hr
    rcases List.mem_or_eq_of_mem_set hr with h1 | h1
    · exact hv.2 r h1
    · rw [h1, List.length_set]; exact hv.2 row (List.get?_mem hrow)

theorem Mask.read_write_same {v v1 : Mask} {y x : Int} {c : Bool}
    (hw : v.write y x c = some v1) : v1.read y x = some c := by
  obtain ⟨hy0, hx0, row, hrow, hx, rfl⟩ := (Mask.write_eq_some_iff v y x c v1).1 hw
  refine (Mask.read_eq_some_iff _ y x c).2 ⟨hy0, hx0, row.set x.toNat c, ?_, ?_⟩
  · have h1 : y.toNat < v.length := (List.get?_eq_some.1 hrow).1
    simp [List.getElem?_set, h1]
  · simp [List.getElem?_set, hx]

theorem Mask.read_write_other {v v1 : Mask} {y x : Int} {c : Bool}
    (hw : v.write y x c = some v1) {y1 x1 : Int} (hne : (y1, x1) ≠ (y, x)) :
    v1.read y1 x1 = v.read y1 x1 := by
  obtain ⟨hy0, hx0, row, hrow, hx, rfl⟩ := (Mask.write_eq_some_iff v y x c v1).1 hw
  unfold Mask.read
  by_cases hyx : 0 ≤ y1 ∧ 0 ≤ x1
  · rw [if_pos hyx, if_pos hyx]
    by_cases hy : y.toNat = y1.toNat
    · have hxne : x.toNat ≠ x1.toNat := by
        intro hxe
        apply hne
        have : y1 = y := by omega
        have : x1 = x := by omega
        simp [*]
      have h1 : y.toNat < v.length := (List.get?_eq_some.1 hrow).1
      rw [← hy, hrow]
      simp [List.getElem?_set, h1, hxne]
    · simp [List.getElem?_set, hy]
  · rw [if_neg hyx, if_neg hyx]

theorem Mask.ext_read {v v1 : Mask} {h w : Nat} (hv : v.Shaped h w) (hv1 : v1.Shaped h w)
    (hread : ∀ y x : Int, v.read y x = v1.read y x) : v = v1 := by
  apply List.ext_get (by rw [hv.1, hv1.1])
  intro i hi hi1
  have hr : (v.get ⟨i, hi⟩).length = w := hv.2 _ (List.get_mem _ _ _)
  have hr1 : (v1.get ⟨i, hi1⟩).length = w := hv1.2 _ (List.get_mem _ _ _)
  apply List.ext_get (by rw [hr, hr1])
  intro j hj hj1
  have := hread (i : Int) (j : Int)
  unfold Mask.read at this
  simp only [Int.natCast_nonneg, and_self, if_true, Int.toNat_ofNat] at this
  rw [List.get?_eq_get hi, List.get?_eq_get hi1] at this
  simp only [] at this
  rw [List.get?_eq_get hj, List.get?_eq_get hj1] at this
  exact Option.some.inj this

theorem Mask.write_restore {v v1 v2 : Mask} {h w : Nat} (hv : v.Shaped h w) {y x : Int}
    (hr : v.read y x = some false) (hw : v.write y x true = some v1)
    (hw2 : v1.write y x false = some v2) : v2 = v := by
  have hv1 := Mask.write_shaped hw hv
  have hv2 := Mask.write_shaped hw2 hv1
  apply Mask.ext_read hv2 hv
  intro y1 x1
  by_cases hne : (y1, x1) = (y, x)
  · cases hne
    rw [Mask.read_write_same hw2, hr]
  · rw [Mask.read_write_other hw2 hne, Mask.read_write_other hw hne]

/-! ## Shuffling, neighbour collection, and the neighbour loop -/

theorem shuffleAux_perm :
    ∀ (n : Nat) (xs : Points) (rng : Rng), xs.length = n → (shuffleAux n xs rng).1.Perm xs := by
  intro n
  induction n with
  | zero =>
    intro xs rng hlen
    have : xs = [] := List.length_eq_zero.1 hlen
    subst this
    simp [shuffleAux]
  | succ n ih =>
    intro xs rng hlen
    have hpos : 0 < xs.length := by omega
    have hi : (Rng.next rng).1 % xs.length < xs.length := Nat.mod_lt _ hpos
    unfold shuffleAux
    simp only [List.get?_eq_get hi]
    have hlen1 : (xs.eraseIdx ((Rng.next rng).1 % xs.length)).length = n := by
      rw [List.length_eraseIdx, if_pos hi]; omega
    have h1 := ih (xs.eraseIdx ((Rng.next rng).1 % xs.length)) (Rng.next rng).2 hlen1
    refine (List.Perm.cons _ h1).trans ?_
    rw [List.eraseIdx_eq_take_drop_succ]
    refine List.perm_middle.symm.trans ?_
    have h2 : xs.get ⟨_, hi⟩ :: xs.drop ((Rng.next rng).1 % xs.length + 1)
        = xs.drop ((Rng.next rng).1 % xs.length) := by
      simp
    rw [h2, List.take_append_drop]

theorem shuffle_perm (xs : Points) (rng : Rng) : (shuffle xs rng).1.Perm xs :=
  shuffleAux_perm xs.length xs rng rfl

theorem shuffle_mem (xs : Points) (rng : Rng) (n : Point) : n ∈ (shuffle xs rng).1 ↔ n ∈ xs :=
  (shuffle_perm xs rng).mem_iff

theorem perm_cons_eraseIdx (xs : Points) (i : Nat) (hi : i < xs.length) :
    (xs.get ⟨i, hi⟩ :: xs.eraseIdx i).Perm xs := by
  rw [List.eraseIdx_eq_take_drop_succ]
  refine List.perm_middle.symm.trans ?_
  have h2 : xs.get ⟨i, hi⟩ :: xs.drop (i + 1) = xs.drop i := by simp
  rw [h2, List.take_append_drop]

/-- Every rearrangement of `xs` is the result of `shuffle xs` for some state of
the generator. -/
theorem shuffle_surjective : ∀ (ys xs : Points), ys.Perm xs →
    ∃ rng : Rng, (shuffle xs rng).1 = ys := by
  intro ys
  induction ys with
  | nil =>
    intro xs hperm
    have : xs = [] := hperm.symm.eq_nil
    subst this
    exact ⟨[], rfl⟩
  | cons y ys ih =>
    intro xs hperm
    have hy : y ∈ xs := hperm.subset (List.mem_cons_self _ _)
    obtain ⟨⟨i, hi⟩, hget⟩ := List.mem_iff_get.1 hy
    have hrest : ys.Perm (xs.eraseIdx i) := by
      have h1 := perm_cons_eraseIdx xs i hi
      rw [hget] at h1
      exact (hperm.trans h1.symm).cons_inv
    obtain ⟨rng1, hrng1⟩ := ih (xs.eraseIdx i) hrest
    refine ⟨i :: rng1, ?_⟩
    have hlen : xs.length = (xs.eraseIdx i).length + 1 := by
      rw [List.length_eraseIdx, if_pos hi]; omega
    unfold shuffle at hrng1 ⊢
    rw [hlen]
    unfold shuffleAux
    simp only [Rng.next, Nat.mod_eq_of_lt hi, List.get?_eq_get hi, hget, hrng1]

theorem Grid.is_valid_iff (g : Grid) (p : Point) :
    g.is_valid p = true ↔
      0 ≤ p.1 - g.bias.1 ∧ p.1 - g.bias.1 < g.height ∧
        0 ≤ p.2 - g.bias.2 ∧ p.2 - g.bias.2 < g.width := by
  simp [Grid.is_valid, and_assoc]

theorem Grid.collect_spec (g : Grid) (v : Mask) (hv : v.Shaped g.height.toNat g.width.toNat)
    (start : Point) : ∀ ds : List Point, ∃ nbrs, g.collect v start ds = .ok nbrs ∧
      ∀ n, n ∈ nbrs ↔ ∃ d ∈ ds, n = (start.1 + d.1, start.2 + d.2) ∧ g.is_valid n = true ∧
        v.read (n.1 - g.bias.1) (n.2 - g.bias.2) = some false := by
  intro ds
  induction ds with
  | nil => exact ⟨[], rfl, by simp⟩
  | cons d ds ih =>
    obtain ⟨rest, hrest, hmem⟩ := ih
    unfold Grid.collect
    simp only []
    by_cases hval : g.is_valid (start.1 + d.1, start.2 + d.2) = true
    · rw [if_pos hval]
      have hb := (g.is_valid_iff _).1 hval
      obtain ⟨b, hread⟩ := Mask.read_isSome_of_shaped hv hb.1 (by omega : _ < ((g.height.toNat : Nat) : Int))
        hb.2.2.1 (by omega : _ < ((g.width.toNat : Nat) : Int))
      simp only [] at hread
      rw [hread]
      cases b with
      | true =>
        refine ⟨rest, hrest, ?_⟩
        intro n
        rw [hmem n]
        constructor
        · rintro ⟨d1, hd1, h⟩; exact ⟨d1, List.mem_cons_of_mem _ hd1, h⟩
        · rintro ⟨d1, hd1, h1, h2, h3⟩
          rcases List.mem_cons.1 hd1 with h | h
          · subst h; subst h1
            rw [hread] at h3; cases h3
          · exact ⟨d1, h, h1, h2, h3⟩
      | false =>
        simp only [hrest]
        refine ⟨_, rfl, ?_⟩
        intro n
        rw [List.mem_cons, hmem n]
        constructor
        · rintro (h | ⟨d1, hd1, h⟩)
          · subst h
            exact ⟨d, List.mem_cons_self _ _, rfl, hval, hread⟩
          · exact ⟨d1, List.mem_cons_of_mem _ hd1, h⟩
        · rintro ⟨d1, hd1, h1, h2, h3⟩
          rcases List.mem_cons.1 hd1 with h | h
          · subst h; exact Or.inl h1
          · exact Or.inr ⟨d1, h, h1, h2, h3⟩
    · rw [if_neg hval]
      refine ⟨rest, hrest, ?_⟩
      intro n
      rw [hmem n]
      constructor
      · rintro ⟨d1, hd1, h⟩; exact ⟨d1, List.mem_cons_of_mem _ hd1, h⟩
      · rintro ⟨d1, hd1, h1, h2, h3⟩
        rcases List.mem_cons.1 hd1 with h | h
        · subst h; subst h1; exact absurd h2 hval
        · exact ⟨d1, h, h1, h2, h3⟩

theorem tryEach_spec (call : Point → Search → Except Fault (Bool × Search))
    (P : Search → Prop) (Q : Point → Search → Prop) (F : Point → Prop) :
    ∀ (ns : Points) (s : Search), P s →
      (∀ n ∈ ns, ∀ t, P t → ∃ b t1, call n t = .ok (b, t1) ∧
        (b = false → P t1 ∧ F n) ∧ (b = true → Q n t1)) →
      ∃ b s1, tryEach call ns s = .ok (b, s1) ∧
        (b = false → P s1 ∧ ∀ n ∈ ns, F n) ∧ (b = true → ∃ n ∈ ns, Q n s1) := by
  intro ns
  induction ns with
  | nil =>
    intro s hs _
    exact ⟨false, s, rfl, fun _ => ⟨hs, by simp⟩, by simp⟩
  | cons n ns ih =>
    intro s hs hcall
    obtain ⟨b, t1, hc, hf, ht⟩ := hcall n (List.mem_cons_self _ _) s hs
    cases b with
    | true =>
      refine ⟨true, t1, ?_, by simp, fun _ => ⟨n, List.mem_cons_self _ _, ht rfl⟩⟩
      simp [tryEach, hc]
    | false =>
      obtain ⟨hp1, hfn⟩ := hf rfl
      obtain ⟨b2, s2, h2, hf2, ht2⟩ := ih t1 hp1
        (fun m hm t hpt => hcall m (List.mem_cons_of_mem _ hm) t hpt)
      refine ⟨b2, s2, ?_, ?_, ?_⟩
      · simp [tryEach, hc, h2]
      · intro hb
        obtain ⟨hp2, hall⟩ := hf2 hb
        refine ⟨hp2, ?_⟩
        intro m hm
        rcases List.mem_cons.1 hm with h | h
        · subst h; exact hfn
        · exact hall m h
      · intro hb
        obtain ⟨m, hm, hq⟩ := ht2 hb
        exact ⟨m, List.mem_cons_of_mem _ hm, hq⟩

/-! ## The backtracking search -/

theorem adjacent_iff_dir (p q : Point) :
    adjacent p q ↔ ∃ d ∈ directions, q = (p.1 + d.1, p.2 + d.2) := by
  obtain ⟨p1, p2⟩ := p
  obtain ⟨q1, q2⟩ := q
  simp only [adjacent, directions, List.mem_cons, List.mem_singleton, List.not_mem_nil,
    or_false, exists_eq_or_imp, exists_eq_left, Prod.mk.injEq]
  constructor
  · rintro (⟨h1, h2⟩ | ⟨h1, h2⟩) <;> omega
  · intro h; omega

theorem adjacent_symm {p q : Point} (h : adjacent p q) : adjacent q p := by
  unfold adjacent at *
  omega

theorem adjacent_ne {p q : Point} (h : adjacent p q) : p ≠ q := by
  intro he
  subst he
  unfold adjacent at h
  omega

theorem hitsTarget_iff (start : Point) (te : Points) :
    hitsTarget start te = true ↔ start ∈ te := by
  unfold hitsTarget
  rw [List.any_eq_true]
  constructor
  · rintro ⟨t, ht, h⟩
    have h1 : start = t := by
      simp only [Bool.and_eq_true, decide_eq_true_eq] at h
      exact Prod.ext h.1 h.2
    rw [h1]; exact ht
  · intro h
    exact ⟨start, h, by simp⟩

theorem popBack_snoc (l : Points) (a : Point) : popBack (l ++ [a]) = some l := by
  simp [popBack]

theorem local_ne (g : Grid) {p q : Point} (h : p ≠ q) :
    (p.1 - g.bias.1, p.2 - g.bias.2) ≠ (q.1 - g.bias.1, q.2 - g.bias.2) := by
  intro he
  apply h
  have h1 := congrArg Prod.fst he
  have h2 := congrArg Prod.snd he
  simp only [] at h1 h2
  exact Prod.ext (by omega) (by omega)

theorem Grid.is_valid_of_read (g : Grid) {v : Mask}
    (hv : v.Shaped g.height.toNat g.width.toNat) {q : Point} {b : Bool}
    (hr : v.read (q.1 - g.bias.1) (q.2 - g.bias.2) = some b) : g.is_valid q = true := by
  have := Mask.read_bounds hv hr
  rw [g.is_valid_iff]
  omega

theorem Completion.nil_of_full {g : Grid} {te : Points} {v : Mask} {k : Nat} {start : Point}
    {rest : Points} (hc : Completion g te v k start rest)
    (hfull : ((k : Int) + 1) = g.width * g.height) : rest = [] := by
  have := hc.count
  have h0 : (rest.length : Int) = 0 := by omega
  exact List.length_eq_zero.1 (by exact_mod_cast h0)

theorem Grid.backtrack_spec (g : Grid) (te : Points) :
    ∀ (fuel : Nat) (start : Point) (s : Search),
      s.visited.Shaped g.height.toNat g.width.toNat →
      s.visited.read (start.1 - g.bias.1) (start.2 - g.bias.2) = some false →
      (s.path.length : Int) < g.width * g.height →
      g.width * g.height ≤ (s.path.length : Int) + fuel →
      ∃ b s1, g.backtrack te fuel start s = .ok (b, s1) ∧
        (b = false → s1.visited = s.visited ∧ s1.path = s.path ∧
            ¬ ∃ rest, Completion g te s.visited s.path.length start rest) ∧
        (b = true → ∃ rest, s1.path = s.path ++ start :: rest ∧
            Completion g te s.visited s.path.length start rest) := by
  intro fuel
  induction fuel with
  | zero =>
    intro start s _ _ hlen hfuel
    exfalso
    simp only [Nat.cast_zero, add_zero] at hfuel
    omega
  | succ fuel ih =>
    intro start s hv hfree hlen hfuel
    obtain ⟨visited, hw⟩ := Mask.write_of_read hfree true
    have hv1 := Mask.write_shaped hw hv
    have hmark := Mask.read_write_same hw
    obtain ⟨v2, hw2⟩ := Mask.write_of_read hmark false
    have hv2 : v2 = s.visited := Mask.write_restore hv hfree hw hw2
    subst hv2
    have hplen : ((s.path ++ [start]).length : Int) = (s.path.length : Int) + 1 := by simp
    have hunwind : ∀ r : Rng, unwind ⟨visited, s.path ++ [start], r⟩
        (start.1 - g.bias.1) (start.2 - g.bias.2) = .ok (false, ⟨s.visited, s.path, r⟩) := by
      intro r
      simp [unwind, hw2, popBack_snoc]
    unfold Grid.backtrack
    simp only [hw]
    by_cases hfull : ((s.path ++ [start]).length : Int) = g.width * g.height
    · rw [if_pos hfull]
      have hdone : accepted te start → Completion g te s.visited s.path.length start [] := by
        intro hacc
        refine ⟨by simp, by simp, ?_, ?_, hacc⟩
        · intro q hq
          rw [List.mem_singleton] at hq
          subst hq; exact hfree
        · rw [← hfull, hplen]; simp
      by_cases hte : te.isEmpty = true
      · simp only [hte, Bool.not_true, Bool.false_eq_true, if_false]
        refine ⟨true, _, rfl, by simp, fun _ => ⟨[], rfl, hdone ?_⟩⟩
        exact Or.inl (List.isEmpty_iff.1 hte)
      · simp only [Bool.not_eq_true] at hte
        simp only [hte, Bool.not_false, if_true]
        by_cases hhit : hitsTarget start te = true
        · rw [if_pos hhit]
          refine ⟨true, _, rfl, by simp, fun _ => ⟨[], rfl, hdone ?_⟩⟩
          exact Or.inr ((hitsTarget_iff _ _).1 hhit)
        · rw [if_neg hhit, hunwind]
          refine ⟨false, _, rfl, fun _ => ⟨rfl, rfl, ?_⟩, by simp⟩
          rintro ⟨rest, hc⟩
          have hnil := hc.nil_of_full (by rw [← hfull, hplen])
          subst hnil
          rcases hc.last_ok with h | h
          · rw [h] at hte; simp at hte
          · exact hhit ((hitsTarget_iff _ _).2 h)
    · rw [if_neg hfull]
      rw [hplen] at hfull
      obtain ⟨nbrs, hcol, hnb⟩ := g.collect_spec visited hv1 start directions
      simp only [hcol]
      -- the loop over the shuffled neighbours
      have hloop := tryEach_spec (fun n t => g.backtrack te fuel n t)
        (fun t => t.visited = visited ∧ t.path = s.path ++ [start])
        (fun n t => ∃ rest, t.path = (s.path ++ [start]) ++ n :: rest ∧
          Completion g te visited (s.path.length + 1) n rest)
        (fun n => ¬ ∃ rest, Completion g te visited (s.path.length + 1) n rest)
        (shuffle nbrs s.rng).1 ⟨visited, s.path ++ [start], (shuffle nbrs s.rng).2⟩
        ⟨rfl, rfl⟩ (by
          intro n hn t ht
          obtain ⟨htv, htp⟩ := ht
          have hn1 := (hnb n).1 ((shuffle_mem _ _ _).1 hn)
          obtain ⟨d, _, _, _, hread⟩ := hn1
          have hl : (t.path.length : Int) = (s.path.length : Int) + 1 := by rw [htp, hplen]
          obtain ⟨b, t1, hrun, hf, htr⟩ := ih n t (by rw [htv]; exact hv1) (by rw [htv]; exact hread)
            (by omega) (by push_cast at hfuel; omega)
          refine ⟨b, t1, hrun, ?_, ?_⟩
          · intro hb
            obtain ⟨h1, h2, h3⟩ := hf hb
            refine ⟨⟨h1.trans htv, h2.trans htp⟩, ?_⟩
            rw [htv, htp] at h3
            simpa using h3
          · intro hb
            obtain ⟨rest, h1, h2⟩ := htr hb
            refine ⟨rest, by rw [h1, htp], ?_⟩
            rw [htv, htp] at h2
            simpa using h2)
      obtain ⟨b, s1, hrun, hf, htr⟩ := hloop
      rw [hrun]
      have hstep : ∀ q : Point, q ≠ start →
          visited.read (q.1 - g.bias.1) (q.2 - g.bias.2)
            = s.visited.read (q.1 - g.bias.1) (q.2 - g.bias.2) := fun q hq =>
        Mask.read_write_other hw (local_ne g hq)
      cases b with
      | true =>
        obtain ⟨n, hn, rest, hpath, hc⟩ := htr rfl
        refine ⟨true, s1, rfl, by simp, fun _ => ⟨n :: rest, by rw [hpath]; simp, ?_⟩⟩
        obtain ⟨d, hd, hnd, _, _⟩ := (hnb n).1 ((shuffle_mem _ _ _).1 hn)
        have hadj : adjacent start n := (adjacent_iff_dir start n).2 ⟨d, hd, hnd⟩
        have hnot : ∀ q ∈ n :: rest, q ≠ start := by
          intro q hq he
          have := hc.unmarked q hq
          rw [he, hmark] at this
          cases this
        refine ⟨List.Chain'.cons hadj hc.chain, ?_, ?_, ?_, ?_⟩
        · exact List.nodup_cons.2 ⟨fun hmem => hnot start hmem rfl, hc.nodup⟩
        · intro q hq
          rcases List.mem_cons.1 hq with h | h
          · rw [h]; exact hfree
          · rw [← hstep q (hnot q h)]; exact hc.unmarked q h
        · have := hc.count
          simp only [List.length_cons]
          push_cast at this ⊢
          omega
        · rw [List.getLastD_cons]; exact hc.last_ok
      | false =>
        obtain ⟨⟨hsv, hsp⟩, hall⟩ := hf rfl
        have hs1 : s1 = ⟨visited, s.path ++ [start], s1.rng⟩ := by
          cases s1; simp only [] at hsv hsp; rw [hsv, hsp]
        simp only []
        rw [hs1, hunwind]
        refine ⟨false, _, rfl, fun _ => ⟨rfl, rfl, ?_⟩, by simp⟩
        rintro ⟨rest, hc⟩
        cases rest with
        | nil =>
          have := hc.count
          simp only [List.length_nil, Nat.cast_zero, add_zero] at this
          exact hfull this
        | cons n rest =>
          have hadj : adjacent start n := (List.chain'_cons.1 hc.chain).1
          have hne : ∀ q ∈ n :: rest, q ≠ start := by
            intro q hq he
            have := (List.nodup_cons.1 hc.nodup).1
            rw [he] at hq
            exact this hq
          have hreadn : ∀ q ∈ n :: rest,
              visited.read (q.1 - g.bias.1) (q.2 - g.bias.2) = some false := by
            intro q hq
            rw [hstep q (hne q hq)]
            exact hc.unmarked q (List.mem_cons_of_mem _ hq)
          obtain ⟨d, hd, hnd⟩ := (adjacent_iff_dir start n).1 hadj
          have hmem : n ∈ nbrs := (hnb n).2 ⟨d, hd, hnd,
            g.is_valid_of_read hv1 (hreadn n (List.mem_cons_self _ _)),
            hreadn n (List.mem_cons_self _ _)⟩
          apply hall n ((shuffle_mem _ _ _).2 hmem)
          refine ⟨rest, List.Chain'.tail hc.chain, (List.nodup_cons.1 hc.nodup).2, hreadn, ?_, ?_⟩
          · have := hc.count
            simp only [List.length_cons] at this
            push_cast at this ⊢
            omega
          · have := hc.last_ok
            rwa [List.getLastD_cons] at this

/-! ## The cells of a region -/

theorem Mask.read_fresh {h w : Nat} {y x : Int} (hy0 : 0 ≤ y) (hy : y < h) (hx0 : 0 ≤ x)
    (hx : x < w) : (Mask.fresh h w).read y x = some false := by
  rw [Mask.read_eq_some_iff]
  refine ⟨hy0, hx0, List.replicate w false, ?_, ?_⟩
  · unfold Mask.fresh
    rw [List.get?_eq_getElem?, List.getElem?_replicate, if_pos (by omega)]
  · rw [List.get?_eq_getElem?, List.getElem?_replicate, if_pos (by omega)]

theorem Grid.mem_cellList (g : Grid) (q : Point) : q ∈ g.cellList ↔ g.is_valid q = true := by
  rw [g.is_valid_iff]
  unfold Grid.cellList
  simp only [List.mem_flatMap, List.mem_range, List.mem_map]
  constructor
  · rintro ⟨i, hi, j, hj, rfl⟩
    simp only []
    omega
  · rintro ⟨h1, h2, h3, h4⟩
    refine ⟨(q.1 - g.bias.1).toNat, by omega, (q.2 - g.bias.2).toNat, by omega, ?_⟩
    apply Prod.ext <;> simp only [] <;> omega

theorem Grid.cellList_length (g : Grid) :
    g.cellList.length = g.height.toNat * g.width.toNat := by
  unfold Grid.cellList
  generalize g.height.toNat = h
  induction h with
  | zero => simp
  | succ h ih =>
    rw [List.range_succ, List.flatMap_append, List.length_append, ih]
    simp [Nat.succ_mul]

theorem Grid.cellList_nodup (g : Grid) : g.cellList.Nodup := by
  unfold Grid.cellList
  rw [List.nodup_flatMap]
  constructor
  · intro i _
    apply List.Nodup.map _ (List.nodup_range _)
    intro a b hab
    simp only [Prod.mk.injEq, true_and] at hab
    omega
  · apply List.Pairwise.imp _ (List.nodup_range g.height.toNat)
    intro a b hab
    simp only [Function.onFun]
    rw [List.disjoint_left]
    intro q hqa hqb
    simp only [List.mem_map, List.mem_range] at hqa hqb
    obtain ⟨j, _, rfl⟩ := hqa
    obtain ⟨j1, _, h⟩ := hqb
    simp only [Prod.mk.injEq] at h
    omega

theorem Grid.cellList_length_int (g : Grid) (hh : 0 ≤ g.height) (hw : 0 ≤ g.width) :
    (g.cellList.length : Int) = g.height * g.width := by
  rw [g.cellList_length]
  push_cast
  rw [Int.toNat_of_nonneg hh, Int.toNat_of_nonneg hw]

/-- A duplicate-free list of cells of the region that has as many elements as
the region has cells contains every cell. -/
theorem Grid.covers_of_nodup (g : Grid) (hh : 0 ≤ g.height) (hw : 0 ≤ g.width) {p : Points}
    (hnd : p.Nodup) (hval : ∀ q ∈ p, g.is_valid q = true)
    (hlen : (p.length : Int) = g.height * g.width) : ∀ q, q ∈ p ↔ g.is_valid q = true := by
  have hsub : p ⊆ g.cellList := fun q hq => (g.mem_cellList q).2 (hval q hq)
  have hsp : p.Subperm g.cellList := List.subperm_of_subset hnd hsub
  have hle : g.cellList.length ≤ p.length := by
    have := g.cellList_length_int hh hw
    omega
  have hperm := hsp.perm_of_length_le hle
  intro q
  rw [hperm.mem_iff, g.mem_cellList]

/-- A duplicate-free list that contains exactly the cells of the region has as
many elements as the region has cells. -/
theorem Grid.length_of_covers (g : Grid) (hh : 0 ≤ g.height) (hw : 0 ≤ g.width) {p : Points}
    (hnd : p.Nodup) (hcov : ∀ q, q ∈ p ↔ g.is_valid q = true) :
    (p.length : Int) = g.height * g.width := by
  have hperm : p.Perm g.cellList :=
    (List.perm_ext_iff_of_nodup hnd g.cellList_nodup).2
      (fun q => by rw [hcov q, g.mem_cellList])
  rw [hperm.length_eq, g.cellList_length_int hh hw]

/-! ## sample_path -/

/-- With non-negative dimensions the mask is built and `sample_path` is the
search from `start` on the fresh mask. -/
theorem Grid.sample_path_eq (g : Grid) (start : Point) (te : Points) (rng : Rng)
    (hh : 0 ≤ g.height) (hw : 0 ≤ g.width) :
    g.sample_path start te rng =
      match g.backtrack te ((g.height * g.width).toNat + 1) start
          ⟨Mask.fresh g.height.toNat g.width.toNat, [], rng⟩ with
      | .error e => .error e
      | .ok (true, s) => .ok (s.path, s.rng)
      | .ok (false, s) => .ok ([], s.rng) := by
  unfold Grid.sample_path vectorRows vectorBool
  simp only [if_neg (not_lt.2 hh), if_neg (not_lt.2 hw)]
  rfl

/-- With a negative height the constructor of the mask throws, whatever the
width. -/
theorem Grid.sample_path_negative_height (g : Grid) (start : Point) (te : Points) (rng : Rng)
    (hh : g.height < 0) : g.sample_path start te rng = .error .lengthError := by
  unfold Grid.sample_path vectorRows
  simp only [if_pos hh]

/-- With a non-negative height and a negative width the mask is filled with
copies of a row without a defined state. -/
theorem Grid.sample_path_negative_width (g : Grid) (start : Point) (te : Points) (rng : Rng)
    (hh : 0 ≤ g.height) (hw : g.width < 0) : g.sample_path start te rng = .error .badSize := by
  unfold Grid.sample_path vectorRows vectorBool
  simp only [if_neg (not_lt.2 hh), if_pos hw]

/-- What `sample_path` returns on a well-formed call: it returns a value, and
either that value is the empty path and no completion of `start` exists on the
fresh mask, or it is `start :: rest` for a completion `rest`. -/
theorem Grid.sample_path_spec (g : Grid) (te : Points) (start : Point) (rng : Rng)
    (hh : 1 ≤ g.height) (hw : 1 ≤ g.width) (hs : g.is_valid start = true) :
    ∃ path rng1, g.sample_path start te rng = .ok (path, rng1) ∧
      ((path = [] ∧
          ¬ ∃ rest, Completion g te (Mask.fresh g.height.toNat g.width.toNat) 0 start rest) ∨
        (∃ rest, path = start :: rest ∧
          Completion g te (Mask.fresh g.height.toNat g.width.toNat) 0 start rest)) := by
  have hb := (g.is_valid_iff start).1 hs
  have hpos : 0 < g.width * g.height := Int.mul_pos (by omega) (by omega)
  have hfuel : g.width * g.height ≤
      (([] : Points).length : Int) + (((g.height * g.width).toNat + 1 : Nat) : Int) := by
    rw [mul_comm g.height g.width]
    simp only [List.length_nil, Nat.cast_zero, zero_add]
    push_cast
    omega
  obtain ⟨b, s1, hrun, hf, ht⟩ := g.backtrack_spec te ((g.height * g.width).toNat + 1) start
    ⟨Mask.fresh g.height.toNat g.width.toNat, [], rng⟩ (Mask.fresh_shaped _ _)
    (Mask.read_fresh hb.1 (by omega) hb.2.2.1 (by omega)) (by simpa using hpos) hfuel
  rw [g.sample_path_eq start te rng (by omega) (by omega)]
  simp only [hrun]
  cases b with
  | true =>
    obtain ⟨rest, hp, hc⟩ := ht rfl
    refine ⟨s1.path, s1.rng, rfl, Or.inr ⟨rest, by simpa using hp, ?_⟩⟩
    simpa using hc
  | false =>
    obtain ⟨_, _, hno⟩ := hf rfl
    exact ⟨[], s1.rng, rfl, Or.inl ⟨rfl, by simpa using hno⟩⟩

/-- On the fresh mask the completions of `start` from the empty path are the
complete paths of the region that begin with `start` and end on an accepted cell. -/
theorem Grid.completion_fresh_iff (g : Grid) (te : Points) (start : Point) (rest : Points)
    (hh : 1 ≤ g.height) (hw : 1 ≤ g.width) :
    Completion g te (Mask.fresh g.height.toNat g.width.toNat) 0 start rest ↔
      IsHamPath g (start :: rest) ∧ accepted te (rest.getLastD start) := by
  constructor
  · intro hc
    have hval : ∀ q ∈ start :: rest, g.is_valid q = true := fun q hq =>
      g.is_valid_of_read (Mask.fresh_shaped _ _) (hc.unmarked q hq)
    have hlen : ((start :: rest).length : Int) = g.height * g.width := by
      have := hc.count
      simp only [List.length_cons]
      push_cast at this ⊢
      rw [mul_comm g.height g.width]
      omega
    exact ⟨⟨hlen, hc.nodup, g.covers_of_nodup (by omega) (by omega) hc.nodup hval hlen, hc.chain⟩,
      hc.last_ok⟩
  · rintro ⟨hp, hacc⟩
    refine ⟨hp.chain, hp.nodup, ?_, ?_, hacc⟩
    · intro q hq
      have hb := (g.is_valid_iff q).1 ((hp.cells q).1 hq)
      exact Mask.read_fresh hb.1 (by omega) hb.2.2.1 (by omega)
    · have := hp.length_eq
      simp only [List.length_cons] at this
      push_cast at this ⊢
      rw [mul_comm g.width g.height]
      omega

/-! ## Properties of the search (C1, C2, C7, C9) -/

/-- C1: on a region with `height ≥ 1` and `width ≥ 1` (any bias), for a start
cell inside the region and every state of the generator (every outcome of the
shuffles), the unconstrained `sample_path(start)` returns, and if the returned
path is not empty then it has `height * width` points, no point twice, every
point satisfies `is_valid`, and consecutive points are 4-adjacent. -/
theorem sample_path_unconstrained_valid (g : Grid) (start : Point) (rng : Rng)
    (hh : 1 ≤ g.height) (hw : 1 ≤ g.width) (hs : g.is_valid start = true) :
    ∃ path rng1, g.sample_path start [] rng = .ok (path, rng1) ∧
      (path ≠ [] → (path.length : Int) = g.height * g.width ∧ path.Nodup ∧
        (∀ q ∈ path, g.is_valid q = true) ∧ path.Chain' adjacent) := by
  obtain ⟨path, rng1, hrun, hcase⟩ := g.sample_path_spec [] start rng hh hw hs
  refine ⟨path, rng1, hrun, ?_⟩
  intro hne
  rcases hcase with ⟨hnil, _⟩ | ⟨rest, hp, hc⟩
  · exact absurd hnil hne
  · obtain ⟨hham, _⟩ := (g.completion_fresh_iff [] start rest hh hw).1 hc
    rw [hp]
    exact ⟨hham.length_eq, hham.nodup, fun q hq => (hham.cells q).1 hq, hham.chain⟩

/-- C1 at a 2x2 region with bias (3,5), start (3,5): the call returns a
non-empty path, which has the stated properties. -/
theorem sample_path_unconstrained_valid_witness :
    (1 : Int) ≤ (Grid.mk 2 2 (3, 5)).height ∧ (1 : Int) ≤ (Grid.mk 2 2 (3, 5)).width ∧
      (Grid.mk 2 2 (3, 5)).is_valid (3, 5) = true ∧
      (Grid.mk 2 2 (3, 5)).sample_path (3, 5) [] [1, 0, 3]
        = .ok ([(3, 5), (4, 5), (4, 6), (3, 6)], []) ∧
      ∃ path rng1, (Grid.mk 2 2 (3, 5)).sample_path (3, 5) [] [1, 0, 3] = .ok (path, rng1) ∧
        (path ≠ [] → (path.length : Int) = (Grid.mk 2 2 (3, 5)).height * (Grid.mk 2 2 (3, 5)).width ∧
          path.Nodup ∧ (∀ q ∈ path, (Grid.mk 2 2 (3, 5)).is_valid q = true) ∧
          path.Chain' adjacent) :=
  ⟨by decide, by decide, by decide, by rfl,
    sample_path_unconstrained_valid (Grid.mk 2 2 (3, 5)) (3, 5) [1, 0, 3]
      (by decide) (by decide) (by decide)⟩

/-- C2: on a well-formed region, for a start inside it, a non-empty target set
and every state of the generator, `sample_path(start, target_end)` returns, and
if the returned path is not empty its last element is a member of `target_end`. -/
theorem sample_path_ends_in_target (g : Grid) (start : Point) (target_end : Points)
    (rng : Rng) (hh : 1 ≤ g.height) (hw : 1 ≤ g.width) (hs : g.is_valid start = true)
    (hte : target_end ≠ []) :
    ∃ path rng1, g.sample_path start target_end rng = .ok (path, rng1) ∧
      (path ≠ [] → ∃ q, path.getLast? = some q ∧ q ∈ target_end) := by
  obtain ⟨path, rng1, hrun, hcase⟩ := g.sample_path_spec target_end start rng hh hw hs
  refine ⟨path, rng1, hrun, ?_⟩
  intro hne
  rcases hcase with ⟨hnil, _⟩ | ⟨rest, hp, hc⟩
  · exact absurd hnil hne
  · refine ⟨rest.getLastD start, ?_, ?_⟩
    · rw [hp, List.getLast?_cons, ← List.getLastD_eq_getLast?]
    · rcases hc.last_ok with h | h
      · exact absurd h hte
      · exact h

/-- C2 at a 3x3 region with bias (3,6), start (3,6) and the bottom row as
target set: the call returns a non-empty path that ends in the target set. -/
theorem sample_path_ends_in_target_witness :
    (1 : Int) ≤ (Grid.mk 3 3 (3, 6)).height ∧ (1 : Int) ≤ (Grid.mk 3 3 (3, 6)).width ∧
      (Grid.mk 3 3 (3, 6)).is_valid (3, 6) = true ∧
      ([(5, 6), (5, 7), (5, 8)] : Points) ≠ [] ∧
      (Grid.mk 3 3 (3, 6)).sample_path (3, 6) [(5, 6), (5, 7), (5, 8)] [1, 0, 3, 5, 6, 7, 1, 2, 3]
        = .ok ([(3, 6), (4, 6), (5, 6), (5, 7), (4, 7), (3, 7), (3, 8), (4, 8), (5, 8)], []) ∧
      ∃ path rng1, (Grid.mk 3 3 (3, 6)).sample_path (3, 6) [(5, 6), (5, 7), (5, 8)]
          [1, 0, 3, 5, 6, 7, 1, 2, 3] = .ok (path, rng1) ∧
        (path ≠ [] → ∃ q, path.getLast? = some q ∧ q ∈ ([(5, 6), (5, 7), (5, 8)] : Points)) :=
  ⟨by decide, by decide, by decide, by decide, by rfl,
    sample_path_ends_in_target (Grid.mk 3 3 (3, 6)) (3, 6) [(5, 6), (5, 7), (5, 8)]
      [1, 0, 3, 5, 6, 7, 1, 2, 3] (by decide) (by decide) (by decide) (by decide)⟩

/-- C7: the search is exhaustive.  On a well-formed region, for a start inside
it, any target set (empty: every cell is accepted) and every state of the
generator, `sample_path` returns, and it returns the empty path if and only if
the region has no complete path that begins at `start` and ends on an accepted
cell. -/
theorem sample_path_exhaustive (g : Grid) (start : Point) (target_end : Points) (rng : Rng)
    (hh : 1 ≤ g.height) (hw : 1 ≤ g.width) (hs : g.is_valid start = true) :
    ∃ path rng1, g.sample_path start target_end rng = .ok (path, rng1) ∧
      (path = [] ↔ ¬ ∃ p, IsHamPath g p ∧ p.head? = some start ∧
        ∃ q, p.getLast? = some q ∧ accepted target_end q) := by
  obtain ⟨path, rng1, hrun, hcase⟩ := g.sample_path_spec target_end start rng hh hw hs
  refine ⟨path, rng1, hrun, ?_⟩
  rcases hcase with ⟨hnil, hno⟩ | ⟨rest, hp, hc⟩
  · refine ⟨fun _ => ?_, fun _ => hnil⟩
    rintro ⟨p, hham, hhead, q, hlast, hacc⟩
    cases p with
    | nil => cases hhead
    | cons a rest =>
      simp only [List.head?_cons, Option.some.injEq] at hhead
      subst hhead
      rw [List.getLast?_cons, ← List.getLastD_eq_getLast?] at hlast
      cases hlast
      exact hno ⟨rest, (g.completion_fresh_iff target_end a rest hh hw).2 ⟨hham, hacc⟩⟩
  · obtain ⟨hham, hacc⟩ := (g.completion_fresh_iff target_end start rest hh hw).1 hc
    constructor
    · intro h; rw [hp] at h; cases h
    · intro hno
      exfalso
      apply hno
      refine ⟨start :: rest, hham, rfl, rest.getLastD start, ?_, hacc⟩
      rw [List.getLast?_cons, ← List.getLastD_eq_getLast?]

/-- C7 at a 1x3 region, start in the middle cell: the call returns the empty
path, so no complete path begins at the middle cell. -/
theorem sample_path_exhaustive_witness :
    (1 : Int) ≤ (Grid.mk 1 3 (0, 0)).height ∧ (1 : Int) ≤ (Grid.mk 1 3 (0, 0)).width ∧
      (Grid.mk 1 3 (0, 0)).is_valid (0, 1) = true ∧
      (Grid.mk 1 3 (0, 0)).sample_path (0, 1) [] [1, 0] = .ok ([], []) ∧
      ∃ path rng1, (Grid.mk 1 3 (0, 0)).sample_path (0, 1) [] [1, 0] = .ok (path, rng1) ∧
        (path = [] ↔ ¬ ∃ p, IsHamPath (Grid.mk 1 3 (0, 0)) p ∧ p.head? = some (0, 1) ∧
          ∃ q, p.getLast? = some q ∧ accepted [] q) :=
  ⟨by decide, by decide, by decide, by rfl,
    sample_path_exhaustive (Grid.mk 1 3 (0, 0)) (0, 1) [] [1, 0]
      (by decide) (by decide) (by decide)⟩

/-! ## `is_valid` in 32-bit arithmetic (C9) -/

/-- A mathematical result in the range of `int` is what the `int` holds. -/
theorem wrapInt_eq {x : Int} (h : -2 ^ 31 ≤ x ∧ x < 2 ^ 31) : wrapInt x = x := by
  unfold wrapInt
  omega

/-- The value of an `int` lies in the range of `int`. -/
theorem wrapInt_range (x : Int) : -2 ^ 31 ≤ wrapInt x ∧ wrapInt x < 2 ^ 31 := by
  unfold wrapInt
  omega

/-- Where neither subtraction overflows, the 32-bit `is_valid` is the
`is_valid` over the integers. -/
theorem Grid.is_valid_wrapped_eq (g : Grid) (p : Point)
    (hy : -2 ^ 31 ≤ p.1 - g.bias.1 ∧ p.1 - g.bias.1 < 2 ^ 31)
    (hx : -2 ^ 31 ≤ p.2 - g.bias.2 ∧ p.2 - g.bias.2 < 2 ^ 31) :
    g.is_valid_wrapped p = g.is_valid p := by
  unfold Grid.is_valid_wrapped Grid.is_valid
  simp only [wrapInt_eq hy, wrapInt_eq hx]

/-- C9 fails as stated where a subtraction overflows: for the 5x5 region with
bias `(INT_MAX, 0)` and the point `(INT_MIN, 0)`, all of them values of `int`,
`p.first - bias.first` is `1 - 2^32`, the `int` holds 1, and `is_valid` answers
true although the difference is negative. -/
theorem is_valid_wraps :
    (-2 ^ 31 ≤ (2147483647 : Int) ∧ (2147483647 : Int) < 2 ^ 31) ∧
      (-2 ^ 31 ≤ (-2147483648 : Int) ∧ (-2147483648 : Int) < 2 ^ 31) ∧
      wrapInt ((-2147483648 : Int) - 2147483647) = 1 ∧
      (Grid.mk 5 5 (2147483647, 0)).is_valid_wrapped (-2147483648, 0) = true ∧
      ¬ (0 ≤ (-2147483648 : Int) - (Grid.mk 5 5 (2147483647, 0)).bias.1) ∧
      ¬ ((Grid.mk 5 5 (2147483647, 0)).is_valid_wrapped (-2147483648, 0) = true ↔
        (0 ≤ (-2147483648 : Int) - (Grid.mk 5 5 (2147483647, 0)).bias.1 ∧
            (-2147483648 : Int) - (Grid.mk 5 5 (2147483647, 0)).bias.1
              < (Grid.mk 5 5 (2147483647, 0)).height) ∧
          (0 ≤ (0 : Int) - (Grid.mk 5 5 (2147483647, 0)).bias.2 ∧
            (0 : Int) - (Grid.mk 5 5 (2147483647, 0)).bias.2
              < (Grid.mk 5 5 (2147483647, 0)).width)) := by
  decide

/-- C9 as amended: for every region and every point `p` for which neither
`p.first - bias.first` nor `p.second - bias.second` overflows `int`,
`is_valid p` is true if and only if `0 ≤ p.first - bias.first < height` and
`0 ≤ p.second - bias.second < width`; on these inputs the 32-bit function is
the one over the integers. -/
theorem is_valid_iff_in_bounds_of_no_overflow (g : Grid) (p : Point)
    (hy : -2 ^ 31 ≤ p.1 - g.bias.1 ∧ p.1 - g.bias.1 < 2 ^ 31)
    (hx : -2 ^ 31 ≤ p.2 - g.bias.2 ∧ p.2 - g.bias.2 < 2 ^ 31) :
    (g.is_valid_wrapped p = true ↔
        (0 ≤ p.1 - g.bias.1 ∧ p.1 - g.bias.1 < g.height) ∧
          (0 ≤ p.2 - g.bias.2 ∧ p.2 - g.bias.2 < g.width)) ∧
      g.is_valid_wrapped p = g.is_valid p := by
  refine ⟨?_, g.is_valid_wrapped_eq p hy hx⟩
  rw [g.is_valid_wrapped_eq p hy hx, g.is_valid_iff]
  tauto

/-- C9 as amended, on the 5x5 region with bias (10,20): the cell (12,24) is
inside, and the point (15,20), one row below the region, is outside. -/
theorem is_valid_iff_in_bounds_of_no_overflow_witness :
    (Grid.mk 5 5 (10, 20)).is_valid_wrapped (12, 24) = true ∧
      (Grid.mk 5 5 (10, 20)).is_valid_wrapped (15, 20) = false ∧
      ((-2 ^ 31 ≤ (12 : Int) - (Grid.mk 5 5 (10, 20)).bias.1 ∧
          (12 : Int) - (Grid.mk 5 5 (10, 20)).bias.1 < 2 ^ 31) ∧
        (-2 ^ 31 ≤ (24 : Int) - (Grid.mk 5 5 (10, 20)).bias.2 ∧
          (24 : Int) - (Grid.mk 5 5 (10, 20)).bias.2 < 2 ^ 31)) ∧
      (((Grid.mk 5 5 (10, 20)).is_valid_wrapped (12, 24) = true ↔
          (0 ≤ (12 : Int) - (Grid.mk 5 5 (10, 20)).bias.1 ∧
              (12 : Int) - (Grid.mk 5 5 (10, 20)).bias.1 < (Grid.mk 5 5 (10, 20)).height) ∧
            (0 ≤ (24 : Int) - (Grid.mk 5 5 (10, 20)).bias.2 ∧
              (24 : Int) - (Grid.mk 5 5 (10, 20)).bias.2 < (Grid.mk 5 5 (10, 20)).width)) ∧
        (Grid.mk 5 5 (10, 20)).is_valid_wrapped (12, 24) = (Grid.mk 5 5 (10, 20)).is_valid (12, 24)) :=
  ⟨by decide, by decide, by decide,
    is_valid_iff_in_bounds_of_no_overflow (Grid.mk 5 5 (10, 20)) (12, 24) (by decide) (by decide)⟩

/-! ## The side overload (C8) -/

theorem forLoop_push (f : Int → Point) (hi : Int) :
    ∀ (k : Nat) (lo : Int) (out : Points), (hi - lo).toNat = k →
      forLoop (fun x acc => acc ++ [f x]) k lo hi out
        = out ++ (List.range k).map (fun (i : Nat) => f (lo + (i : Int))) := by
  intro k
  induction k with
  | zero => intro lo out _; simp [forLoop]
  | succ k ih =>
    intro lo out hk
    have hlt : lo < hi := by omega
    unfold forLoop
    rw [if_pos hlt, ih (lo + 1) (out ++ [f lo]) (by omega), List.range_succ_eq_map]
    simp only [List.map_cons, List.map_map, List.append_assoc, List.singleton_append,
      Nat.cast_zero, add_zero]
    congr 2
    apply List.map_congr_left
    intro i _
    simp only [Function.comp, Nat.succ_eq_add_one]
    push_cast
    congr 1
    omega

theorem pushRange_eq (f : Int → Point) (lo hi : Int) :
    pushRange f lo hi = (List.range (hi - lo).toNat).map (fun (i : Nat) => f (lo + (i : Int))) := by
  unfold pushRange
  rw [forLoop_push f hi _ lo [] rfl, List.nil_append]

/-- The side overload of `sample_path` is the search with the boundary line of
the region as target set. -/
theorem Grid.sample_path_side_eq (g : Grid) (start : Point) (side : String) (rng : Rng) :
    g.sample_path_side start side rng = g.sample_path start (g.boundaryLine side) rng := by
  unfold Grid.sample_path_side Grid.boundaryLine
  simp only [pushRange_eq, add_sub_cancel_left]
  split_ifs <;> rfl

/-- C8: `sample_path(start, side)` is the same search as `sample_path(start, T)`
where `T` is the boundary line of the region in absolute coordinates (`top`: the
`width` cells of row `by`; `bottom`: the `width` cells of row `by + height - 1`;
`left`: the `height` cells of column `bx`; `right`: the `height` cells of column
`bx + width - 1`), and for `any` it is the unconstrained search. -/
theorem sample_path_side_is_boundary_search (g : Grid) (start : Point) (rng : Rng) :
    g.sample_path_side start "top" rng
        = g.sample_path start
            ((List.range g.width.toNat).map (fun (j : Nat) => (g.bias.1, g.bias.2 + (j : Int)))) rng ∧
      g.sample_path_side start "bottom" rng
        = g.sample_path start
            ((List.range g.width.toNat).map
              (fun (j : Nat) => (g.bias.1 + g.height - 1, g.bias.2 + (j : Int)))) rng ∧
      g.sample_path_side start "left" rng
        = g.sample_path start
            ((List.range g.height.toNat).map (fun (i : Nat) => (g.bias.1 + (i : Int), g.bias.2))) rng ∧
      g.sample_path_side start "right" rng
        = g.sample_path start
            ((List.range g.height.toNat).map
              (fun (i : Nat) => (g.bias.1 + (i : Int), g.bias.2 + g.width - 1))) rng ∧
      g.sample_path_side start "any" rng = g.sample_path start [] rng ∧
      (∀ side, g.sample_path_side start side rng
        = g.sample_path start (g.boundaryLine side) rng) := by
  refine ⟨?_, ?_, ?_, ?_, ?_, fun side => g.sample_path_side_eq start side rng⟩ <;>
    rw [g.sample_path_side_eq] <;> rfl

/-! ## backbite -/

theorem uniform_int_le (span : Nat) (rng : Rng) : (uniform_int span rng).1 ≤ span := by
  unfold uniform_int
  exact Nat.lt_succ_iff.1 (Nat.mod_lt _ (Nat.succ_pos _))

theorem mem_biteNeighbors {en b : Point} {height width : Int}
    (h : b ∈ biteNeighbors en.1 en.2 height width) :
    adjacent en b ∧ 0 ≤ b.1 ∧ b.1 < height ∧ 0 ≤ b.2 ∧ b.2 < width := by
  unfold biteNeighbors at h
  rw [List.mem_filterMap] at h
  obtain ⟨d, hd, hb⟩ := h
  simp only [] at hb
  split_ifs at hb with hc
  cases hb
  exact ⟨(adjacent_iff_dir en _).2 ⟨d, hd, rfl⟩, hc.1, hc.2.1, hc.2.2.1, hc.2.2.2⟩

theorem findPos_le_length (b : Point) : ∀ l : Points, findPos b l ≤ l.length
  | [] => Nat.le_refl _
  | x :: xs => by
    unfold findPos
    split_ifs
    · exact Nat.zero_le _
    · simpa using findPos_le_length b xs

theorem findPos_get (b : Point) :
    ∀ l : Points, findPos b l < l.length → l.get? (findPos b l) = some b
  | [], h => by simp [findPos] at h
  | x :: xs, h => by
    unfold findPos at h ⊢
    split_ifs at h ⊢ with hx
    · rw [hx]; rfl
    · simp only [List.length_cons, Nat.add_lt_add_iff_right] at h
      simpa using findPos_get b xs h

theorem findPos_first (b : Point) :
    ∀ (l : Points) (j : Nat), j < findPos b l → l.get? j ≠ some b
  | [], j, h => by simp [findPos] at h
  | x :: xs, j, h => by
    unfold findPos at h
    split_ifs at h with hx
    · omega
    · cases j with
      | zero => simpa using hx
      | succ j => simpa using findPos_first b xs j (by omega)

/-- The outcomes of one `backbite` on a non-empty path: the path is returned
unchanged, or the front endpoint `e` bit a neighbour `b` found at position
`k > 0` and the segment before `b` was reversed, or the back endpoint `e` bit a
neighbour `b` found at position `k` with `k + 1 < length` and the segment after
`b` was reversed. -/
theorem backbite_shape (path : Points) (height width : Int) (rng : Rng) (hne : path ≠ []) :
    ∃ p1 rng1, backbite path height width rng = .ok (p1, rng1) ∧
      (p1 = path ∨
        (∃ e b k, path.head? = some e ∧ b ∈ biteNeighbors e.1 e.2 height width ∧
          path.get? k = some b ∧ 0 < k ∧ p1 = (path.take k).reverse ++ path.drop k) ∨
        (∃ e b k, path.getLast? = some e ∧ b ∈ biteNeighbors e.1 e.2 height width ∧
          path.get? k = some b ∧ k + 1 < path.length ∧
          p1 = path.take (k + 1) ++ (path.drop (k + 1)).reverse)) := by
  have hlen : 0 < path.length := List.length_pos.2 hne
  unfold backbite
  simp only []
  generalize hend : (if (uniform_int 1 rng).1 = 0 then 0 else path.length - 1) = end_index
  have hlt : end_index < path.length := by
    rw [← hend]; split_ifs <;> omega
  rw [List.get?_eq_get hlt]
  simp only []
  generalize hen : path.get ⟨end_index, hlt⟩ = en
  by_cases hemp : (biteNeighbors en.1 en.2 height width).isEmpty = true
  · rw [if_pos hemp]
    exact ⟨_, _, rfl, Or.inl rfl⟩
  · rw [if_neg hemp]
    have hnpos : 0 < (biteNeighbors en.1 en.2 height width).length := by
      apply List.length_pos.2
      intro h; apply hemp; rw [h]; rfl
    have hc : (uniform_int ((biteNeighbors en.1 en.2 height width).length - 1) (uniform_int 1 rng).2).1
        < (biteNeighbors en.1 en.2 height width).length := by
      have := uniform_int_le ((biteNeighbors en.1 en.2 height width).length - 1) (uniform_int 1 rng).2
      omega
    rw [List.get?_eq_get hc]
    simp only []
    generalize hbite : (biteNeighbors en.1 en.2 height width).get ⟨_, hc⟩ = bite
    have hbmem : bite ∈ biteNeighbors en.1 en.2 height width := by
      rw [← hbite]; exact List.get_mem _ _ _
    by_cases hfound : findPos bite path = path.length
    · rw [if_pos hfound]
      exact ⟨_, _, rfl, Or.inl rfl⟩
    · rw [if_neg hfound]
      refine ⟨_, _, rfl, ?_⟩
      have hk : findPos bite path < path.length :=
        lt_of_le_of_ne (findPos_le_length bite path) hfound
      have hget : path.get? (findPos bite path) = some bite := findPos_get bite path hk
      unfold biteReverse
      by_cases h0 : end_index = 0
      · rw [if_pos h0]
        by_cases hk0 : findPos bite path = 0
        · rw [if_neg (by simpa using hk0)]
          exact Or.inl rfl
        · rw [if_pos hk0]
          refine Or.inr (Or.inl ⟨en, bite, _, ?_, hbmem, hget, Nat.pos_of_ne_zero hk0, rfl⟩)
          rw [← hen]
          subst h0
          rw [List.head?_eq_getElem?, List.getElem?_eq_getElem hlt]
          rfl
      · rw [if_neg h0]
        by_cases hk1 : findPos bite path + 1 = path.length
        · rw [if_neg (by simpa using hk1)]
          exact Or.inl rfl
        · rw [if_pos hk1]
          refine Or.inr (Or.inr ⟨en, bite, _, ?_, hbmem, hget, by omega, rfl⟩)
          have he : end_index = path.length - 1 := by
            rw [← hend]; rw [← hend] at h0
            split_ifs at h0 ⊢ with h
            · exact absurd rfl h0
            · rfl
          rw [← hen, List.getLast?_eq_getElem?]
          subst he
          rw [List.getElem?_eq_getElem hlt]
          rfl

theorem backbite_perm (path : Points) (height width : Int) (rng : Rng) (hne : path ≠ []) :
    ∃ p1 rng1, backbite path height width rng = .ok (p1, rng1) ∧ p1.Perm path := by
  obtain ⟨p1, rng1, hrun, hcase⟩ := backbite_shape path height width rng hne
  refine ⟨p1, rng1, hrun, ?_⟩
  rcases hcase with h | ⟨e, b, k, _, _, _, _, h⟩ | ⟨e, b, k, _, _, _, _, h⟩
  · rw [h]
  · rw [h]
    exact (List.Perm.append_right _ (List.reverse_perm _)).trans
      (by rw [List.take_append_drop])
  · rw [h]
    exact (List.Perm.append_left _ (List.reverse_perm _)).trans
      (by rw [List.take_append_drop])

theorem chain_adjacent_reverse {l : Points} (h : l.Chain' adjacent) :
    l.reverse.Chain' adjacent := by
  rw [List.chain'_reverse]
  exact h.imp (fun _ _ hab => adjacent_symm hab)

theorem chain_take {l : Points} (h : l.Chain' adjacent) (k : Nat) :
    (l.take k).Chain' adjacent := by
  have := h
  rw [← List.take_append_drop k l, List.chain'_append] at this
  exact this.1

theorem chain_drop {l : Points} (h : l.Chain' adjacent) (k : Nat) :
    (l.drop k).Chain' adjacent := by
  have := h
  rw [← List.take_append_drop k l, List.chain'_append] at this
  exact this.2.1

theorem backbite_chain (path : Points) (height width : Int) (rng : Rng) (hne : path ≠ [])
    (hch : path.Chain' adjacent) :
    ∃ p1 rng1, backbite path height width rng = .ok (p1, rng1) ∧ p1.Chain' adjacent := by
  obtain ⟨p1, rng1, hrun, hcase⟩ := backbite_shape path height width rng hne
  refine ⟨p1, rng1, hrun, ?_⟩
  rcases hcase with h | ⟨e, b, k, he, hb, hk, hpos, h⟩ | ⟨e, b, k, he, hb, hk, hlt, h⟩
  · rw [h]; exact hch
  · rw [h, List.chain'_append]
    refine ⟨chain_adjacent_reverse (chain_take hch k), chain_drop hch k, ?_⟩
    intro x hx y hy
    rw [List.getLast?_reverse, List.head?_take, if_neg (by omega), he] at hx
    rw [List.head?_drop, ← List.get?_eq_getElem?, hk] at hy
    cases hx; cases hy
    exact (mem_biteNeighbors hb).1
  · rw [h, List.chain'_append]
    refine ⟨chain_take hch (k + 1), chain_adjacent_reverse (chain_drop hch (k + 1)), ?_⟩
    intro x hx y hy
    rw [List.head?_reverse, List.getLast?_drop, if_neg (by omega), he] at hy
    rw [List.getLast?_take, if_neg (by omega), Nat.add_sub_cancel, ← List.get?_eq_getElem?, hk]
      at hx
    cases hx; cases hy
    exact adjacent_symm (mem_biteNeighbors hb).1

/-! ## Properties of backbite (C3, C10) -/

theorem backbite_loop_spec (height width : Int) :
    ∀ (n : Nat) (path : Points) (rng : Rng), path ≠ [] →
      ∃ p1 rng1, backbite_loop n path height width rng = .ok (p1, rng1) ∧ p1.Perm path ∧
        (n = 0 → p1 = path) := by
  intro n
  induction n with
  | zero =>
    intro path rng _
    exact ⟨path, rng, rfl, List.Perm.refl _, fun _ => rfl⟩
  | succ n ih =>
    intro path rng hne
    obtain ⟨p1, rng1, hrun, hperm⟩ := backbite_perm path height width rng hne
    have hne1 : p1 ≠ [] := by
      intro h
      rw [h] at hperm
      exact hne hperm.symm.eq_nil
    obtain ⟨p2, rng2, hrun2, hperm2, _⟩ := ih p1 rng1 hne1
    refine ⟨p2, rng2, ?_, hperm2.trans hperm, by simp⟩
    unfold backbite_loop
    rw [hrun]
    exact hrun2

/-- C3: one call of `backbite` on a complete path of the `height x width` grid
(as many points as cells, every cell exactly once, consecutive points
4-adjacent; not empty, so that it has endpoints), for every state of the
generator (every choice of endpoint and of in-bounds neighbour), returns a path
that is again a complete path of the same grid, of the same length and with the
same cells. -/
theorem backbite_preserves_hamiltonian (path : Points) (height width : Int) (rng : Rng)
    (hne : path ≠ []) (hp : IsHamPath (Grid.mk height width (0, 0)) path) :
    ∃ p1 rng1, backbite path height width rng = .ok (p1, rng1) ∧
      IsHamPath (Grid.mk height width (0, 0)) p1 ∧ p1.length = path.length ∧
      (∀ q, q ∈ p1 ↔ q ∈ path) := by
  obtain ⟨p1, rng1, hrun, hperm⟩ := backbite_perm path height width rng hne
  obtain ⟨p2, rng2, hrun2, hchain⟩ := backbite_chain path height width rng hne hp.chain
  rw [hrun] at hrun2
  cases hrun2
  refine ⟨p1, rng1, hrun, ⟨?_, ?_, ?_, hchain⟩, hperm.length_eq, fun q => hperm.mem_iff⟩
  · rw [hperm.length_eq]; exact hp.length_eq
  · exact hperm.nodup_iff.2 hp.nodup
  · intro q
    rw [hperm.mem_iff]
    exact hp.cells q

/-- C3 on the 2x3 grid: the back endpoint (1,0) bites its neighbour (0,0) and
the segment after (0,0) is reversed; the result is again a complete path. -/
theorem backbite_preserves_hamiltonian_witness :
    ([(0, 0), (0, 1), (0, 2), (1, 2), (1, 1), (1, 0)] : Points) ≠ [] ∧
      IsHamPath (Grid.mk 2 3 (0, 0)) [(0, 0), (0, 1), (0, 2), (1, 2), (1, 1), (1, 0)] ∧
      backbite [(0, 0), (0, 1), (0, 2), (1, 2), (1, 1), (1, 0)] 2 3 [1, 1]
        = .ok ([(0, 0), (1, 0), (1, 1), (1, 2), (0, 2), (0, 1)], []) ∧
      ∃ p1 rng1, backbite [(0, 0), (0, 1), (0, 2), (1, 2), (1, 1), (1, 0)] 2 3 [1, 1]
          = .ok (p1, rng1) ∧
        IsHamPath (Grid.mk 2 3 (0, 0)) p1 ∧
        p1.length = ([(0, 0), (0, 1), (0, 2), (1, 2), (1, 1), (1, 0)] : Points).length ∧
        (∀ q, q ∈ p1 ↔ q ∈ ([(0, 0), (0, 1), (0, 2), (1, 2), (1, 1), (1, 0)] : Points)) :=
  have hp : IsHamPath (Grid.mk 2 3 (0, 0)) [(0, 0), (0, 1), (0, 2), (1, 2), (1, 1), (1, 0)] :=
    ⟨by decide, by decide,
      Grid.covers_of_nodup (Grid.mk 2 3 (0, 0)) (by decide) (by decide) (by decide)
        (by decide) (by decide),
      by simp [adjacent]⟩
  ⟨by decide, hp, by rfl,
    backbite_preserves_hamiltonian [(0, 0), (0, 1), (0, 2), (1, 2), (1, 1), (1, 0)] 2 3 [1, 1]
      (by decide) hp⟩

/-- C10: for a non-empty path of distinct cells, any grid size, any number `n`
of steps and every state of the generator, `n` calls of `backbite` return a
rearrangement of the original path: same length, no duplicate cell, the same
cells; for `n = 0` the path is unchanged. -/
theorem backbite_loop_permutes (n : Nat) (path : Points) (height width : Int) (rng : Rng)
    (hne : path ≠ []) (hnd : path.Nodup) :
    ∃ p1 rng1, backbite_loop n path height width rng = .ok (p1, rng1) ∧
      p1.Perm path ∧ p1.length = path.length ∧ p1.Nodup ∧ (∀ q, q ∈ p1 ↔ q ∈ path) ∧
      (n = 0 → p1 = path) := by
  obtain ⟨p1, rng1, hrun, hperm, h0⟩ := backbite_loop_spec height width n path rng hne
  exact ⟨p1, rng1, hrun, hperm, hperm.length_eq, hperm.nodup_iff.2 hnd,
    fun q => hperm.mem_iff, h0⟩

/-- C10 on a 4-cell path of the 2x2 grid, three steps: the cells are the same,
their order has changed. -/
theorem backbite_loop_permutes_witness :
    ([(0, 0), (0, 1), (1, 1), (1, 0)] : Points) ≠ [] ∧
      ([(0, 0), (0, 1), (1, 1), (1, 0)] : Points).Nodup ∧
      backbite_loop 3 [(0, 0), (0, 1), (1, 1), (1, 0)] 2 2 [0, 1, 1, 0, 0, 0]
        = .ok ([(1, 1), (1, 0), (0, 0), (0, 1)], []) ∧
      ∃ p1 rng1, backbite_loop 3 [(0, 0), (0, 1), (1, 1), (1, 0)] 2 2 [0, 1, 1, 0, 0, 0]
          = .ok (p1, rng1) ∧
        p1.Perm [(0, 0), (0, 1), (1, 1), (1, 0)] ∧
        p1.length = ([(0, 0), (0, 1), (1, 1), (1, 0)] : Points).length ∧ p1.Nodup ∧
        (∀ q, q ∈ p1 ↔ q ∈ ([(0, 0), (0, 1), (1, 1), (1, 0)] : Points)) ∧
        ((3 : Nat) = 0 → p1 = [(0, 0), (0, 1), (1, 1), (1, 0)]) :=
  ⟨by decide, by decide, by rfl,
    backbite_loop_permutes 3 [(0, 0), (0, 1), (1, 1), (1, 0)] 2 2 [0, 1, 1, 0, 0, 0]
      (by decide) (by decide)⟩

/-! ## sample_path_pyramid -/

/-- A call of `sample_path` whose start is outside the region does not return:
the first write to the mask is out of bounds. -/
theorem Grid.sample_path_invalid (g : Grid) (te : Points) (start : Point) (rng : Rng)
    (hh : 0 ≤ g.height) (hw : 0 ≤ g.width) (hs : g.is_valid start = false) :
    g.sample_path start te rng = .error .outOfBounds := by
  have hnone : (Mask.fresh g.height.toNat g.width.toNat).write
      (start.1 - g.bias.1) (start.2 - g.bias.2) true = none := by
    cases hwr : (Mask.fresh g.height.toNat g.width.toNat).write
        (start.1 - g.bias.1) (start.2 - g.bias.2) true with
    | none => rfl
    | some v1 =>
      exfalso
      obtain ⟨b, hb⟩ := Mask.read_of_write hwr
      have := g.is_valid_of_read (Mask.fresh_shaped _ _) hb
      rw [hs] at this
      cases this
  rw [g.sample_path_eq start te rng hh hw]
  simp only [Grid.backtrack, hnone]

/-- A non-empty path returned by `sample_path` on a region with positive
dimensions is a complete path of the region that begins at `start` and ends on
an accepted cell. -/
theorem Grid.sample_path_result (g : Grid) (te : Points) (start : Point) (rng : Rng)
    (hh : 1 ≤ g.height) (hw : 1 ≤ g.width) {p : Points} {rng1 : Rng}
    (hrun : g.sample_path start te rng = .ok (p, rng1)) (hne : p ≠ []) :
    IsHamPath g p ∧ p.head? = some start ∧ ∃ q, p.getLast? = some q ∧ accepted te q := by
  cases hs : g.is_valid start with
  | false =>
    rw [g.sample_path_invalid te start rng (by omega) (by omega) hs] at hrun
    cases hrun
  | true =>
    obtain ⟨path, r1, hrun1, hcase⟩ := g.sample_path_spec te start rng hh hw hs
    rw [hrun] at hrun1
    cases hrun1
    rcases hcase with ⟨hnil, _⟩ | ⟨rest, hp, hc⟩
    · exact absurd hnil hne
    · obtain ⟨hham, hacc⟩ := (g.completion_fresh_iff te start rest hh hw).1 hc
      subst hp
      refine ⟨hham, rfl, rest.getLastD start, ?_, hacc⟩
      rw [List.getLast?_cons, ← List.getLastD_eq_getLast?]

theorem stepStart_adjacent {prev cur : Point} (h : prev ≠ cur) (last_pos : Point) :
    adjacent last_pos (stepStart prev cur last_pos) := by
  have hne : prev.1 ≠ cur.1 ∨ prev.2 ≠ cur.2 := by
    by_contra hcon
    push_neg at hcon
    exact h (Prod.ext hcon.1 hcon.2)
  obtain ⟨l1, l2⟩ := last_pos
  unfold stepStart adjacent
  split_ifs <;> (simp; try omega)

/-- What one retry loop returns, when it returns: a complete path of the
sub-region that ends on the boundary line of `end_side`, and, for a sub-region
after the first, begins at the last point of the path so far moved one step. -/
theorem retryLoop_spec (g : Grid) (hh : 1 ≤ g.height) (hw : 1 ≤ g.width)
    (prev : Option Point) (cur : Point) (full_path : Points) (end_side : String) :
    ∀ (k : Nat) (rng grng : Rng) (res : Points × Rng × Rng),
      retryLoop g prev cur full_path end_side k rng grng = .ok res →
      IsHamPath g res.1 ∧ res.1 ≠ [] ∧
        (∃ q, res.1.getLast? = some q ∧ accepted (g.boundaryLine end_side) q) ∧
        (∀ pv ∈ prev, ∃ last_pos, full_path.getLast? = some last_pos ∧
          res.1.head? = some (stepStart pv cur last_pos)) := by
  intro k
  induction k with
  | zero =>
    intro rng grng res hrun
    simp [retryLoop] at hrun
  | succ k ih =>
    intro rng grng res hrun
    unfold retryLoop at hrun
    cases hst : chooseStart prev cur full_path g.height g.width rng with
    | error e => rw [hst] at hrun; cases hrun
    | ok st =>
      rw [hst] at hrun
      simp only [] at hrun
      cases hsp : g.sample_path_side st.1 end_side grng with
      | error e => rw [hsp] at hrun; cases hrun
      | ok r =>
        rw [hsp] at hrun
        simp only [] at hrun
        by_cases hemp : r.1.isEmpty = true
        · rw [if_pos hemp] at hrun
          exact ih _ _ _ hrun
        · rw [if_neg hemp] at hrun
          cases hrun
          simp only []
          have hne : r.1 ≠ [] := fun h => hemp (by rw [h]; rfl)
          rw [g.sample_path_side_eq] at hsp
          obtain ⟨hham, hhead, hlast⟩ :=
            g.sample_path_result (g.boundaryLine end_side) st.1 grng hh hw
              (show g.sample_path st.1 (g.boundaryLine end_side) grng = .ok (r.1, r.2) from hsp) hne
          refine ⟨hham, hne, hlast, ?_⟩
          intro pv hpv
          cases hpv
          unfold chooseStart at hst
          simp only [] at hst
          cases hl : full_path.getLast? with
          | none => rw [hl] at hst; cases hst
          | some last_pos =>
            rw [hl] at hst
            cases hst
            exact ⟨last_pos, rfl, hhead⟩

/-- What the loop over the coarse cells returns, when it returns: the path so
far followed by one complete path per remaining coarse cell, each on the
sub-region of its cell, the whole being 4-connected. -/
theorem pyramidLoop_spec (retries : Nat) (m n : Int) (hm : 1 ≤ m) (hn : 1 ≤ n) :
    ∀ (coarse : Points) (prev : Option Point) (full_path : Points) (rng grng : Rng)
      (res : Points × Rng × Rng),
      pyramidLoop retries m n prev coarse full_path rng grng = .ok res →
      (prev = none → full_path = []) →
      (∀ pv ∈ prev, ∀ c ∈ coarse.head?, pv ≠ c) →
      coarse.Chain' (fun a b => a ≠ b) →
      full_path.Chain' adjacent →
      ∃ blocks : List Points, res.1 = full_path ++ blocks.flatten ∧
        List.Forall₂ (fun c b => IsHamPath (Grid.mk m n (c.1 * m, c.2 * n)) b) coarse blocks ∧
        res.1.Chain' adjacent := by
  intro coarse
  induction coarse with
  | nil =>
    intro prev full_path rng grng res hrun _ _ _ hch
    simp only [pyramidLoop] at hrun
    cases hrun
    exact ⟨[], by simp, List.Forall₂.nil, hch⟩
  | cons cur rest ih =>
    intro prev full_path rng grng res hrun hprev hpc hcc hch
    unfold pyramidLoop at hrun
    simp only [] at hrun
    cases hr : retryLoop (Grid.mk m n (cur.1 * m, cur.2 * n)) prev cur full_path
        (endSide cur rest.head?) retries rng grng with
    | error e => rw [hr] at hrun; cases hrun
    | ok r =>
      rw [hr] at hrun
      simp only [] at hrun
      obtain ⟨hham, hne, _, hstart⟩ :=
        retryLoop_spec (Grid.mk m n (cur.1 * m, cur.2 * n)) hm hn prev cur full_path _ _ _ _ _ hr
      have hjoin : (full_path ++ r.1).Chain' adjacent := by
        rw [List.chain'_append]
        refine ⟨hch, hham.chain, ?_⟩
        intro x hx y hy
        cases prev with
        | none => rw [hprev rfl] at hx; cases hx
        | some pv =>
          obtain ⟨last_pos, hl, hh⟩ := hstart pv rfl
          have hadj := stepStart_adjacent (hpc pv rfl cur rfl) last_pos
          rw [hl] at hx
          rw [hh] at hy
          cases hx; cases hy
          exact hadj
      obtain ⟨blocks, hres, hall, hchain⟩ := ih (some cur) (full_path ++ r.1) r.2.1 r.2.2 res hrun
        (fun h => by cases h)
        (fun pv hpv c hc => by
          cases hpv
          cases rest with
          | nil => cases hc
          | cons c1 rest1 =>
            cases hc
            exact (List.chain'_cons.1 hcc).1)
        hcc.tail hjoin
      exact ⟨r.1 :: blocks, by rw [hres]; simp, List.Forall₂.cons hham hall, hchain⟩

/-- The result of `sample_path_pyramid`, when it returns on a coarse path whose
consecutive cells are 4-adjacent: one complete path per coarse cell, on the
sub-region of that cell, concatenated in order; the whole is 4-connected. -/
theorem sample_path_pyramid_blocks (retries : Nat) (lowres_path : Points)
    (lowres_m lowres_n m n : Int) (rng seed : Rng) (hm : 1 ≤ m) (hn : 1 ≤ n)
    (hadj : lowres_path.Chain' adjacent) {res : Points} {rng1 : Rng}
    (hrun : sample_path_pyramid retries lowres_path lowres_m lowres_n m n rng seed
      = .ok (res, rng1)) :
    ∃ blocks : List Points, res = blocks.flatten ∧
      List.Forall₂ (fun c b => IsHamPath (Grid.mk m n (c.1 * m, c.2 * n)) b) lowres_path blocks ∧
      res.Chain' adjacent := by
  unfold sample_path_pyramid at hrun
  cases hl : pyramidLoop retries m n none lowres_path [] rng seed with
  | error e => rw [hl] at hrun; cases hrun
  | ok r =>
    rw [hl] at hrun
    cases hrun
    obtain ⟨blocks, hres, hall, hch⟩ := pyramidLoop_spec retries m n hm hn lowres_path none []
      rng seed r hl (fun _ => rfl) (fun pv hpv => by cases hpv)
      (hadj.imp (fun _ _ h => adjacent_ne h)) List.chain'_nil
    exact ⟨blocks, by simpa using hres, hall, hch⟩

theorem forall₂_mem_right {α β : Type} {R : α → β → Prop} {l1 : List α} {l2 : List β}
    (h : List.Forall₂ R l1 l2) : ∀ b ∈ l2, ∃ a ∈ l1, R a b := by
  induction h with
  | nil => intro b hb; cases hb
  | cons hab _ ih =>
    intro b hb
    rcases List.mem_cons.1 hb with h1 | h1
    · subst h1; exact ⟨_, List.mem_cons_self _ _, hab⟩
    · obtain ⟨a, ha, hr⟩ := ih b h1
      exact ⟨a, List.mem_cons_of_mem _ ha, hr⟩

theorem forall₂_pairwise {α β : Type} {R : α → β → Prop} {S : α → α → Prop}
    {T : β → β → Prop} (hST : ∀ a a1 b b1, R a b → R a1 b1 → S a a1 → T b b1)
    {l1 : List α} {l2 : List β} (h : List.Forall₂ R l1 l2) (hp : l1.Pairwise S) :
    l2.Pairwise T := by
  induction h with
  | nil => exact List.Pairwise.nil
  | cons hab hrest ih =>
    rw [List.pairwise_cons] at hp ⊢
    refine ⟨?_, ih hp.2⟩
    intro b1 hb1
    obtain ⟨a1, ha1, hr⟩ := forall₂_mem_right hrest b1 hb1
    exact hST _ _ _ _ hab hr (hp.1 a1 ha1)

theorem flatten_length_const {L : Nat} :
    ∀ (blocks : List Points), (∀ b ∈ blocks, b.length = L) →
      blocks.flatten.length = blocks.length * L
  | [], _ => by simp
  | b :: bs, h => by
    rw [List.flatten_cons, List.length_append, h b (List.mem_cons_self _ _),
      flatten_length_const bs (fun c hc => h c (List.mem_cons_of_mem _ hc)), List.length_cons,
      Nat.succ_mul, Nat.add_comm]

theorem flatten_block_head {L : Nat} (hL : 0 < L) :
    ∀ (blocks : List Points) (i : Nat), (∀ b ∈ blocks, b.length = L) →
      (hi : i < blocks.length) → blocks.flatten[i * L]? = (blocks.get ⟨i, hi⟩).head?
  | [], i, _, hi => by simp at hi
  | b :: bs, 0, h, _ => by
    have hb : b.length = L := h b (List.mem_cons_self _ _)
    cases b with
    | nil => simp at hb; omega
    | cons x xs => simp
  | b :: bs, i + 1, h, hi => by
    have hb : b.length = L := h b (List.mem_cons_self _ _)
    have hi1 : i < bs.length := by simpa using hi
    have := flatten_block_head hL bs i (fun c hc => h c (List.mem_cons_of_mem _ hc)) hi1
    rw [List.flatten_cons, List.getElem?_append_right (by rw [hb, Nat.succ_mul]; omega)]
    rw [hb, Nat.succ_mul, Nat.add_sub_cancel, this]
    rfl

/-- The cells of two sub-regions are disjoint when the coarse cells differ. -/
theorem subregion_disjoint {m n : Int} (hm : 1 ≤ m) (hn : 1 ≤ n) {c c1 q : Point}
    (h : (Grid.mk m n (c.1 * m, c.2 * n)).is_valid q = true)
    (h1 : (Grid.mk m n (c1.1 * m, c1.2 * n)).is_valid q = true) : c = c1 := by
  rw [Grid.is_valid_iff] at h h1
  simp only [] at h h1
  have key : ∀ (a b k x : Int), 1 ≤ k → 0 ≤ x - a * k → x - a * k < k → 0 ≤ x - b * k →
      x - b * k < k → a = b := by
    intro a b k x hk h1 h2 h3 h4
    by_contra hne
    rcases lt_or_gt_of_ne hne with hlt | hlt
    · have : (a + 1) * k ≤ b * k := Int.mul_le_mul_of_nonneg_right (by omega) (by omega)
      rw [add_mul] at this
      omega
    · have : (b + 1) * k ≤ a * k := Int.mul_le_mul_of_nonneg_right (by omega) (by omega)
      rw [add_mul] at this
      omega
  exact Prod.ext (key _ _ m q.1 hm h.1 h.2.1 h1.1 h1.2.1)
    (key _ _ n q.2 hn h.2.2.1 h.2.2.2 h1.2.2.1 h1.2.2.2)

/-- A cell of the sub-region of a coarse cell of the `M x N` grid is a cell of
the `(M*m) x (N*n)` grid. -/
theorem subregion_in_full {M N m n : Int} (hm : 1 ≤ m) (hn : 1 ≤ n) {c q : Point}
    (hc : (Grid.mk M N (0, 0)).is_valid c = true)
    (h : (Grid.mk m n (c.1 * m, c.2 * n)).is_valid q = true) :
    (Grid.mk (M * m) (N * n) (0, 0)).is_valid q = true := by
  rw [Grid.is_valid_iff] at h hc ⊢
  simp only [sub_zero] at h hc ⊢
  have key : ∀ (a K k x : Int), 1 ≤ k → 0 ≤ a → a < K → 0 ≤ x - a * k → x - a * k < k →
      0 ≤ x ∧ x < K * k := by
    intro a K k x hk ha haK h1 h2
    have h3 : 0 ≤ a * k := Int.mul_nonneg ha (by omega)
    have h4 : (a + 1) * k ≤ K * k := Int.mul_le_mul_of_nonneg_right (by omega) (by omega)
    rw [add_mul] at h4
    constructor <;> omega
  have h1 := key c.1 M m q.1 hm hc.1 hc.2.1 h.1 h.2.1
  have h2 := key c.2 N n q.2 hn hc.2.2.1 hc.2.2.2 h.2.2.1 h.2.2.2
  exact ⟨h1.1, h1.2, h2.1, h2.2⟩

/-- On a region without cells `sample_path` does not return. -/
theorem Grid.sample_path_degenerate (g : Grid) (hdeg : g.height < 1 ∨ g.width < 1)
    (start : Point) (te : Points) (rng : Rng) : ∃ e, g.sample_path start te rng = .error e := by
  by_cases hnh : g.height < 0
  · exact ⟨.lengthError, g.sample_path_negative_height start te rng hnh⟩
  by_cases hnw : g.width < 0
  · exact ⟨.badSize, g.sample_path_negative_width start te rng (by omega) hnw⟩
  · refine ⟨.outOfBounds, g.sample_path_invalid te start rng (by omega) (by omega) ?_⟩
    cases hv : g.is_valid start with
    | false => rfl
    | true =>
      rw [Grid.is_valid_iff] at hv
      omega

theorem retryLoop_degenerate (g : Grid) (hdeg : g.height < 1 ∨ g.width < 1)
    (prev : Option Point) (cur : Point) (full_path : Points) (end_side : String) :
    ∀ (k : Nat) (rng grng : Rng),
      ∃ e, retryLoop g prev cur full_path end_side k rng grng = .error e := by
  intro k
  induction k with
  | zero => intro rng grng; exact ⟨.outOfFuel, rfl⟩
  | succ k _ =>
    intro rng grng
    unfold retryLoop
    cases hst : chooseStart prev cur full_path g.height g.width rng with
    | error e => exact ⟨e, rfl⟩
    | ok st =>
      obtain ⟨e, he⟩ := g.sample_path_degenerate hdeg st.1 (g.boundaryLine end_side) grng
      simp only []
      rw [g.sample_path_side_eq, he]
      exact ⟨e, rfl⟩

/-- With sub-grids without cells the composition of a non-empty coarse path
does not return. -/
theorem sample_path_pyramid_degenerate (retries : Nat) (lowres_path : Points)
    (lowres_m lowres_n m n : Int) (rng seed : Rng) (hdeg : m < 1 ∨ n < 1)
    (hne : lowres_path ≠ []) :
    ∃ e, sample_path_pyramid retries lowres_path lowres_m lowres_n m n rng seed = .error e := by
  cases lowres_path with
  | nil => exact absurd rfl hne
  | cons cur rest =>
    obtain ⟨e, he⟩ := retryLoop_degenerate (Grid.mk m n (cur.1 * m, cur.2 * n)) hdeg none cur []
      (endSide cur rest.head?) retries rng seed
    refine ⟨e, ?_⟩
    unfold sample_path_pyramid pyramidLoop
    simp only []
    rw [he]

/-! ## Properties of the pyramid composition (C4, C5, C6) -/

theorem blocks_length {m n : Int} {coarse : Points} {blocks : List Points}
    (hall : List.Forall₂ (fun c b => IsHamPath (Grid.mk m n (c.1 * m, c.2 * n)) b) coarse blocks) :
    ∀ b ∈ blocks, b.length = (m * n).toNat := by
  intro b hb
  obtain ⟨c, _, hc⟩ := forall₂_mem_right hall b hb
  have := hc.length_eq
  simp only [] at this
  omega

/-- C5: for a coarse path whose consecutive cells are 4-adjacent and a sub-grid
shape with `subgrid_m ≥ 1`, `subgrid_n ≥ 1`, whenever `sample_path_pyramid`
returns, the length of its result is `lowres_path.size() * subgrid_m * subgrid_n`:
the result is the concatenation of one sub-path of `subgrid_m * subgrid_n`
points per coarse cell. -/
theorem pyramid_length (retries : Nat) (lowres_path : Points)
    (lowres_m lowres_n subgrid_m subgrid_n : Int) (rng seed : Rng) (res : Points) (rng1 : Rng)
    (hm : 1 ≤ subgrid_m) (hn : 1 ≤ subgrid_n) (hadj : lowres_path.Chain' adjacent)
    (hrun : sample_path_pyramid retries lowres_path lowres_m lowres_n subgrid_m subgrid_n rng seed
      = .ok (res, rng1)) :
    (res.length : Int) = (lowres_path.length : Int) * subgrid_m * subgrid_n ∧
      ∃ blocks : List Points, res = blocks.flatten ∧ blocks.length = lowres_path.length ∧
        ∀ b ∈ blocks, (b.length : Int) = subgrid_m * subgrid_n := by
  obtain ⟨blocks, hres, hall, _⟩ := sample_path_pyramid_blocks retries lowres_path lowres_m
    lowres_n subgrid_m subgrid_n rng seed hm hn hadj hrun
  have hpos : 0 < subgrid_m * subgrid_n := Int.mul_pos (by omega) (by omega)
  have hb := blocks_length hall
  have hlen := flatten_length_const blocks hb
  refine ⟨?_, blocks, hres, hall.length_eq.symm, ?_⟩
  · rw [hres, hlen, hall.length_eq, mul_assoc]
    push_cast
    rw [Int.toNat_of_nonneg (by omega)]
  · intro b hbm
    rw [hb b hbm, Int.toNat_of_nonneg (by omega)]

/-- C5 on the coarse path [(0,0),(0,1)] with 2x2 sub-grids: the call returns a
path of 2 * 2 * 2 = 8 points. -/
theorem pyramid_length_witness :
    (1 : Int) ≤ 2 ∧ ([(0, 0), (0, 1)] : Points).Chain' adjacent ∧
      sample_path_pyramid 3 [(0, 0), (0, 1)] 1 2 2 2 [5] [1, 2, 3, 4, 5, 6, 7, 8, 9]
        = .ok ([(0, 1), (0, 0), (1, 0), (1, 1), (1, 2), (0, 2), (0, 3), (1, 3)], []) ∧
      ((([(0, 1), (0, 0), (1, 0), (1, 1), (1, 2), (0, 2), (0, 3), (1, 3)] : Points).length : Int)
          = (([(0, 0), (0, 1)] : Points).length : Int) * 2 * 2 ∧
        ∃ blocks : List Points,
          ([(0, 1), (0, 0), (1, 0), (1, 1), (1, 2), (0, 2), (0, 3), (1, 3)] : Points)
            = blocks.flatten ∧
          blocks.length = ([(0, 0), (0, 1)] : Points).length ∧
          ∀ b ∈ blocks, (b.length : Int) = 2 * 2) :=
  ⟨by decide, by simp [adjacent], by rfl,
    pyramid_length 3 [(0, 0), (0, 1)] 1 2 2 2 [5] [1, 2, 3, 4, 5, 6, 7, 8, 9]
      [(0, 1), (0, 0), (1, 0), (1, 1), (1, 2), (0, 2), (0, 3), (1, 3)] [] (by decide) (by decide)
      (by simp [adjacent]) (by rfl)⟩

/-- C6: for a coarse path whose consecutive cells are 4-adjacent and every
`i ≥ 1`, whenever `sample_path_pyramid` returns, the first point of the
sub-path of coarse cell `i` (index `i * subgrid_m * subgrid_n` of the result)
lies inside sub-region `i` (rows `[y_i*subgrid_m, (y_i+1)*subgrid_m)`, columns
`[x_i*subgrid_n, (x_i+1)*subgrid_n)`) and is 4-adjacent to the last point of the
sub-path of coarse cell `i - 1` (index `i * subgrid_m * subgrid_n - 1`); the
result has `lowres_path.size() * subgrid_m * subgrid_n` points.  (With a
sub-grid shape that has no cell the call does not return.) -/
theorem pyramid_seam (retries : Nat) (lowres_path : Points)
    (lowres_m lowres_n subgrid_m subgrid_n : Int) (rng seed : Rng) (res : Points) (rng1 : Rng)
    (hadj : lowres_path.Chain' adjacent)
    (hrun : sample_path_pyramid retries lowres_path lowres_m lowres_n subgrid_m subgrid_n rng seed
      = .ok (res, rng1))
    (i : Nat) (hi : 1 ≤ i) (hlt : i < lowres_path.length) :
    res.length = lowres_path.length * (subgrid_m * subgrid_n).toNat ∧
      ∃ c p q, lowres_path[i]? = some c ∧
        res[i * (subgrid_m * subgrid_n).toNat]? = some p ∧
        res[i * (subgrid_m * subgrid_n).toNat - 1]? = some q ∧
        (c.1 * subgrid_m ≤ p.1 ∧ p.1 < (c.1 + 1) * subgrid_m ∧
          c.2 * subgrid_n ≤ p.2 ∧ p.2 < (c.2 + 1) * subgrid_n) ∧
        adjacent q p := by
  by_cases hmn : 1 ≤ subgrid_m ∧ 1 ≤ subgrid_n
  swap
  · exfalso
    obtain ⟨e, he⟩ := sample_path_pyramid_degenerate retries lowres_path lowres_m lowres_n
      subgrid_m subgrid_n rng seed (by omega) (by intro h; rw [h] at hlt; simp at hlt)
    rw [he] at hrun
    cases hrun
  obtain ⟨hm, hn⟩ := hmn
  obtain ⟨blocks, hres, hall, hch⟩ := sample_path_pyramid_blocks retries lowres_path lowres_m
    lowres_n subgrid_m subgrid_n rng seed hm hn hadj hrun
  have hpos : 0 < subgrid_m * subgrid_n := Int.mul_pos (by omega) (by omega)
  have hb := blocks_length hall
  have hlen := flatten_length_const blocks hb
  generalize hL : (subgrid_m * subgrid_n).toNat = L at hb hlen ⊢
  have hLpos : 0 < L := by omega
  have hbl : lowres_path.length = blocks.length := hall.length_eq
  have hi1 : i < blocks.length := by omega
  have hidx : i * L + L ≤ res.length := by
    rw [hres, hlen]
    have := Nat.mul_le_mul_right L (Nat.succ_le_of_lt hi1)
    rw [Nat.succ_mul] at this
    exact this
  obtain ⟨k, hk⟩ : ∃ k, i * L = k + 1 := by
    have : L ≤ i * L := Nat.le_mul_of_pos_left L (by omega)
    exact ⟨i * L - 1, by omega⟩
  have hadjq := (List.chain'_iff_get.1 hch) k (by omega)
  -- the head of block `i`
  have hhead := flatten_block_head hLpos blocks i hb hi1
  rw [← hres] at hhead
  have hblock := hall.get hlt hi1
  have hbne : 0 < (blocks.get ⟨i, hi1⟩).length := by
    rw [hb _ (List.get_mem _ _ _)]; exact hLpos
  obtain ⟨p, hp⟩ : ∃ p, (blocks.get ⟨i, hi1⟩).head? = some p := by
    cases hbi : blocks.get ⟨i, hi1⟩ with
    | nil => rw [hbi] at hbne; simp at hbne
    | cons x xs => exact ⟨x, rfl⟩
  have hpv := (hblock.cells p).1 (List.mem_of_mem_head? hp)
  rw [Grid.is_valid_iff] at hpv
  simp only [] at hpv
  have hpk : res[k + 1]? = some p := by rw [← hk, hhead, hp]
  have hpget : res.get ⟨k + 1, by omega⟩ = p := by
    have := List.getElem?_eq_getElem (l := res) (n := k + 1) (by omega)
    rw [hpk] at this
    exact (Option.some.inj this).symm
  rw [hpget] at hadjq
  refine ⟨by rw [hres, hlen, hbl], lowres_path.get ⟨i, hlt⟩, p, res.get ⟨k, by omega⟩, ?_, ?_, ?_, ?_, hadjq⟩
  · exact List.getElem?_eq_getElem hlt
  · rw [hk]; exact hpk
  · have hkk : i * L - 1 = k := by omega
    rw [hkk]
    exact List.getElem?_eq_getElem _
  · rw [add_mul, add_mul]
    omega

/-- C6 on the scenario of the specification: the coarse path [(0,0),(0,1)] with
sub-grid shape (2,2) gives a path of 8 points whose points of index 3 and 4 are
4-adjacent, the point of index 4 lying in the second sub-region. -/
theorem pyramid_seam_witness :
    ([(0, 0), (0, 1)] : Points).Chain' adjacent ∧
      sample_path_pyramid 3 [(0, 0), (0, 1)] 1 2 2 2 [5] [1, 2, 3, 4, 5, 6, 7, 8, 9]
        = .ok ([(0, 1), (0, 0), (1, 0), (1, 1), (1, 2), (0, 2), (0, 3), (1, 3)], []) ∧
      (1 ≤ 1 ∧ 1 < ([(0, 0), (0, 1)] : Points).length) ∧
      (([(0, 1), (0, 0), (1, 0), (1, 1), (1, 2), (0, 2), (0, 3), (1, 3)] : Points).length
          = ([(0, 0), (0, 1)] : Points).length * ((2 : Int) * 2).toNat ∧
        ∃ c p q, ([(0, 0), (0, 1)] : Points)[1]? = some c ∧
          ([(0, 1), (0, 0), (1, 0), (1, 1), (1, 2), (0, 2), (0, 3), (1, 3)] : Points)[
            1 * ((2 : Int) * 2).toNat]? = some p ∧
          ([(0, 1), (0, 0), (1, 0), (1, 1), (1, 2), (0, 2), (0, 3), (1, 3)] : Points)[
            1 * ((2 : Int) * 2).toNat - 1]? = some q ∧
          (c.1 * 2 ≤ p.1 ∧ p.1 < (c.1 + 1) * 2 ∧ c.2 * 2 ≤ p.2 ∧ p.2 < (c.2 + 1) * 2) ∧
          adjacent q p) :=
  ⟨by simp [adjacent], by rfl, by decide,
    pyramid_seam 3 [(0, 0), (0, 1)] 1 2 2 2 [5] [1, 2, 3, 4, 5, 6, 7, 8, 9]
      [(0, 1), (0, 0), (1, 0), (1, 1), (1, 2), (0, 2), (0, 3), (1, 3)] []
      (by simp [adjacent]) (by rfl) 1 (by decide) (by decide)⟩

/-- C4: for a coarse path that is a complete path of the `lowres_m x lowres_n`
grid and a sub-grid shape with `subgrid_m ≥ 1`, `subgrid_n ≥ 1`, whenever
`sample_path_pyramid` returns, its result is a complete path of the
`(lowres_m*subgrid_m) x (lowres_n*subgrid_n)` grid: every cell of that grid
occurs exactly once and consecutive points are 4-adjacent. -/
theorem pyramid_hamiltonian (retries : Nat) (lowres_path : Points)
    (lowres_m lowres_n subgrid_m subgrid_n : Int) (rng seed : Rng) (res : Points) (rng1 : Rng)
    (hm : 1 ≤ subgrid_m) (hn : 1 ≤ subgrid_n)
    (hcoarse : IsHamPath (Grid.mk lowres_m lowres_n (0, 0)) lowres_path)
    (hrun : sample_path_pyramid retries lowres_path lowres_m lowres_n subgrid_m subgrid_n rng seed
      = .ok (res, rng1)) :
    IsHamPath (Grid.mk (lowres_m * subgrid_m) (lowres_n * subgrid_n) (0, 0)) res := by
  obtain ⟨blocks, hres, hall, hch⟩ := sample_path_pyramid_blocks retries lowres_path lowres_m
    lowres_n subgrid_m subgrid_n rng seed hm hn hcoarse.chain hrun
  have hpos : 0 < subgrid_m * subgrid_n := Int.mul_pos (by omega) (by omega)
  have hb := blocks_length hall
  -- length
  have hlen : (res.length : Int) = (lowres_m * subgrid_m) * (lowres_n * subgrid_n) := by
    rw [hres, flatten_length_const blocks hb, ← hall.length_eq]
    push_cast
    rw [Int.toNat_of_nonneg (by omega), hcoarse.length_eq]
    simp only []
    ring
  -- every point is a cell of the full grid
  have hval : ∀ q ∈ res,
      (Grid.mk (lowres_m * subgrid_m) (lowres_n * subgrid_n) (0, 0)).is_valid q = true := by
    intro q hq
    rw [hres, List.mem_flatten] at hq
    obtain ⟨b, hbm, hqb⟩ := hq
    obtain ⟨c, hc, hham⟩ := forall₂_mem_right hall b hbm
    exact subregion_in_full hm hn ((hcoarse.cells c).1 hc) ((hham.cells q).1 hqb)
  -- no point twice
  have hnd : res.Nodup := by
    rw [hres, List.nodup_flatten]
    constructor
    · intro b hbm
      obtain ⟨c, _, hham⟩ := forall₂_mem_right hall b hbm
      exact hham.nodup
    · refine forall₂_pairwise ?_ hall hcoarse.nodup
      intro c c1 b b1 hcb hcb1 hne
      rw [List.disjoint_left]
      intro q hq hq1
      exact hne (subregion_disjoint hm hn ((hcb.cells q).1 hq) ((hcb1.cells q).1 hq1))
  refine ⟨hlen, hnd, ?_, hch⟩
  cases hlp : lowres_path with
  | nil =>
    have h0 := hcoarse.length_eq
    rw [hlp] at h0 hall
    cases hall
    simp only [List.length_nil, Nat.cast_zero] at h0
    intro q
    rw [hres]
    simp only [List.flatten_nil, List.not_mem_nil, false_iff, Bool.not_eq_true]
    cases hv : (Grid.mk (lowres_m * subgrid_m) (lowres_n * subgrid_n) (0, 0)).is_valid q with
    | false => rfl
    | true =>
      exfalso
      rw [Grid.is_valid_iff] at hv
      simp only [sub_zero] at hv
      rcases Int.mul_eq_zero.1 h0.symm with hz | hz
      · rw [hz, zero_mul] at hv; omega
      · rw [hz, zero_mul] at hv; omega
  | cons c rest =>
    have hc := (hcoarse.cells c).1 (by rw [hlp]; exact List.mem_cons_self _ _)
    rw [Grid.is_valid_iff] at hc
    simp only [sub_zero] at hc
    exact Grid.covers_of_nodup _ (Int.mul_nonneg (by omega) (by omega))
      (Int.mul_nonneg (by omega) (by omega)) hnd hval hlen

/-- C4 on the coarse path [(0,0),(0,1)] of the 1x2 grid with 2x2 sub-grids: the
call returns, and the result is a complete path of the 2x4 grid. -/
theorem pyramid_hamiltonian_witness :
    (1 : Int) ≤ 2 ∧ IsHamPath (Grid.mk 1 2 (0, 0)) [(0, 0), (0, 1)] ∧
      sample_path_pyramid 3 [(0, 0), (0, 1)] 1 2 2 2 [5] [1, 2, 3, 4, 5, 6, 7, 8, 9]
        = .ok ([(0, 1), (0, 0), (1, 0), (1, 1), (1, 2), (0, 2), (0, 3), (1, 3)], []) ∧
      IsHamPath (Grid.mk (1 * 2) (2 * 2) (0, 0))
        [(0, 1), (0, 0), (1, 0), (1, 1), (1, 2), (0, 2), (0, 3), (1, 3)] :=
  have hp : IsHamPath (Grid.mk 1 2 (0, 0)) [(0, 0), (0, 1)] :=
    ⟨by decide, by decide,
      Grid.covers_of_nodup (Grid.mk 1 2 (0, 0)) (by decide) (by decide) (by decide)
        (by decide) (by decide),
      by simp [adjacent]⟩
  ⟨by decide, hp, by rfl,
    pyramid_hamiltonian 3 [(0, 0), (0, 1)] 1 2 2 2 [5] [1, 2, 3, 4, 5, 6, 7, 8, 9]
      [(0, 1), (0, 0), (1, 0), (1, 1), (1, 2), (0, 2), (0, 3), (1, 3)] [] (by decide) (by decide)
      hp (by rfl)⟩

/-! ## The composition does not fault -/

theorem forLoop_append (F : Int → Points) (hi : Int) :
    ∀ (k : Nat) (lo : Int) (out : Points), (hi - lo).toNat = k →
      forLoop (fun x acc => acc ++ F x) k lo hi out
        = out ++ (List.range k).flatMap (fun (i : Nat) => F (lo + (i : Int))) := by
  intro k
  induction k with
  | zero => intro lo out _; simp [forLoop]
  | succ k ih =>
    intro lo out hk
    have hlt : lo < hi := by omega
    unfold forLoop
    rw [if_pos hlt, ih (lo + 1) (out ++ F lo) (by omega), List.range_succ_eq_map]
    simp only [List.flatMap_cons, List.flatMap_map, List.append_assoc, Nat.cast_zero, add_zero]
    congr 2
    apply List.flatMap_congr
    intro i _
    simp only [Function.comp, Nat.succ_eq_add_one]
    push_cast
    congr 1
    omega

theorem possibleStarts_eq (cur : Point) (m n : Int) :
    possibleStarts cur m n = (Grid.mk m n (cur.1 * m, cur.2 * n)).cellList := by
  unfold possibleStarts Grid.cellList
  have hinner : ∀ (yy : Int) (out : Points),
      forLoop (fun xx out1 => out1 ++ [(yy, xx)]) n.toNat (cur.2 * n) (cur.2 * n + n) out
        = out ++ (List.range n.toNat).map (fun (j : Nat) => (yy, cur.2 * n + (j : Int))) := by
    intro yy out
    exact forLoop_push (fun xx => (yy, xx)) (cur.2 * n + n) n.toNat (cur.2 * n) out
      (by rw [add_sub_cancel_left])
  simp only [hinner]
  rw [forLoop_append (fun yy => (List.range n.toNat).map
    (fun (j : Nat) => (yy, cur.2 * n + (j : Int)))) (cur.1 * m + m) m.toNat (cur.1 * m) []
    (by rw [add_sub_cancel_left]), List.nil_append]

end Walks

namespace Walks

/-- Leaving a sub-region through the side that faces the next coarse cell and
stepping towards that cell enters the sub-region of the next cell. -/
theorem exit_enters {m n : Int} (hm : 1 ≤ m) (hn : 1 ≤ n) {cur next q : Point}
    (hadj : adjacent cur next)
    (hq : accepted ((Grid.mk m n (cur.1 * m, cur.2 * n)).boundaryLine (endSide cur (some next))) q) :
    (Grid.mk m n (next.1 * m, next.2 * n)).is_valid (stepStart cur next q) = true := by
  obtain ⟨c1, c2⟩ := cur
  obtain ⟨q1, q2⟩ := q
  have hmn : 0 < m.toNat ∧ 0 < n.toNat := ⟨by omega, by omega⟩
  obtain ⟨d, hd, hnext⟩ := (adjacent_iff_dir _ _).1 hadj
  subst hnext
  simp only [directions, List.mem_cons, List.mem_singleton, List.not_mem_nil, or_false] at hd
  unfold accepted at hq
  rcases hd with rfl | rfl | rfl | rfl
  · -- to the right
    have hside : endSide (c1, c2) (some (c1 + 0, c2 + 1)) = "right" := by
      unfold endSide
      simp only []
      rw [if_neg (by omega), if_neg (by omega), if_pos trivial]
    have hstep : stepStart (c1, c2) (c1 + 0, c2 + 1) (q1, q2) = (q1, q2 + 1) := by
      unfold stepStart
      simp only []
      rw [if_neg (by omega), if_neg (by omega), if_pos (by omega)]
    have hq2 : (Grid.mk m n (c1 * m, c2 * n)).boundaryLine "right" = [] ∨
        (q1, q2) ∈ (Grid.mk m n (c1 * m, c2 * n)).boundaryLine "right" := by
      rw [← hside]; exact hq
    have hgoal : (Grid.mk m n ((c1 + 0) * m, (c2 + 1) * n)).is_valid (q1, q2 + 1) = true := by
      rw [Grid.is_valid_iff]
      simp only [Grid.boundaryLine, if_neg (by decide : ¬ "right" = "top"),
        if_neg (by decide : ¬ "right" = "bottom"), if_neg (by decide : ¬ "right" = "left"),
        if_true, List.map_eq_nil_iff, List.range_eq_nil, List.mem_map, List.mem_range,
        Prod.mk.injEq] at hq2
      simp only [add_mul, one_mul, add_zero]
      rcases hq2 with h | ⟨i, hi, h1, h2⟩ <;> omega
    rw [← hstep] at hgoal
    exact hgoal
  · -- downwards
    have hside : endSide (c1, c2) (some (c1 + 1, c2 + 0)) = "bottom" := by
      unfold endSide
      simp only []
      rw [if_pos trivial]
    have hstep : stepStart (c1, c2) (c1 + 1, c2 + 0) (q1, q2) = (q1 + 1, q2) := by
      unfold stepStart
      simp only []
      rw [if_pos (by omega)]
    have hq2 : (Grid.mk m n (c1 * m, c2 * n)).boundaryLine "bottom" = [] ∨
        (q1, q2) ∈ (Grid.mk m n (c1 * m, c2 * n)).boundaryLine "bottom" := by
      rw [← hside]; exact hq
    have hgoal : (Grid.mk m n ((c1 + 1) * m, (c2 + 0) * n)).is_valid (q1 + 1, q2) = true := by
      rw [Grid.is_valid_iff]
      simp only [Grid.boundaryLine, if_neg (by decide : ¬ "bottom" = "top"),
        if_true, List.map_eq_nil_iff, List.range_eq_nil, List.mem_map, List.mem_range,
        Prod.mk.injEq] at hq2
      simp only [add_mul, one_mul, add_zero]
      rcases hq2 with h | ⟨i, hi, h1, h2⟩ <;> omega
    rw [← hstep] at hgoal
    exact hgoal
  · -- to the left
    have hside : endSide (c1, c2) (some (c1 + 0, c2 + -1)) = "left" := by
      unfold endSide
      simp only []
      rw [if_neg (by omega), if_neg (by omega), if_neg (by omega), if_pos (by omega)]
    have hstep : stepStart (c1, c2) (c1 + 0, c2 + -1) (q1, q2) = (q1, q2 - 1) := by
      unfold stepStart
      simp only []
      rw [if_neg (by omega), if_neg (by omega), if_neg (by omega), if_pos (by omega)]
    have hq2 : (Grid.mk m n (c1 * m, c2 * n)).boundaryLine "left" = [] ∨
        (q1, q2) ∈ (Grid.mk m n (c1 * m, c2 * n)).boundaryLine "left" := by
      rw [← hside]; exact hq
    have hgoal : (Grid.mk m n ((c1 + 0) * m, (c2 + -1) * n)).is_valid (q1, q2 - 1) = true := by
      rw [Grid.is_valid_iff]
      simp only [Grid.boundaryLine, if_neg (by decide : ¬ "left" = "top"),
        if_neg (by decide : ¬ "left" = "bottom"),
        if_true, List.map_eq_nil_iff, List.range_eq_nil, List.mem_map, List.mem_range,
        Prod.mk.injEq] at hq2
      simp only [add_mul, neg_mul, one_mul, add_zero]
      rcases hq2 with h | ⟨i, hi, h1, h2⟩ <;> omega
    rw [← hstep] at hgoal
    exact hgoal
  · -- upwards
    have hside : endSide (c1, c2) (some (c1 + -1, c2 + 0)) = "top" := by
      unfold endSide
      simp only []
      rw [if_neg (by omega), if_pos (by omega)]
    have hstep : stepStart (c1, c2) (c1 + -1, c2 + 0) (q1, q2) = (q1 - 1, q2) := by
      unfold stepStart
      simp only []
      rw [if_neg (by omega), if_pos (by omega)]
    have hq2 : (Grid.mk m n (c1 * m, c2 * n)).boundaryLine "top" = [] ∨
        (q1, q2) ∈ (Grid.mk m n (c1 * m, c2 * n)).boundaryLine "top" := by
      rw [← hside]; exact hq
    have hgoal : (Grid.mk m n ((c1 + -1) * m, (c2 + 0) * n)).is_valid (q1 - 1, q2) = true := by
      rw [Grid.is_valid_iff]
      simp only [Grid.boundaryLine,
        if_true, List.map_eq_nil_iff, List.range_eq_nil, List.mem_map, List.mem_range,
        Prod.mk.injEq] at hq2
      simp only [add_mul, neg_mul, one_mul, add_zero]
      rcases hq2 with h | ⟨i, hi, h1, h2⟩ <;> omega
    rw [← hstep] at hgoal
    exact hgoal

theorem chooseStart_first (cur : Point) (full_path : Points) (m n : Int) (hm : 1 ≤ m)
    (hn : 1 ≤ n) (rng : Rng) :
    ∃ st, chooseStart none cur full_path m n rng = .ok st ∧
      (Grid.mk m n (cur.1 * m, cur.2 * n)).is_valid st.1 = true := by
  unfold chooseStart
  simp only []
  have hlen : 0 < (possibleStarts cur m n).length := by
    rw [possibleStarts_eq, Grid.cellList_length]
    exact Nat.mul_pos (by simp only []; omega) (by simp only []; omega)
  have hne : (possibleStarts cur m n).isEmpty = false := by
    cases h : possibleStarts cur m n with
    | nil => rw [h] at hlen; simp at hlen
    | cons x xs => rfl
  rw [hne]
  simp only [Bool.false_eq_true, if_false]
  have hidx : (uniform_int ((possibleStarts cur m n).length - 1) rng).1
      < (possibleStarts cur m n).length := by
    have := uniform_int_le ((possibleStarts cur m n).length - 1) rng
    omega
  rw [List.get?_eq_get hidx]
  refine ⟨_, rfl, ?_⟩
  simp only []
  have hall : ∀ q ∈ possibleStarts cur m n,
      (Grid.mk m n (cur.1 * m, cur.2 * n)).is_valid q = true := by
    intro q hq
    rw [possibleStarts_eq] at hq
    exact (Grid.mem_cellList _ _).1 hq
  exact hall _ (List.get_mem (possibleStarts cur m n) _ hidx)

theorem retryLoop_no_fault (g : Grid) (hh : 1 ≤ g.height) (hw : 1 ≤ g.width)
    (prev : Option Point) (cur : Point) (full_path : Points) (end_side : String)
    (hchoose : ∀ rng, ∃ st, chooseStart prev cur full_path g.height g.width rng = .ok st ∧
      g.is_valid st.1 = true) :
    ∀ (k : Nat) (rng grng : Rng), NoFault (retryLoop g prev cur full_path end_side k rng grng) := by
  intro k
  induction k with
  | zero => intro rng grng; exact Or.inr rfl
  | succ k ih =>
    intro rng grng
    obtain ⟨st, hst, hval⟩ := hchoose rng
    obtain ⟨path, rng1, hrun, _⟩ :=
      g.sample_path_spec (g.boundaryLine end_side) st.1 grng hh hw hval
    unfold retryLoop
    rw [hst]
    simp only []
    rw [g.sample_path_side_eq, hrun]
    simp only []
    by_cases hemp : path.isEmpty = true
    · rw [if_pos hemp]; exact ih _ _
    · rw [if_neg hemp]; exact Or.inl ⟨_, rfl⟩

theorem pyramidLoop_no_fault (retries : Nat) (m n : Int) (hm : 1 ≤ m) (hn : 1 ≤ n) :
    ∀ (coarse : Points) (prev : Option Point) (full_path : Points) (rng grng : Rng),
      (∀ pv ∈ prev, ∀ c ∈ coarse.head?, ∃ last_pos, full_path.getLast? = some last_pos ∧
        (Grid.mk m n (c.1 * m, c.2 * n)).is_valid (stepStart pv c last_pos) = true) →
      coarse.Chain' adjacent →
      NoFault (pyramidLoop retries m n prev coarse full_path rng grng) := by
  intro coarse
  induction coarse with
  | nil => intro prev full_path rng grng _ _; exact Or.inl ⟨_, rfl⟩
  | cons cur rest ih =>
    intro prev full_path rng grng hinv hch
    have hchoose : ∀ r : Rng, ∃ st, chooseStart prev cur full_path m n r = .ok st ∧
        (Grid.mk m n (cur.1 * m, cur.2 * n)).is_valid st.1 = true := by
      intro r
      cases prev with
      | none => exact chooseStart_first cur full_path m n hm hn r
      | some pv =>
        obtain ⟨last_pos, hl, hv⟩ := hinv pv rfl cur rfl
        exact ⟨(stepStart pv cur last_pos, r), by simp [chooseStart, hl], hv⟩
    have hretry := retryLoop_no_fault (Grid.mk m n (cur.1 * m, cur.2 * n)) hm hn prev cur
      full_path (endSide cur rest.head?) hchoose retries rng grng
    unfold pyramidLoop
    simp only []
    rcases hretry with ⟨r, hr⟩ | hr
    · rw [hr]
      simp only []
      obtain ⟨_, hne, ⟨q, hlast, hacc⟩, _⟩ :=
        retryLoop_spec (Grid.mk m n (cur.1 * m, cur.2 * n)) hm hn prev cur full_path _ _ _ _ _ hr
      apply ih (some cur) (full_path ++ r.1) r.2.1 r.2.2 _ hch.tail
      intro pv hpv c hc
      cases hpv
      refine ⟨q, by rw [List.getLast?_append, hlast]; rfl, ?_⟩
      cases rest with
      | nil => cases hc
      | cons c1 rest1 =>
        cases hc
        exact exit_enters hm hn (List.chain'_cons.1 hch).1 hacc
    · rw [hr]
      exact Or.inr rfl

/-- On a coarse path whose consecutive cells are 4-adjacent and with sub-grids
of positive dimensions, `sample_path_pyramid` makes no access out of bounds,
whatever the random choices: it returns, or some retry loop is still running
when the budget of attempts ends. -/
theorem sample_path_pyramid_no_fault (retries : Nat) (lowres_path : Points)
    (lowres_m lowres_n m n : Int) (rng seed : Rng) (hm : 1 ≤ m) (hn : 1 ≤ n)
    (hadj : lowres_path.Chain' adjacent) :
    NoFault (sample_path_pyramid retries lowres_path lowres_m lowres_n m n rng seed) := by
  have h := pyramidLoop_no_fault retries m n hm hn lowres_path none [] rng seed
    (fun pv hpv => by cases hpv) hadj
  unfold sample_path_pyramid
  rcases h with ⟨r, hr⟩ | hr
  · rw [hr]; exact Or.inl ⟨_, rfl⟩
  · rw [hr]; exact Or.inr rfl

/-! ## The 2x2 scenario (C11) -/

/-- The two complete paths of the 2x2 grid that begin at the corner (0,0). -/
theorem two_by_two_paths {p : Points} (hp : IsHamPath (Grid.mk 2 2 (0, 0)) p)
    (hhead : p.head? = some (0, 0)) :
    p = [(0, 0), (0, 1), (1, 1), (1, 0)] ∨ p = [(0, 0), (1, 0), (1, 1), (0, 1)] := by
  have hlen : p.length = 4 := by
    have := hp.length_eq
    simp only [] at this
    omega
  match p, hlen, hp, hhead with
  | [a, b, c, d], _, hp, hhead =>
    simp only [List.head?_cons, Option.some.injEq] at hhead
    subst hhead
    obtain ⟨b1, b2⟩ := b
    obtain ⟨c1, c2⟩ := c
    obtain ⟨d1, d2⟩ := d
    have hb := (Grid.is_valid_iff _ _).1 ((hp.cells (b1, b2)).1 (by simp))
    have hc := (Grid.is_valid_iff _ _).1 ((hp.cells (c1, c2)).1 (by simp))
    have hd := (Grid.is_valid_iff _ _).1 ((hp.cells (d1, d2)).1 (by simp))
    have hch := hp.chain
    have hnd := hp.nodup
    simp only [List.chain'_cons, List.chain'_singleton, and_true, adjacent] at hch
    simp only [List.nodup_cons, List.mem_cons, List.mem_singleton, List.not_mem_nil,
      Prod.mk.injEq, not_or, not_false_eq_true, List.nodup_nil, and_true, or_false] at hnd
    simp only [sub_zero] at hb hc hd
    simp only [List.cons.injEq, Prod.mk.injEq, and_true, true_and]
    obtain ⟨hab, hbc, hcd⟩ := hch
    obtain ⟨⟨hn1, hn2, hn3⟩, ⟨hn4, hn5⟩, hn6⟩ := hnd
    have hB : (b1 = 0 ∧ b2 = 1) ∨ (b1 = 1 ∧ b2 = 0) := by
      clear hbc hcd hn2 hn3 hn4 hn5 hn6 hc hd hp
      omega
    have hC : c1 = 1 ∧ c2 = 1 := by
      clear hcd hn1 hn3 hn5 hn6 hd hp hab
      omega
    have hD : (d1 = 0 ∧ d2 = 1) ∨ (d1 = 1 ∧ d2 = 0) := by
      clear hab hbc hn1 hn2 hn4 hn5 hp hb hB
      omega
    clear hab hbc hcd hn1 hn2 hn3 hn4 hn6 hp hb hc hd
    omega

/-- C11: on the 2x2 region with bias (0,0), start (0,0) and no constraint,
for every state of the generator (every outcome of the shuffles) `sample_path`
returns one of the two sequences `[(0,0),(0,1),(1,1),(1,0)]` and
`[(0,0),(1,0),(1,1),(0,1)]`, a non-empty path of length 4. -/
theorem sample_path_two_by_two (rng : Rng) :
    ∃ path rng1, (Grid.mk 2 2 (0, 0)).sample_path (0, 0) [] rng = .ok (path, rng1) ∧
      path ≠ [] ∧ path.length = 4 ∧
      (path = [(0, 0), (0, 1), (1, 1), (1, 0)] ∨ path = [(0, 0), (1, 0), (1, 1), (0, 1)]) := by
  obtain ⟨path, rng1, hrun, hcase⟩ := (Grid.mk 2 2 (0, 0)).sample_path_spec [] (0, 0) rng
    (by decide) (by decide) (by decide)
  refine ⟨path, rng1, hrun, ?_⟩
  rcases hcase with ⟨_, hno⟩ | ⟨rest, hp, hc⟩
  · exfalso
    apply hno
    refine ⟨[(0, 1), (1, 1), (1, 0)],
      ((Grid.mk 2 2 (0, 0)).completion_fresh_iff [] (0, 0) _ (by decide) (by decide)).2
        ⟨⟨by decide, by decide, ?_, by simp [adjacent]⟩, Or.inl rfl⟩⟩
    exact Grid.covers_of_nodup (Grid.mk 2 2 (0, 0)) (by decide) (by decide) (by decide)
      (by decide) (by decide)
  · obtain ⟨hham, _⟩ :=
      ((Grid.mk 2 2 (0, 0)).completion_fresh_iff [] (0, 0) rest (by decide) (by decide)).1 hc
    rw [← hp] at hham
    have h2 := two_by_two_paths hham (by rw [hp]; rfl)
    refine ⟨by rw [hp]; simp, ?_, h2⟩
    rcases h2 with h | h <;> rw [h] <;> rfl

/-! ## backbite: the move determined by the choices (C14, C15, C20) -/

/-- The result of `backbite` in terms of the choices it made. -/
theorem backbite_of_pick {path : Points} {height width : Int} {rng : Rng} {i : Nat} {b : Point}
    (hpick : bitePick path height width rng = some (i, b)) :
    (i = 0 ∨ i = path.length - 1) ∧
      (∃ en, path.get? i = some en ∧ b ∈ biteNeighbors en.1 en.2 height width) ∧
      ∃ rng1, backbite path height width rng
        = .ok (if findPos b path = path.length then path
            else biteReverse path i (findPos b path), rng1) := by
  unfold bitePick at hpick
  unfold backbite
  simp only [] at hpick ⊢
  generalize hE : (if (uniform_int 1 rng).1 = 0 then 0 else path.length - 1) = end_index
    at hpick ⊢
  have hend : end_index = 0 ∨ end_index = path.length - 1 := by
    rw [← hE]; split_ifs
    · exact Or.inl rfl
    · exact Or.inr rfl
  cases hget : path.get? end_index with
  | none => rw [hget] at hpick; cases hpick
  | some en =>
    rw [hget] at hpick
    simp only [] at hpick ⊢
    by_cases hemp : (biteNeighbors en.1 en.2 height width).isEmpty = true
    · rw [if_pos hemp] at hpick; cases hpick
    · rw [if_neg hemp] at hpick
      rw [if_neg hemp]
      cases hnb : (biteNeighbors en.1 en.2 height width).get?
          (uniform_int ((biteNeighbors en.1 en.2 height width).length - 1)
            (uniform_int 1 rng).2).1 with
      | none => rw [hnb] at hpick; cases hpick
      | some bite =>
        rw [hnb] at hpick
        simp only [Option.some.injEq, Prod.mk.injEq] at hpick
        obtain ⟨hi, hb⟩ := hpick
        subst hi; subst hb
        refine ⟨?_, ⟨en, hget, List.get?_mem hnb⟩, ?_⟩
        · exact hend
        · simp only []
          split_ifs <;> exact ⟨_, rfl⟩

/-- A point that occurs at position `k` of a duplicate-free path is found there. -/
theorem findPos_of_get_nodup (b : Point) :
    ∀ (l : Points) (k : Nat), l.Nodup → l.get? k = some b → findPos b l = k
  | [], k, _, h => by simp at h
  | x :: xs, 0, _, h => by
    simp only [List.get?_cons_zero, Option.some.injEq] at h
    simp [findPos, h]
  | x :: xs, k + 1, hnd, h => by
    simp only [List.get?_cons_succ] at h
    have hx : x ≠ b := by
      intro hxb
      subst hxb
      exact (List.nodup_cons.1 hnd).1 (List.get?_mem h)
    unfold findPos
    rw [if_neg hx, findPos_of_get_nodup b xs k (List.nodup_cons.1 hnd).2 h]

theorem findPos_lt_of_mem (b : Point) : ∀ (l : Points), b ∈ l → findPos b l < l.length
  | [], h => by cases h
  | x :: xs, h => by
    unfold findPos
    split_ifs with hx
    · simp
    · rcases List.mem_cons.1 h with h1 | h1
      · exact absurd h1.symm hx
      · simpa using findPos_lt_of_mem b xs h1

/-- On a complete path the bitten neighbour lies on the path, strictly after
the front endpoint when the front was chosen and strictly before the back
endpoint when the back was chosen. -/
theorem bite_position {path : Points} {height width : Int} {rng : Rng} {i : Nat} {b : Point}
    (hp : IsHamPath (Grid.mk height width (0, 0)) path)
    (hpick : bitePick path height width rng = some (i, b)) :
    findPos b path < path.length ∧ path.get? (findPos b path) = some b ∧
      (i = 0 → 1 ≤ findPos b path) ∧ (i ≠ 0 → findPos b path + 1 < path.length) := by
  obtain ⟨hi, ⟨en, hen, hb⟩, _⟩ := backbite_of_pick hpick
  obtain ⟨hadj, hb1, hb2, hb3, hb4⟩ := mem_biteNeighbors hb
  have hmem : b ∈ path := by
    rw [hp.cells b, Grid.is_valid_iff]
    simp only [sub_zero]
    exact ⟨hb1, hb2, hb3, hb4⟩
  have hk := findPos_lt_of_mem b path hmem
  have hget := findPos_get b path hk
  have hne : en ≠ b := adjacent_ne hadj
  refine ⟨hk, hget, ?_, ?_⟩
  · intro h0
    subst h0
    by_contra hcon
    have : findPos b path = 0 := by omega
    rw [this, hen] at hget
    exact hne (Option.some.inj hget)
  · intro h0
    have hi1 : i = path.length - 1 := by
      rcases hi with h | h
      · exact absurd h h0
      · exact h
    by_contra hcon
    have : findPos b path = i := by omega
    rw [this, hen] at hget
    exact hne (Option.some.inj hget)

/-- C14: on a complete path `p_0 .. p_{n-1}` with chosen in-bounds neighbour `b`
located at index `k`: when the front endpoint was chosen, `backbite` returns
`p_{k-1}, .., p_0, p_k, .., p_{n-1}` and the new first element is `p_{k-1}`; when
the back endpoint was chosen it returns `p_0, .., p_k, p_{n-1}, .., p_{k+1}` and
the new last element is `p_{k+1}`. -/
theorem backbite_front_back (path : Points) (height width : Int) (rng : Rng) (i : Nat)
    (b : Point) (hp : IsHamPath (Grid.mk height width (0, 0)) path)
    (hpick : bitePick path height width rng = some (i, b)) :
    ∃ k rng1, path.get? k = some b ∧
      (i = 0 → 1 ≤ k ∧ ∃ pred, path.get? (k - 1) = some pred ∧
        backbite path height width rng = .ok ((path.take k).reverse ++ path.drop k, rng1) ∧
        ((path.take k).reverse ++ path.drop k).head? = some pred) ∧
      (i ≠ 0 → k + 1 < path.length ∧ ∃ next, path.get? (k + 1) = some next ∧
        backbite path height width rng
          = .ok (path.take (k + 1) ++ (path.drop (k + 1)).reverse, rng1) ∧
        (path.take (k + 1) ++ (path.drop (k + 1)).reverse).getLast? = some next) := by
  obtain ⟨hk, hget, hfront, hback⟩ := bite_position hp hpick
  obtain ⟨_, _, rng1, hrun⟩ := backbite_of_pick hpick
  rw [if_neg (by omega)] at hrun
  refine ⟨findPos b path, rng1, hget, ?_, ?_⟩
  · intro h0
    have hk1 := hfront h0
    have hlt : findPos b path - 1 < path.length := by omega
    refine ⟨hk1, path.get ⟨_, hlt⟩, List.get?_eq_get hlt, ?_, ?_⟩
    · rw [hrun, biteReverse, if_pos h0, if_pos (by omega)]
    · have hne : (path.take (findPos b path)).reverse ≠ [] := by
        intro h
        have := congrArg List.length h
        simp only [List.length_reverse, List.length_take, List.length_nil] at this
        omega
      rw [List.head?_append_of_ne_nil _ hne, List.head?_reverse, List.getLast?_take,
        if_neg (by omega), List.getElem?_eq_getElem hlt]
      rfl
  · intro h0
    have hk1 := hback h0
    refine ⟨hk1, path.get ⟨_, hk1⟩, List.get?_eq_get hk1, ?_, ?_⟩
    · rw [hrun, biteReverse, if_neg h0, if_pos (by omega)]
    · rw [List.getLast?_append, List.getLast?_reverse, List.head?_drop,
        List.getElem?_eq_getElem hk1]
      rfl

/-- C14 on the 2x3 grid: the back endpoint (1,0) bites (0,0), found at index 0;
the segment after index 0 is reversed and the new last element is the former
successor (0,1) of the bite. -/
theorem backbite_front_back_witness :
    IsHamPath (Grid.mk 2 3 (0, 0)) [(0, 0), (0, 1), (0, 2), (1, 2), (1, 1), (1, 0)] ∧
      bitePick [(0, 0), (0, 1), (0, 2), (1, 2), (1, 1), (1, 0)] 2 3 [1, 1] = some (5, (0, 0)) ∧
      backbite [(0, 0), (0, 1), (0, 2), (1, 2), (1, 1), (1, 0)] 2 3 [1, 1]
        = .ok ([(0, 0), (1, 0), (1, 1), (1, 2), (0, 2), (0, 1)], []) ∧
      ∃ k rng1, ([(0, 0), (0, 1), (0, 2), (1, 2), (1, 1), (1, 0)] : Points).get? k = some (0, 0) ∧
        ((5 : Nat) = 0 → 1 ≤ k ∧ ∃ pred,
          ([(0, 0), (0, 1), (0, 2), (1, 2), (1, 1), (1, 0)] : Points).get? (k - 1) = some pred ∧
          backbite [(0, 0), (0, 1), (0, 2), (1, 2), (1, 1), (1, 0)] 2 3 [1, 1]
            = .ok ((([(0, 0), (0, 1), (0, 2), (1, 2), (1, 1), (1, 0)] : Points).take k).reverse
                ++ ([(0, 0), (0, 1), (0, 2), (1, 2), (1, 1), (1, 0)] : Points).drop k, rng1) ∧
          ((([(0, 0), (0, 1), (0, 2), (1, 2), (1, 1), (1, 0)] : Points).take k).reverse
              ++ ([(0, 0), (0, 1), (0, 2), (1, 2), (1, 1), (1, 0)] : Points).drop k).head?
            = some pred) ∧
        ((5 : Nat) ≠ 0 →
          k + 1 < ([(0, 0), (0, 1), (0, 2), (1, 2), (1, 1), (1, 0)] : Points).length ∧
          ∃ next,
            ([(0, 0), (0, 1), (0, 2), (1, 2), (1, 1), (1, 0)] : Points).get? (k + 1) = some next ∧
            backbite [(0, 0), (0, 1), (0, 2), (1, 2), (1, 1), (1, 0)] 2 3 [1, 1]
              = .ok (([(0, 0), (0, 1), (0, 2), (1, 2), (1, 1), (1, 0)] : Points).take (k + 1)
                  ++ (([(0, 0), (0, 1), (0, 2), (1, 2), (1, 1), (1, 0)] : Points).drop
                    (k + 1)).reverse, rng1) ∧
            (([(0, 0), (0, 1), (0, 2), (1, 2), (1, 1), (1, 0)] : Points).take (k + 1)
                ++ (([(0, 0), (0, 1), (0, 2), (1, 2), (1, 1), (1, 0)] : Points).drop
                  (k + 1)).reverse).getLast? = some next) :=
  have hp : IsHamPath (Grid.mk 2 3 (0, 0)) [(0, 0), (0, 1), (0, 2), (1, 2), (1, 1), (1, 0)] :=
    ⟨by decide, by decide,
      Grid.covers_of_nodup (Grid.mk 2 3 (0, 0)) (by decide) (by decide) (by decide)
        (by decide) (by decide),
      by simp [adjacent]⟩
  ⟨hp, by rfl, by rfl,
    backbite_front_back [(0, 0), (0, 1), (0, 2), (1, 2), (1, 1), (1, 0)] 2 3 [1, 1] 5 (0, 0)
      hp (by rfl)⟩

/-- A cell of the `height x width` grid has no in-bounds 4-neighbour exactly on
the 1-cell grid. -/
theorem biteNeighbors_eq_nil_iff {height width : Int} {en : Point}
    (hin : 0 ≤ en.1 ∧ en.1 < height ∧ 0 ≤ en.2 ∧ en.2 < width) :
    biteNeighbors en.1 en.2 height width = [] ↔ height = 1 ∧ width = 1 := by
  obtain ⟨e1, e2⟩ := en
  simp only [] at hin
  unfold biteNeighbors
  rw [List.filterMap_eq_nil_iff]
  simp only [directions, List.mem_cons, List.mem_singleton, List.not_mem_nil, or_false,
    forall_eq_or_imp, forall_eq, ite_eq_right_iff, imp_false, reduceCtorEq]
  constructor
  · intro h
    constructor <;> omega
  · rintro ⟨rfl, rfl⟩
    omega

/-- C15: on a `height x width` grid and for a non-empty path whose endpoints
lie inside the grid (so that `height, width ≥ 1`), the endpoint chosen by
`backbite` has no in-bounds 4-neighbour if and only if the grid is the 1-cell
grid; in that case `backbite` returns with the path unchanged, and in every
other case the neighbour list it draws from is not empty. -/
theorem backbite_no_neighbour_iff (path : Points) (height width : Int) (rng : Rng)
    (hne : path ≠ [])
    (hends : ∀ q, (path.head? = some q ∨ path.getLast? = some q) →
      0 ≤ q.1 ∧ q.1 < height ∧ 0 ≤ q.2 ∧ q.2 < width) :
    ∃ en, path.get? (if (uniform_int 1 rng).1 = 0 then 0 else path.length - 1) = some en ∧
      (biteNeighbors en.1 en.2 height width = [] ↔ height = 1 ∧ width = 1) ∧
      (height = 1 ∧ width = 1 → ∃ rng1, backbite path height width rng = .ok (path, rng1)) ∧
      (¬ (height = 1 ∧ width = 1) → biteNeighbors en.1 en.2 height width ≠ []) := by
  have hlen : 0 < path.length := List.length_pos.2 hne
  have hlt : (if (uniform_int 1 rng).1 = 0 then 0 else path.length - 1) < path.length := by
    split_ifs <;> omega
  have hen : path.get? (if (uniform_int 1 rng).1 = 0 then 0 else path.length - 1)
      = some (path.get ⟨_, hlt⟩) := List.get?_eq_get hlt
  have hin : 0 ≤ (path.get ⟨_, hlt⟩).1 ∧ (path.get ⟨_, hlt⟩).1 < height ∧
      0 ≤ (path.get ⟨_, hlt⟩).2 ∧ (path.get ⟨_, hlt⟩).2 < width := by
    apply hends
    by_cases h0 : (uniform_int 1 rng).1 = 0
    · left
      rw [List.head?_eq_getElem?, ← List.get?_eq_getElem?, ← hen, if_pos h0]
    · right
      rw [List.getLast?_eq_getElem?, ← List.get?_eq_getElem?, ← hen, if_neg h0]
  have hiff := biteNeighbors_eq_nil_iff hin
  refine ⟨_, hen, hiff, ?_, fun h hnil => h (hiff.1 hnil)⟩
  intro h11
  have hnil := hiff.2 h11
  refine ⟨(uniform_int 1 rng).2, ?_⟩
  unfold backbite
  simp only [hen, hnil, List.isEmpty_nil, if_true]

/-- C15 on the 1-cell grid and on the 2x2 grid: on the former the neighbour list
is empty and the path comes back unchanged, on the latter it is not empty. -/
theorem backbite_no_neighbour_iff_witness :
    (biteNeighbors 0 0 1 1 = [] ∧ backbite [(0, 0)] 1 1 [1, 7] = .ok ([(0, 0)], [7])) ∧
      biteNeighbors 1 0 2 2 = [(1, 1), (0, 0)] ∧
      ([(0, 0), (0, 1), (1, 1), (1, 0)] : Points) ≠ [] ∧
      (∀ q : Point, (([(0, 0), (0, 1), (1, 1), (1, 0)] : Points).head? = some q ∨
          ([(0, 0), (0, 1), (1, 1), (1, 0)] : Points).getLast? = some q) →
        0 ≤ q.1 ∧ q.1 < 2 ∧ 0 ≤ q.2 ∧ q.2 < 2) ∧
      ∃ en, ([(0, 0), (0, 1), (1, 1), (1, 0)] : Points).get?
          (if (uniform_int 1 [1, 7]).1 = 0 then 0
            else ([(0, 0), (0, 1), (1, 1), (1, 0)] : Points).length - 1) = some en ∧
        (biteNeighbors en.1 en.2 2 2 = [] ↔ (2 : Int) = 1 ∧ (2 : Int) = 1) ∧
        ((2 : Int) = 1 ∧ (2 : Int) = 1 →
          ∃ rng1, backbite [(0, 0), (0, 1), (1, 1), (1, 0)] 2 2 [1, 7]
            = .ok ([(0, 0), (0, 1), (1, 1), (1, 0)], rng1)) ∧
        (¬ ((2 : Int) = 1 ∧ (2 : Int) = 1) → biteNeighbors en.1 en.2 2 2 ≠ []) :=
  have hends : ∀ q : Point, (([(0, 0), (0, 1), (1, 1), (1, 0)] : Points).head? = some q ∨
      ([(0, 0), (0, 1), (1, 1), (1, 0)] : Points).getLast? = some q) →
      0 ≤ q.1 ∧ q.1 < 2 ∧ 0 ≤ q.2 ∧ q.2 < 2 := by
    intro q hq
    rcases hq with h | h <;> (simp at h; subst h; decide)
  ⟨⟨by rfl, by rfl⟩, by rfl, by decide, hends,
    backbite_no_neighbour_iff [(0, 0), (0, 1), (1, 1), (1, 0)] 2 2 [1, 7] (by decide) hends⟩

theorem biteReverse_length (path : Points) (i k : Nat) :
    (biteReverse path i k).length = path.length := by
  unfold biteReverse
  split_ifs <;> simp <;> omega

theorem biteReverse_front {path : Points} {k : Nat} (hk : 1 ≤ k) :
    biteReverse path 0 k = (path.take k).reverse ++ path.drop k := by
  unfold biteReverse
  rw [if_pos rfl, if_pos (by omega)]

theorem biteReverse_back {path : Points} {i k : Nat} (hi : i ≠ 0) (hk : k + 1 < path.length) :
    biteReverse path i k = path.take (k + 1) ++ (path.drop (k + 1)).reverse := by
  unfold biteReverse
  rw [if_neg hi, if_pos (by omega)]

/-- Reversing the same segment twice gives the path back. -/
theorem biteReverse_twice {path : Points} {i k : Nat} (hk : k < path.length)
    (hfront : i = 0 → 1 ≤ k) (hback : i ≠ 0 → k + 1 < path.length) :
    biteReverse (biteReverse path i k) i k = path := by
  by_cases h0 : i = 0
  · subst h0
    have hk1 := hfront rfl
    rw [biteReverse_front hk1, biteReverse_front hk1]
    have hlen : ((path.take k).reverse).length = k := by
      rw [List.length_reverse, List.length_take]; omega
    rw [List.take_left' hlen, List.drop_left' hlen, List.reverse_reverse, List.take_append_drop]
  · have hk1 := hback h0
    have hlen2 : (path.take (k + 1) ++ (path.drop (k + 1)).reverse).length = path.length := by
      simp; omega
    rw [biteReverse_back h0 hk1, biteReverse_back h0 (by rw [hlen2]; exact hk1)]
    have hlen : (path.take (k + 1)).length = k + 1 := by
      rw [List.length_take]; omega
    rw [List.take_left' hlen, List.drop_left' hlen, List.reverse_reverse, List.take_append_drop]

/-- The bitten point keeps its position. -/
theorem biteReverse_get_bite {path : Points} {i k : Nat} (hk : k < path.length)
    (hfront : i = 0 → 1 ≤ k) (hback : i ≠ 0 → k + 1 < path.length) :
    (biteReverse path i k).get? k = path.get? k := by
  by_cases h0 : i = 0
  · subst h0
    rw [biteReverse_front (hfront rfl)]
    have hlen : ((path.take k).reverse).length = k := by
      rw [List.length_reverse, List.length_take]; omega
    rw [List.get?_eq_getElem?, List.getElem?_append_right (by omega), hlen, Nat.sub_self,
      List.getElem?_drop, Nat.add_zero, List.get?_eq_getElem?]
  · rw [biteReverse_back h0 (hback h0)]
    have hlen : (path.take (k + 1)).length = k + 1 := by
      rw [List.length_take]; have := hback h0; omega
    rw [List.get?_eq_getElem?, List.getElem?_append_left (by omega), List.getElem?_take,
      if_pos (by omega), List.get?_eq_getElem?]

/-- The endpoint that did the biting is replaced by the path-neighbour of the
bite on its side. -/
theorem biteReverse_get_end {path : Points} {i k : Nat} (hk : k < path.length)
    (hi : i = 0 ∨ i = path.length - 1)
    (hfront : i = 0 → 1 ≤ k) (hback : i ≠ 0 → k + 1 < path.length) :
    (biteReverse path i k).get? i = path.get? (if i = 0 then k - 1 else k + 1) := by
  by_cases h0 : i = 0
  · subst h0
    have hk1 := hfront rfl
    rw [biteReverse_front hk1, if_pos rfl]
    have hlen : ((path.take k).reverse).length = k := by
      rw [List.length_reverse, List.length_take]; omega
    have hlen1 : (path.take k).length = k := by
      rw [List.length_take]; omega
    rw [List.get?_eq_getElem?, List.getElem?_append_left (by omega), List.getElem?_reverse
      (by omega), hlen1, List.getElem?_take, if_pos (by omega),
      List.get?_eq_getElem?, Nat.sub_zero]
  · have hk1 := hback h0
    have hi1 : i = path.length - 1 := by
      rcases hi with h | h
      · exact absurd h h0
      · exact h
    rw [biteReverse_back h0 hk1, if_neg h0]
    have hlen : (path.take (k + 1)).length = k + 1 := by
      rw [List.length_take]; omega
    rw [List.get?_eq_getElem?, List.getElem?_append_right (by omega), hlen,
      List.getElem?_reverse (by rw [List.length_drop]; omega), List.length_drop,
      List.getElem?_drop, List.get?_eq_getElem?]
    congr 1
    omega

theorem mem_biteNeighbors_of {en b : Point} {height width : Int} (hadj : adjacent en b)
    (hin : 0 ≤ b.1 ∧ b.1 < height ∧ 0 ≤ b.2 ∧ b.2 < width) :
    b ∈ biteNeighbors en.1 en.2 height width := by
  obtain ⟨d, hd, hb⟩ := (adjacent_iff_dir en b).1 hadj
  unfold biteNeighbors
  rw [List.mem_filterMap]
  refine ⟨d, hd, ?_⟩
  subst hb
  simp only [] at hin ⊢
  rw [if_pos ⟨hin.1, hin.2.1, hin.2.2.1, hin.2.2.2⟩]

/-- Every endpoint and every in-bounds neighbour of it is the choice made for
some state of the generator. -/
theorem bitePick_of_choice {path : Points} {height width : Int} {i : Nat} {en b : Point}
    (hi : i = 0 ∨ i = path.length - 1) (hen : path.get? i = some en)
    (hb : b ∈ biteNeighbors en.1 en.2 height width) :
    ∃ rng2, bitePick path height width rng2 = some (i, b) := by
  obtain ⟨⟨j, hj⟩, hget⟩ := List.mem_iff_get.1 hb
  refine ⟨[if i = 0 then 0 else 1, j], ?_⟩
  have hend : (if (uniform_int 1 [if i = 0 then 0 else 1, j]).1 = 0 then 0
      else path.length - 1) = i := by
    by_cases h0 : i = 0
    · simp [uniform_int, Rng.next, h0]
    · rcases hi with h | h
      · exact absurd h h0
      · simp only [uniform_int, Rng.next, if_neg h0]
        rw [if_neg (by decide)]
        exact h.symm
  have hrest : (uniform_int 1 [if i = 0 then 0 else 1, j]).2 = [j] := rfl
  have hne : (biteNeighbors en.1 en.2 height width).isEmpty = false := by
    cases hnb : biteNeighbors en.1 en.2 height width with
    | nil => rw [hnb] at hj; simp at hj
    | cons x xs => rfl
  have hidx : (uniform_int ((biteNeighbors en.1 en.2 height width).length - 1) [j]).1 = j := by
    simp only [uniform_int, Rng.next]
    rw [Nat.sub_add_cancel (by omega)]
    exact Nat.mod_eq_of_lt hj
  unfold bitePick
  simp only [hend, hen, hrest, hne, Bool.false_eq_true, if_false, hidx]
  rw [List.get?_eq_get hj, hget]

/-- Consecutive points of a chain are adjacent. -/
theorem chain_get_adjacent {l : Points} (hch : l.Chain' adjacent) {k : Nat} {p q : Point}
    (hp : l.get? k = some p) (hq : l.get? (k + 1) = some q) : adjacent p q := by
  have hk1 : k + 1 < l.length := (List.get?_eq_some.1 hq).1
  have h := (List.chain'_iff_get.1 hch) k (by omega)
  have e1 : l.get ⟨k, by omega⟩ = p := by
    have := List.get?_eq_get (l := l) (n := k) (by omega)
    rw [hp] at this
    exact (Option.some.inj this).symm
  have e2 : l.get ⟨k + 1, hk1⟩ = q := by
    have := List.get?_eq_get (l := l) (n := k + 1) hk1
    rw [hq] at this
    exact (Option.some.inj this).symm
  rw [e1, e2] at h
  exact h

/-- C20: the backbite move is reversible.  On a complete path, after a
`backbite` that chose an endpoint side and an in-bounds neighbour `b`, the
point `b` is again an in-bounds neighbour of the new endpoint on that side (some
state of the generator chooses the same side and `b`), and every second
`backbite` that chooses the same side and the same `b` returns exactly the
original path. -/
theorem backbite_reversible (path : Points) (height width : Int) (rng : Rng) (i : Nat)
    (b : Point) (hp : IsHamPath (Grid.mk height width (0, 0)) path)
    (hpick : bitePick path height width rng = some (i, b)) :
    ∃ p1 rng1, backbite path height width rng = .ok (p1, rng1) ∧
      (∃ rng2, bitePick p1 height width rng2 = some (i, b)) ∧
      (∀ rng2, bitePick p1 height width rng2 = some (i, b) →
        ∃ rng3, backbite p1 height width rng2 = .ok (path, rng3)) := by
  obtain ⟨hk, hget, hfront, hback⟩ := bite_position hp hpick
  obtain ⟨hi, ⟨en, hen, hb⟩, rng1, hrun⟩ := backbite_of_pick hpick
  rw [if_neg (by omega)] at hrun
  obtain ⟨hadj, hbin⟩ := mem_biteNeighbors hb
  have hlen := biteReverse_length path i (findPos b path)
  have hgetb : (biteReverse path i (findPos b path)).get? (findPos b path) = some b := by
    rw [biteReverse_get_bite hk hfront hback, hget]
  have hnd1 : (biteReverse path i (findPos b path)).Nodup := by
    obtain ⟨p1, r1, hrun1, hperm⟩ := backbite_perm path height width rng (by
      intro h; rw [h] at hk; simp at hk)
    rw [hrun] at hrun1
    cases hrun1
    exact hperm.nodup_iff.2 hp.nodup
  have hfind : findPos b (biteReverse path i (findPos b path)) = findPos b path :=
    findPos_of_get_nodup b _ _ hnd1 hgetb
  refine ⟨_, rng1, hrun, ?_, ?_⟩
  · -- the same choice is available on the new path
    have hend := biteReverse_get_end hk hi hfront hback
    have hlt : (if i = 0 then findPos b path - 1 else findPos b path + 1) < path.length := by
      split_ifs with h0
      · omega
      · exact hback h0
    obtain ⟨q, hq⟩ : ∃ q, path.get?
        (if i = 0 then findPos b path - 1 else findPos b path + 1) = some q :=
      ⟨_, List.get?_eq_get hlt⟩
    rw [hq] at hend
    refine bitePick_of_choice (by rw [hlen]; exact hi) hend (mem_biteNeighbors_of ?_ hbin)
    by_cases h0 : i = 0
    · have hk1 := hfront h0
      rw [if_pos h0] at hq
      have hget1 : path.get? (findPos b path - 1 + 1) = some b := by
        rw [Nat.sub_add_cancel hk1]; exact hget
      exact chain_get_adjacent hp.chain hq hget1
    · rw [if_neg h0] at hq
      exact adjacent_symm (chain_get_adjacent hp.chain hget hq)
  · intro rng2 hpick2
    obtain ⟨_, _, rng3, hrun2⟩ := backbite_of_pick hpick2
    rw [hfind, hlen, if_neg (by omega), biteReverse_twice hk hfront hback] at hrun2
    exact ⟨rng3, hrun2⟩

/-- C20 on the 2x3 grid: the back endpoint (1,0) bites (0,0); on the result the
new back endpoint (0,1) bites (0,0) again and the original path comes back. -/
theorem backbite_reversible_witness :
    IsHamPath (Grid.mk 2 3 (0, 0)) [(0, 0), (0, 1), (0, 2), (1, 2), (1, 1), (1, 0)] ∧
      bitePick [(0, 0), (0, 1), (0, 2), (1, 2), (1, 1), (1, 0)] 2 3 [1, 1] = some (5, (0, 0)) ∧
      backbite [(0, 0), (0, 1), (0, 2), (1, 2), (1, 1), (1, 0)] 2 3 [1, 1]
        = .ok ([(0, 0), (1, 0), (1, 1), (1, 2), (0, 2), (0, 1)], []) ∧
      bitePick [(0, 0), (1, 0), (1, 1), (1, 2), (0, 2), (0, 1)] 2 3 [1, 2] = some (5, (0, 0)) ∧
      backbite [(0, 0), (1, 0), (1, 1), (1, 2), (0, 2), (0, 1)] 2 3 [1, 2]
        = .ok ([(0, 0), (0, 1), (0, 2), (1, 2), (1, 1), (1, 0)], []) ∧
      ∃ p1 rng1, backbite [(0, 0), (0, 1), (0, 2), (1, 2), (1, 1), (1, 0)] 2 3 [1, 1]
          = .ok (p1, rng1) ∧
        (∃ rng2, bitePick p1 2 3 rng2 = some (5, (0, 0))) ∧
        (∀ rng2, bitePick p1 2 3 rng2 = some (5, (0, 0)) →
          ∃ rng3, backbite p1 2 3 rng2
            = .ok ([(0, 0), (0, 1), (0, 2), (1, 2), (1, 1), (1, 0)], rng3)) :=
  have hp : IsHamPath (Grid.mk 2 3 (0, 0)) [(0, 0), (0, 1), (0, 2), (1, 2), (1, 1), (1, 0)] :=
    ⟨by decide, by decide,
      Grid.covers_of_nodup (Grid.mk 2 3 (0, 0)) (by decide) (by decide) (by decide)
        (by decide) (by decide),
      by simp [adjacent]⟩
  ⟨hp, by rfl, by rfl, by rfl, by rfl,
    backbite_reversible [(0, 0), (0, 1), (0, 2), (1, 2), (1, 1), (1, 0)] 2 3 [1, 1] 5 (0, 0)
      hp (by rfl)⟩

/-! ## Counting marked cells -/

theorem row_count_set (row : List Bool) :
    ∀ (j : Nat), row.get? j = some false →
      (row.set j true).count false + 1 = row.count false ∧
        (row.set j true).count true = row.count true + 1 := by
  induction row with
  | nil => intro j h; simp at h
  | cons x xs ih =>
    intro j h
    cases j with
    | zero =>
      simp only [List.get?_cons_zero, Option.some.injEq] at h
      subst h
      simp
    | succ j =>
      simp only [List.get?_cons_succ] at h
      obtain ⟨h1, h2⟩ := ih j h
      cases x <;> simp [List.count_cons] <;> omega

theorem sum_map_set (f : List Bool → Nat) :
    ∀ (v : Mask) (i : Nat) (row r1 : List Bool), v.get? i = some row →
      ((v.set i r1).map f).sum + f row = (v.map f).sum + f r1 := by
  intro v
  induction v with
  | nil => intro i row r1 h; simp at h
  | cons x xs ih =>
    intro i row r1 h
    cases i with
    | zero =>
      simp only [List.get?_cons_zero, Option.some.injEq] at h
      subst h
      simp only [List.set_cons_zero, List.map_cons, List.sum_cons]
      omega
    | succ i =>
      simp only [List.get?_cons_succ] at h
      have := ih i row r1 h
      simp only [List.set_cons_succ, List.map_cons, List.sum_cons]
      omega

/-- Marking an unmarked cell: one more marked cell, one less free cell. -/
theorem Mask.count_write {v v1 : Mask} {y x : Int} (hr : v.read y x = some false)
    (hw : v.write y x true = some v1) :
    v1.marked = v.marked + 1 ∧ v1.free + 1 = v.free := by
  obtain ⟨_, _, row, hrow, hb⟩ := (Mask.read_eq_some_iff v y x false).1 hr
  obtain ⟨_, _, row1, hrow1, _, rfl⟩ := (Mask.write_eq_some_iff v y x true v1).1 hw
  rw [hrow] at hrow1
  cases hrow1
  obtain ⟨h1, h2⟩ := row_count_set row x.toNat hb
  have hm := sum_map_set (fun r => r.count true) v y.toNat row (row.set x.toNat true) hrow
  have hf := sum_map_set (fun r => r.count false) v y.toNat row (row.set x.toNat true) hrow
  simp only [] at hm hf
  unfold Mask.marked Mask.free
  constructor <;> omega

theorem Mask.free_le {v : Mask} {h w : Nat} (hv : v.Shaped h w) : v.free ≤ h * w := by
  obtain ⟨hlen, hrows⟩ := hv
  subst hlen
  unfold Mask.free
  induction v with
  | nil => simp
  | cons x xs ih =>
    have hx : x.count false ≤ w := by
      rw [← hrows x (List.mem_cons_self _ _)]
      exact List.count_le_length _ _
    have := ih (fun r hr => hrows r (List.mem_cons_of_mem _ hr))
    simp only [List.map_cons, List.sum_cons, List.length_cons, Nat.succ_mul]
    omega

/-! ## Termination, frame and safety of the search (C17, C18, C19) -/

/-- The search from any state whose mask has the shape of the region and in
which `start` is unmarked, with a budget of at least the number of unmarked
cells: it returns; on `false` mask and path are those of the call, on `true`
the path is the path of the call followed by `start` and further cells. -/
theorem Grid.backtrack_frame (g : Grid) (te : Points) :
    ∀ (fuel : Nat) (start : Point) (s : Search),
      s.visited.Shaped g.height.toNat g.width.toNat →
      s.visited.read (start.1 - g.bias.1) (start.2 - g.bias.2) = some false →
      s.visited.free ≤ fuel →
      ∃ b s1, g.backtrack te fuel start s = .ok (b, s1) ∧
        (b = false → s1.visited = s.visited ∧ s1.path = s.path) ∧
        (b = true → ∃ rest, s1.path = s.path ++ start :: rest) := by
  intro fuel
  induction fuel with
  | zero =>
    intro start s _ hfree hfuel
    exfalso
    obtain ⟨v1, hw⟩ := Mask.write_of_read hfree true
    have := (Mask.count_write hfree hw).2
    omega
  | succ fuel ih =>
    intro start s hv hfree hfuel
    obtain ⟨visited, hw⟩ := Mask.write_of_read hfree true
    have hv1 := Mask.write_shaped hw hv
    have hmark := Mask.read_write_same hw
    have hcount := (Mask.count_write hfree hw).2
    obtain ⟨v2, hw2⟩ := Mask.write_of_read hmark false
    have hv2 : v2 = s.visited := Mask.write_restore hv hfree hw hw2
    subst hv2
    have hunwind : ∀ r : Rng, unwind ⟨visited, s.path ++ [start], r⟩
        (start.1 - g.bias.1) (start.2 - g.bias.2) = .ok (false, ⟨s.visited, s.path, r⟩) := by
      intro r
      simp [unwind, hw2, popBack_snoc]
    unfold Grid.backtrack
    simp only [hw]
    by_cases hfull : ((s.path ++ [start]).length : Int) = g.width * g.height
    · rw [if_pos hfull]
      by_cases hte : te.isEmpty = true
      · simp only [hte, Bool.not_true, Bool.false_eq_true, if_false]
        exact ⟨true, _, rfl, by simp, fun _ => ⟨[], rfl⟩⟩
      · simp only [Bool.not_eq_true] at hte
        simp only [hte, Bool.not_false, if_true]
        by_cases hhit : hitsTarget start te = true
        · rw [if_pos hhit]
          exact ⟨true, _, rfl, by simp, fun _ => ⟨[], rfl⟩⟩
        · rw [if_neg hhit, hunwind]
          exact ⟨false, _, rfl, fun _ => ⟨rfl, rfl⟩, by simp⟩
    · rw [if_neg hfull]
      obtain ⟨nbrs, hcol, hnb⟩ := g.collect_spec visited hv1 start directions
      simp only [hcol]
      have hloop := tryEach_spec (fun n t => g.backtrack te fuel n t)
        (fun t => t.visited = visited ∧ t.path = s.path ++ [start])
        (fun n t => ∃ rest, t.path = (s.path ++ [start]) ++ n :: rest)
        (fun _ => True)
        (shuffle nbrs s.rng).1 ⟨visited, s.path ++ [start], (shuffle nbrs s.rng).2⟩
        ⟨rfl, rfl⟩ (by
          intro n hn t ht
          obtain ⟨htv, htp⟩ := ht
          obtain ⟨d, _, _, _, hread⟩ := (hnb n).1 ((shuffle_mem _ _ _).1 hn)
          obtain ⟨b, t1, hrun, hf, htr⟩ := ih n t (by rw [htv]; exact hv1)
            (by rw [htv]; exact hread) (by rw [htv]; omega)
          refine ⟨b, t1, hrun, ?_, ?_⟩
          · intro hb
            obtain ⟨h1, h2⟩ := hf hb
            exact ⟨⟨h1.trans htv, h2.trans htp⟩, trivial⟩
          · intro hb
            obtain ⟨rest, h1⟩ := htr hb
            exact ⟨rest, by rw [h1, htp]⟩)
      obtain ⟨b, s1, hrun, hf, htr⟩ := hloop
      rw [hrun]
      cases b with
      | true =>
        obtain ⟨n, _, rest, hpath⟩ := htr rfl
        exact ⟨true, s1, rfl, by simp, fun _ => ⟨n :: rest, by rw [hpath]; simp⟩⟩
      | false =>
        obtain ⟨⟨hsv, hsp⟩, _⟩ := hf rfl
        have hs1 : s1 = ⟨visited, s.path ++ [start], s1.rng⟩ := by
          cases s1; simp only [] at hsv hsp; rw [hsv, hsp]
        simp only []
        rw [hs1, hunwind]
        exact ⟨false, _, rfl, fun _ => ⟨rfl, rfl⟩, by simp⟩

theorem tryEachEntries_spec (call : Point → Search → Except Fault (Bool × Search))
    (P : Search → Prop) :
    ∀ (ns : Points) (s : Search), P s →
      (∀ n ∈ ns, ∀ t, P t → ∃ b t1, call n t = .ok (b, t1) ∧ (b = false → P t1)) →
      ∀ t ∈ tryEachEntries call ns s, P t := by
  intro ns
  induction ns with
  | nil => intro s _ _ t ht; cases ht
  | cons n ns ih =>
    intro s hs hcall t ht
    unfold tryEachEntries at ht
    rcases List.mem_cons.1 ht with h | h
    · rw [h]; exact hs
    · obtain ⟨b, t1, hc, hf⟩ := hcall n (List.mem_cons_self _ _) s hs
      rw [hc] at h
      cases b with
      | true => cases h
      | false =>
        exact ih t1 (hf rfl) (fun m hm u hu => hcall m (List.mem_cons_of_mem _ hm) u hu) t h

theorem Mask.read_eq_none_iff {v : Mask} {h w : Nat} (hv : v.Shaped h w) (y x : Int) :
    v.read y x = none ↔ ¬ (0 ≤ y ∧ y < h ∧ 0 ≤ x ∧ x < w) := by
  constructor
  · intro hnone hin
    obtain ⟨b, hb⟩ := Mask.read_isSome_of_shaped hv hin.1 hin.2.1 hin.2.2.1 hin.2.2.2
    rw [hnone] at hb
    cases hb
  · intro hout
    cases hr : v.read y x with
    | none => rfl
    | some b => exact absurd (Mask.read_bounds hv hr) hout

theorem Mask.write_eq_none_iff {v : Mask} {h w : Nat} (hv : v.Shaped h w) (y x : Int)
    (b : Bool) : v.write y x b = none ↔ ¬ (0 ≤ y ∧ y < h ∧ 0 ≤ x ∧ x < w) := by
  rw [← Mask.read_eq_none_iff hv y x]
  constructor
  · intro hnone
    cases hr : v.read y x with
    | none => rfl
    | some c =>
      obtain ⟨v1, hv1⟩ := Mask.write_of_read hr b
      rw [hnone] at hv1
      cases hv1
  · intro hnone
    cases hwr : v.write y x b with
    | none => rfl
    | some v1 =>
      obtain ⟨c, hc⟩ := Mask.read_of_write hwr
      rw [hnone] at hc
      cases hc

/-- C19: backtracking restores its whole state on failure.  For a mask of the
shape of the region, any path, a start whose cell is inside the region and
unmarked in the mask, any target set and every state of the generator,
`backtrack` returns (a budget of the number of unmarked cells is enough); if it
returns `false` the mask and the path are exactly those of the call, if it
returns `true` the path is the path of the call followed by `start` (and the
cells visited after it). -/
theorem backtrack_restores (g : Grid) (target_end : Points) (fuel : Nat) (start : Point)
    (s : Search) (hv : s.visited.Shaped g.height.toNat g.width.toNat)
    (hfree : s.visited.read (start.1 - g.bias.1) (start.2 - g.bias.2) = some false)
    (hfuel : s.visited.free ≤ fuel) :
    ∃ b s1, g.backtrack target_end fuel start s = .ok (b, s1) ∧
      (b = false → s1.visited = s.visited ∧ s1.path = s.path) ∧
      (b = true → ∃ rest, s1.path = s.path ++ start :: rest) :=
  g.backtrack_frame target_end fuel start s hv hfree hfuel

/-- C19 on the 2x2 region with (0,0) already on the path: the search from (1,1)
fails (it can reach only one of the two remaining cells) and gives back the
mask and the path of the call. -/
theorem backtrack_restores_witness :
    Mask.Shaped [[true, false], [false, false]] ((Grid.mk 2 2 (0, 0)).height.toNat)
        ((Grid.mk 2 2 (0, 0)).width.toNat) ∧
      Mask.read [[true, false], [false, false]] (1 - 0) (1 - 0) = some false ∧
      Mask.free [[true, false], [false, false]] ≤ 3 ∧
      (Grid.mk 2 2 (0, 0)).backtrack [] 3 (1, 1) ⟨[[true, false], [false, false]], [(0, 0)], [1, 0]⟩
        = .ok (false, ⟨[[true, false], [false, false]], [(0, 0)], []⟩) ∧
      ∃ b s1, (Grid.mk 2 2 (0, 0)).backtrack [] 3 (1, 1)
          ⟨[[true, false], [false, false]], [(0, 0)], [1, 0]⟩ = .ok (b, s1) ∧
        (b = false → s1.visited = [[true, false], [false, false]] ∧ s1.path = [(0, 0)]) ∧
        (b = true → ∃ rest, s1.path = [(0, 0)] ++ (1, 1) :: rest) :=
  have hv : Mask.Shaped [[true, false], [false, false]] ((Grid.mk 2 2 (0, 0)).height.toNat)
      ((Grid.mk 2 2 (0, 0)).width.toNat) := ⟨by decide, by decide⟩
  ⟨hv, by rfl, by decide, by rfl,
    backtrack_restores (Grid.mk 2 2 (0, 0)) [] 3 (1, 1)
      ⟨[[true, false], [false, false]], [(0, 0)], [1, 0]⟩ hv (by rfl) (by decide)⟩

/-- C18: under well-formed input (`height ≥ 1`, `width ≥ 1`, start inside the
region) no access made by `sample_path` / `backtrack` is out of bounds, for
every target set and every state of the generator.  On a mask of the shape of
the region a read or write faults exactly when the local row is outside
`[0,height)` or the local column outside `[0,width)`, and `pop_back` faults
exactly on the empty path; `sample_path` returns a value, so none of its
accesses faulted, and so does `backtrack` from every state whose mask has the
shape of the region and in which the start cell is unmarked. -/
theorem sample_path_accesses_in_bounds (g : Grid) (start : Point) (target_end : Points)
    (rng : Rng) (hh : 1 ≤ g.height) (hw : 1 ≤ g.width) (hs : g.is_valid start = true) :
    (∃ path rng1, g.sample_path start target_end rng = .ok (path, rng1)) ∧
      (∀ (fuel : Nat) (st : Point) (s : Search),
        s.visited.Shaped g.height.toNat g.width.toNat →
        s.visited.read (st.1 - g.bias.1) (st.2 - g.bias.2) = some false →
        s.visited.free ≤ fuel →
        ∃ b s1, g.backtrack target_end fuel st s = .ok (b, s1)) ∧
      (∀ (v : Mask), v.Shaped g.height.toNat g.width.toNat → ∀ (y x : Int),
        (v.read y x = none ↔ ¬ (0 ≤ y ∧ y < g.height ∧ 0 ≤ x ∧ x < g.width)) ∧
        ∀ b, (v.write y x b = none ↔ ¬ (0 ≤ y ∧ y < g.height ∧ 0 ≤ x ∧ x < g.width))) ∧
      (∀ p : Points, popBack p = none ↔ p = []) := by
  have hH : ((g.height.toNat : Nat) : Int) = g.height := Int.toNat_of_nonneg (by omega)
  have hW : ((g.width.toNat : Nat) : Int) = g.width := Int.toNat_of_nonneg (by omega)
  refine ⟨?_, ?_, ?_, ?_⟩
  · obtain ⟨path, rng1, hrun, _⟩ := g.sample_path_spec target_end start rng hh hw hs
    exact ⟨path, rng1, hrun⟩
  · intro fuel st s hv hfree hfuel
    obtain ⟨b, s1, hrun, _⟩ := g.backtrack_frame target_end fuel st s hv hfree hfuel
    exact ⟨b, s1, hrun⟩
  · intro v hv y x
    have hr := Mask.read_eq_none_iff hv y x
    rw [hH, hW] at hr
    refine ⟨hr, fun b => ?_⟩
    have hwr := Mask.write_eq_none_iff hv y x b
    rw [hH, hW] at hwr
    exact hwr
  · intro p
    cases p with
    | nil => simp [popBack]
    | cons a l => simp [popBack]

/-- C18 on a 2x2 region with bias (3,5): the call returns a value, an access
at local column 2 of a 2x2 mask faults. -/
theorem sample_path_accesses_in_bounds_witness :
    (1 : Int) ≤ (Grid.mk 2 2 (3, 5)).height ∧ (1 : Int) ≤ (Grid.mk 2 2 (3, 5)).width ∧
      (Grid.mk 2 2 (3, 5)).is_valid (3, 5) = true ∧
      (Mask.fresh 2 2).write 0 2 true = none ∧
      (Grid.mk 2 2 (3, 5)).sample_path (3, 5) [] [1, 0, 3]
        = .ok ([(3, 5), (4, 5), (4, 6), (3, 6)], []) ∧
      ((∃ path rng1, (Grid.mk 2 2 (3, 5)).sample_path (3, 5) [] [1, 0, 3] = .ok (path, rng1)) ∧
        (∀ (fuel : Nat) (st : Point) (s : Search),
          s.visited.Shaped (Grid.mk 2 2 (3, 5)).height.toNat (Grid.mk 2 2 (3, 5)).width.toNat →
          s.visited.read (st.1 - (Grid.mk 2 2 (3, 5)).bias.1) (st.2 - (Grid.mk 2 2 (3, 5)).bias.2)
            = some false →
          s.visited.free ≤ fuel →
          ∃ b s1, (Grid.mk 2 2 (3, 5)).backtrack [] fuel st s = .ok (b, s1)) ∧
        (∀ (v : Mask),
          v.Shaped (Grid.mk 2 2 (3, 5)).height.toNat (Grid.mk 2 2 (3, 5)).width.toNat →
          ∀ (y x : Int),
            (v.read y x = none ↔ ¬ (0 ≤ y ∧ y < (Grid.mk 2 2 (3, 5)).height ∧ 0 ≤ x ∧
              x < (Grid.mk 2 2 (3, 5)).width)) ∧
            ∀ b, (v.write y x b = none ↔ ¬ (0 ≤ y ∧ y < (Grid.mk 2 2 (3, 5)).height ∧ 0 ≤ x ∧
              x < (Grid.mk 2 2 (3, 5)).width))) ∧
        (∀ p : Points, popBack p = none ↔ p = [])) :=
  ⟨by decide, by decide, by decide, by rfl, by rfl,
    sample_path_accesses_in_bounds (Grid.mk 2 2 (3, 5)) (3, 5) [] [1, 0, 3]
      (by decide) (by decide) (by decide)⟩

/-- C17: `backtrack` terminates and its recursion is never deeper than
`height * width`.  From every state whose mask has the shape of the region and
in which the start cell is unmarked (in particular from the state `sample_path`
starts with), for every target set and state of the generator: a budget of
`height * width` nested levels is enough for the call to return; each nested
call made by the loop over the neighbours is entered on the mask of the caller
with the caller's cell marked, that is with one more marked cell, and on the
caller's path with its cell appended; and a call whose cell completes the path
(`height * width` cells on it) returns without any nested call. -/
theorem backtrack_depth_bounded (g : Grid) (target_end : Points) (start : Point) (s : Search)
    (hh : 1 ≤ g.height) (hw : 1 ≤ g.width)
    (hv : s.visited.Shaped g.height.toNat g.width.toNat)
    (hfree : s.visited.read (start.1 - g.bias.1) (start.2 - g.bias.2) = some false) :
    (∃ b s1, g.backtrack target_end (g.height * g.width).toNat start s = .ok (b, s1)) ∧
      (∀ fuel : Nat, s.visited.free ≤ fuel + 1 →
        ∃ visited1 nbrs,
          s.visited.write (start.1 - g.bias.1) (start.2 - g.bias.2) true = some visited1 ∧
          visited1.marked = s.visited.marked + 1 ∧
          g.collect visited1 start directions = .ok nbrs ∧
          ∀ t ∈ tryEachEntries (fun n t => g.backtrack target_end fuel n t)
              (shuffle nbrs s.rng).1 ⟨visited1, s.path ++ [start], (shuffle nbrs s.rng).2⟩,
            t.visited = visited1 ∧ t.path = s.path ++ [start] ∧
              t.visited.marked = s.visited.marked + 1 ∧
              t.path.length = s.path.length + 1) ∧
      ((s.path.length : Int) + 1 = g.width * g.height →
        ∃ b s1, g.backtrack target_end 1 start s = .ok (b, s1)) := by
  obtain ⟨visited, hwr⟩ := Mask.write_of_read hfree true
  have hv1 := Mask.write_shaped hwr hv
  obtain ⟨hmarked, hcount⟩ := Mask.count_write hfree hwr
  refine ⟨?_, ?_, ?_⟩
  · have hle : s.visited.free ≤ (g.height * g.width).toNat := by
      have := Mask.free_le hv
      have e : (g.height * g.width).toNat = g.height.toNat * g.width.toNat := by
        have h1 : (0 : Int) ≤ g.height := by omega
        have h2 : (0 : Int) ≤ g.width := by omega
        have e1 : ((g.height * g.width).toNat : Int)
            = ((g.height.toNat * g.width.toNat : Nat) : Int) := by
          rw [Int.toNat_of_nonneg (Int.mul_nonneg h1 h2)]
          push_cast
          rw [Int.toNat_of_nonneg h1, Int.toNat_of_nonneg h2]
        exact_mod_cast e1
      rw [e]; exact this
    obtain ⟨b, s1, hrun, _⟩ := g.backtrack_frame target_end _ start s hv hfree hle
    exact ⟨b, s1, hrun⟩
  · intro fuel hfuel
    obtain ⟨nbrs, hcol, hnb⟩ := g.collect_spec visited hv1 start directions
    refine ⟨visited, nbrs, hwr, hmarked, hcol, ?_⟩
    have hP := tryEachEntries_spec (fun n t => g.backtrack target_end fuel n t)
      (fun t => t.visited = visited ∧ t.path = s.path ++ [start])
      (shuffle nbrs s.rng).1 ⟨visited, s.path ++ [start], (shuffle nbrs s.rng).2⟩ ⟨rfl, rfl⟩ (by
        intro n hn t ht
        obtain ⟨htv, htp⟩ := ht
        obtain ⟨d, _, _, _, hread⟩ := (hnb n).1 ((shuffle_mem _ _ _).1 hn)
        obtain ⟨b, t1, hrun, hf, _⟩ := g.backtrack_frame target_end fuel n t
          (by rw [htv]; exact hv1) (by rw [htv]; exact hread) (by rw [htv]; omega)
        refine ⟨b, t1, hrun, fun hb => ?_⟩
        obtain ⟨h1, h2⟩ := hf hb
        exact ⟨h1.trans htv, h2.trans htp⟩)
    intro t ht
    obtain ⟨h1, h2⟩ := hP t ht
    refine ⟨h1, h2, by rw [h1, hmarked], by rw [h2]; simp⟩
  · intro hfull
    have hmark := Mask.read_write_same hwr
    obtain ⟨v2, hw2⟩ := Mask.write_of_read hmark false
    have hlen : ((s.path ++ [start]).length : Int) = g.width * g.height := by
      rw [← hfull]; simp
    unfold Grid.backtrack
    simp only [hwr, if_pos hlen]
    by_cases hte : target_end.isEmpty = true
    · simp only [hte, Bool.not_true, Bool.false_eq_true, if_false]
      exact ⟨_, _, rfl⟩
    · simp only [Bool.not_eq_true] at hte
      simp only [hte, Bool.not_false, if_true]
      by_cases hhit : hitsTarget start target_end = true
      · rw [if_pos hhit]
        exact ⟨_, _, rfl⟩
      · rw [if_neg hhit]
        exact ⟨false, ⟨v2, s.path, s.rng⟩, by simp [unwind, hw2, popBack_snoc]⟩

end Walks

namespace Walks

/-- C17 on the 2x2 region from the state `sample_path` starts with: a budget of
4 levels is enough (3 are not: the fourth cell is reached at depth 4). -/
theorem backtrack_depth_bounded_witness :
    (1 : Int) ≤ (Grid.mk 2 2 (0, 0)).height ∧ (1 : Int) ≤ (Grid.mk 2 2 (0, 0)).width ∧
      (Mask.fresh 2 2).Shaped (Grid.mk 2 2 (0, 0)).height.toNat (Grid.mk 2 2 (0, 0)).width.toNat ∧
      (Mask.fresh 2 2).read (0 - 0) (0 - 0) = some false ∧
      (Grid.mk 2 2 (0, 0)).backtrack [] 3 (0, 0) ⟨Mask.fresh 2 2, [], [1, 0, 3]⟩
        = .error .outOfFuel ∧
      ((∃ b s1, (Grid.mk 2 2 (0, 0)).backtrack []
            ((Grid.mk 2 2 (0, 0)).height * (Grid.mk 2 2 (0, 0)).width).toNat (0, 0)
            ⟨Mask.fresh 2 2, [], [1, 0, 3]⟩ = .ok (b, s1)) ∧
        (∀ fuel : Nat, (Mask.fresh 2 2).free ≤ fuel + 1 →
          ∃ visited1 nbrs,
            (Mask.fresh 2 2).write ((0 : Int) - 0) ((0 : Int) - 0) true = some visited1 ∧
            visited1.marked = (Mask.fresh 2 2).marked + 1 ∧
            (Grid.mk 2 2 (0, 0)).collect visited1 (0, 0) directions = .ok nbrs ∧
            ∀ t ∈ tryEachEntries (fun n t => (Grid.mk 2 2 (0, 0)).backtrack [] fuel n t)
                (shuffle nbrs [1, 0, 3]).1
                ⟨visited1, ([] : Points) ++ [(0, 0)], (shuffle nbrs [1, 0, 3]).2⟩,
              t.visited = visited1 ∧ t.path = ([] : Points) ++ [(0, 0)] ∧
                t.visited.marked = (Mask.fresh 2 2).marked + 1 ∧
                t.path.length = ([] : Points).length + 1) ∧
        (((([] : Points).length : Int)) + 1
            = (Grid.mk 2 2 (0, 0)).width * (Grid.mk 2 2 (0, 0)).height →
          ∃ b s1, (Grid.mk 2 2 (0, 0)).backtrack [] 1 (0, 0) ⟨Mask.fresh 2 2, [], [1, 0, 3]⟩
            = .ok (b, s1))) :=
  ⟨by decide, by decide, Mask.fresh_shaped 2 2, by rfl, by rfl,
    backtrack_depth_bounded (Grid.mk 2 2 (0, 0)) [] (0, 0) ⟨Mask.fresh 2 2, [], [1, 0, 3]⟩
      (by decide) (by decide) (Mask.fresh_shaped 2 2) (by rfl)⟩

/-! ## Sources of randomness (C12) -/

end Walks

namespace Walks

theorem Grid.snake_perm (g : Grid) : g.snake.Perm g.cellList := by
  unfold Grid.snake Grid.cellList
  apply List.Perm.flatMap_left
  intro i _
  unfold Grid.snakeRow
  split_ifs
  · exact List.Perm.refl _
  · exact List.reverse_perm _

theorem row_chain (r b2 : Int) (w : Nat) :
    ((List.range w).map (fun (j : Nat) => ((r, b2 + (j : Int)) : Point))).Chain' adjacent := by
  rw [List.chain'_iff_get]
  intro i hi
  simp only [List.get_eq_getElem, List.getElem_map, List.getElem_range, adjacent]
  left
  refine ⟨trivial, ?_⟩
  push_cast
  omega

theorem Grid.snakeRow_chain (g : Grid) (i : Nat) : (g.snakeRow i).Chain' adjacent := by
  unfold Grid.snakeRow
  split_ifs
  · exact row_chain _ _ _
  · exact chain_adjacent_reverse (row_chain _ _ _)

theorem row_head (r b2 : Int) (w : Nat) (hw : 1 ≤ w) :
    ((List.range w).map (fun (j : Nat) => ((r, b2 + (j : Int)) : Point))).head?
      = some (r, b2) := by
  obtain ⟨k, rfl⟩ : ∃ k, w = k + 1 := ⟨w - 1, by omega⟩
  rw [List.range_succ_eq_map]
  simp

theorem row_last (r b2 : Int) (w : Nat) (hw : 1 ≤ w) :
    ((List.range w).map (fun (j : Nat) => ((r, b2 + (j : Int)) : Point))).getLast?
      = some (r, b2 + ((w : Int) - 1)) := by
  obtain ⟨k, rfl⟩ : ∃ k, w = k + 1 := ⟨w - 1, by omega⟩
  rw [List.range_succ]
  simp

theorem Grid.snakeRow_head (g : Grid) (hw : 1 ≤ g.width) (i : Nat) :
    (g.snakeRow i).head?
      = some (g.bias.1 + (i : Int), g.bias.2 + (if i % 2 = 0 then 0 else g.width - 1)) := by
  have hwn : 1 ≤ g.width.toNat := by omega
  have hcast : ((g.width.toNat : Nat) : Int) = g.width := Int.toNat_of_nonneg (by omega)
  unfold Grid.snakeRow
  split_ifs
  · rw [row_head _ _ _ hwn, add_zero]
  · rw [List.head?_reverse, row_last _ _ _ hwn, hcast]

theorem Grid.snakeRow_last (g : Grid) (hw : 1 ≤ g.width) (i : Nat) :
    (g.snakeRow i).getLast?
      = some (g.bias.1 + (i : Int), g.bias.2 + (if i % 2 = 0 then g.width - 1 else 0)) := by
  have hwn : 1 ≤ g.width.toNat := by omega
  have hcast : ((g.width.toNat : Nat) : Int) = g.width := Int.toNat_of_nonneg (by omega)
  unfold Grid.snakeRow
  split_ifs
  · rw [row_last _ _ _ hwn, hcast]
  · rw [List.getLast?_reverse, row_head _ _ _ hwn, add_zero]

theorem Grid.snake_prefix (g : Grid) (hw : 1 ≤ g.width) :
    ∀ n : Nat, ((List.range n).flatMap g.snakeRow).Chain' adjacent ∧
      ((List.range (n + 1)).flatMap g.snakeRow).getLast? = (g.snakeRow n).getLast? := by
  have hlast : ∀ n : Nat, ((List.range (n + 1)).flatMap g.snakeRow).getLast?
      = (g.snakeRow n).getLast? := by
    intro n
    rw [List.range_succ, List.flatMap_append, List.getLast?_append]
    simp only [List.flatMap_cons, List.flatMap_nil, List.append_nil]
    rw [g.snakeRow_last hw n]
    rfl
  intro n
  refine ⟨?_, hlast n⟩
  induction n with
  | zero => simp
  | succ n ih =>
    rw [List.range_succ, List.flatMap_append]
    simp only [List.flatMap_cons, List.flatMap_nil, List.append_nil]
    rw [List.chain'_append]
    refine ⟨ih, g.snakeRow_chain n, ?_⟩
    intro x hx y hy
    cases n with
    | zero => simp at hx
    | succ k =>
      rw [hlast k, g.snakeRow_last hw k] at hx
      rw [g.snakeRow_head hw (k + 1)] at hy
      cases hx; cases hy
      unfold adjacent
      right
      simp only []
      push_cast
      constructor
      · split_ifs <;> omega
      · omega

/-- The serpentine path is a complete path of the region and begins at the
corner cell. -/
theorem Grid.snake_hamiltonian (g : Grid) (hh : 1 ≤ g.height) (hw : 1 ≤ g.width) :
    IsHamPath g g.snake ∧ g.snake.head? = some g.bias := by
  have hperm := g.snake_perm
  refine ⟨⟨?_, hperm.nodup_iff.2 g.cellList_nodup, ?_, (g.snake_prefix hw _).1⟩, ?_⟩
  · rw [hperm.length_eq, g.cellList_length_int (by omega) (by omega)]
  · intro q
    rw [hperm.mem_iff, g.mem_cellList]
  · obtain ⟨k, hk⟩ : ∃ k, g.height.toNat = k + 1 := ⟨g.height.toNat - 1, by omega⟩
    unfold Grid.snake
    rw [hk, List.range_succ_eq_map, List.flatMap_cons, List.head?_append, g.snakeRow_head hw 0]
    simp

/-- C16 fails as stated: on the 1x3 region the unconstrained `sample_path` from
the middle cell (0,1) returns the empty path (no complete path begins there),
so it is not true that the search succeeds from every start. -/
theorem sample_path_fails_from_middle :
    (1 : Int) ≤ (Grid.mk 1 3 (0, 0)).height ∧ (1 : Int) ≤ (Grid.mk 1 3 (0, 0)).width ∧
      (Grid.mk 1 3 (0, 0)).is_valid (0, 1) = true ∧
      (Grid.mk 1 3 (0, 0)).sample_path (0, 1) [] [] = .ok ([], []) ∧
      ¬ (∀ rng : Rng, ∃ path rng1,
        (Grid.mk 1 3 (0, 0)).sample_path (0, 1) [] rng = .ok (path, rng1) ∧ path ≠ []) := by
  have h1 : (Grid.mk 1 3 (0, 0)).sample_path (0, 1) [] [] = .ok ([], []) := by rfl
  refine ⟨by decide, by decide, by decide, h1, ?_⟩
  intro h
  obtain ⟨path, rng1, hrun, hne⟩ := h []
  rw [h1] at hrun
  cases hrun
  exact hne rfl

/-- C16 as amended: for every region with `height ≥ 1` and `width ≥ 1` and every
start cell inside it, the unconstrained `sample_path(start)` returns, for every
state of the generator, and the path it returns is non-empty if and only if the
region has a complete path that begins at `start`; a non-empty result is such a
path.  From the corner cell `bias` there always is one (the serpentine path), so
`sample_path(bias)` returns a non-empty path. -/
theorem sample_path_nonempty_iff (g : Grid) (start : Point) (rng : Rng)
    (hh : 1 ≤ g.height) (hw : 1 ≤ g.width) (hs : g.is_valid start = true) :
    ∃ path rng1, g.sample_path start [] rng = .ok (path, rng1) ∧
      (path ≠ [] ↔ ∃ p, IsHamPath g p ∧ p.head? = some start) ∧
      (path ≠ [] → IsHamPath g path ∧ path.head? = some start) ∧
      (start = g.bias → path ≠ []) := by
  obtain ⟨path, rng1, hrun, hcase⟩ := g.sample_path_spec [] start rng hh hw hs
  refine ⟨path, rng1, hrun, ?_⟩
  have hfind : ∀ p, IsHamPath g p → p.head? = some start →
      ∃ rest, Completion g [] (Mask.fresh g.height.toNat g.width.toNat) 0 start rest := by
    intro p hham hhead
    cases p with
    | nil => cases hhead
    | cons a rest =>
      simp only [List.head?_cons, Option.some.injEq] at hhead
      subst hhead
      exact ⟨rest, (g.completion_fresh_iff [] _ rest hh hw).2 ⟨hham, Or.inl rfl⟩⟩
  rcases hcase with ⟨hnil, hno⟩ | ⟨rest, hp, hc⟩
  · subst hnil
    refine ⟨⟨fun h => absurd rfl h, ?_⟩, fun h => absurd rfl h, ?_⟩
    · rintro ⟨p, hham, hhead⟩
      exact absurd (hfind p hham hhead) hno
    · intro hcorner
      subst hcorner
      obtain ⟨hham, hhead⟩ := g.snake_hamiltonian hh hw
      exact absurd (hfind _ hham hhead) hno
  · obtain ⟨hham, _⟩ := (g.completion_fresh_iff [] start rest hh hw).1 hc
    subst hp
    exact ⟨⟨fun _ => ⟨_, hham, rfl⟩, fun _ => by simp⟩, fun _ => ⟨hham, rfl⟩, fun _ => by simp⟩

/-- C16 as amended, on the 1x3 region from the middle cell (0,1): the search
returns the empty path and no complete path begins at (0,1). -/
theorem sample_path_nonempty_iff_witness :
    (1 : Int) ≤ (Grid.mk 1 3 (0, 0)).height ∧ (1 : Int) ≤ (Grid.mk 1 3 (0, 0)).width ∧
      (Grid.mk 1 3 (0, 0)).is_valid (0, 1) = true ∧
      (Grid.mk 1 3 (0, 0)).sample_path (0, 1) [] [] = .ok ([], []) ∧
      (Grid.mk 1 3 (0, 0)).sample_path (0, 0) [] [] = .ok ([(0, 0), (0, 1), (0, 2)], []) ∧
      ∃ path rng1, (Grid.mk 1 3 (0, 0)).sample_path (0, 1) [] [] = .ok (path, rng1) ∧
        (path ≠ [] ↔ ∃ p, IsHamPath (Grid.mk 1 3 (0, 0)) p ∧ p.head? = some (0, 1)) ∧
        (path ≠ [] → IsHamPath (Grid.mk 1 3 (0, 0)) path ∧ path.head? = some (0, 1)) ∧
        ((0, 1) = (Grid.mk 1 3 (0, 0)).bias → path ≠ []) :=
  ⟨by decide, by decide, by decide, by rfl, by rfl,
    sample_path_nonempty_iff (Grid.mk 1 3 (0, 0)) (0, 1) [] (by decide) (by decide) (by decide)⟩

/-! ## Composition with 1x1 sub-grids (C21) -/

/-- The single cell of a 1x1 region lies on each of its boundary lines: it is
accepted by the target set of every side name. -/
theorem unit_accepted (b : Point) (side : String) :
    accepted ((Grid.mk 1 1 b).boundaryLine side) b := by
  unfold accepted Grid.boundaryLine
  split_ifs <;> simp

/-- On a 1x1 region the search from a cell of the region returns the one-cell
path, whatever the side name and the state of the generator. -/
theorem unit_sample_path (b start : Point) (side : String) (grng : Rng)
    (hs : (Grid.mk 1 1 b).is_valid start = true) :
    ∃ grng1, (Grid.mk 1 1 b).sample_path_side start side grng = .ok ([b], grng1) := by
  have hsb : start = b := by
    rw [Grid.is_valid_iff] at hs
    simp only [] at hs
    exact Prod.ext (by omega) (by omega)
  subst hsb
  rw [Grid.sample_path_side_eq]
  obtain ⟨path, rng1, hrun, hcase⟩ := (Grid.mk 1 1 start).sample_path_spec
    ((Grid.mk 1 1 start).boundaryLine side) start grng (by simp) (by simp) hs
  have hham : IsHamPath (Grid.mk 1 1 start) [start] := by
    refine ⟨by simp, by simp, ?_, by simp⟩
    exact Grid.covers_of_nodup (Grid.mk 1 1 start) (by simp) (by simp) (by simp)
      (by simpa using hs) (by simp)
  rcases hcase with ⟨_, hno⟩ | ⟨rest, hp, hc⟩
  · exfalso
    exact hno ⟨[], ((Grid.mk 1 1 start).completion_fresh_iff _ start [] (by simp)
      (by simp)).2 ⟨hham, unit_accepted start side⟩⟩
  · have hcount := hc.count
    simp only [Nat.cast_zero, zero_add, mul_one] at hcount
    have hrest : rest = [] := List.length_eq_zero.1 (by omega)
    subst hrest
    rw [hp] at hrun
    exact ⟨rng1, hrun⟩

/-- With 1x1 sub-grids and a budget of at least one attempt per coarse cell the
loop over the coarse cells appends the coarse cells themselves. -/
theorem pyramidLoop_unit (k : Nat) :
    ∀ (coarse : Points) (prev : Option Point) (full_path : Points) (rng grng : Rng),
      (∀ pv ∈ prev, ∀ c ∈ coarse.head?, ∃ last_pos, full_path.getLast? = some last_pos ∧
        (Grid.mk 1 1 (c.1 * 1, c.2 * 1)).is_valid (stepStart pv c last_pos) = true) →
      coarse.Chain' adjacent →
      ∃ rng1 grng1, pyramidLoop (k + 1) 1 1 prev coarse full_path rng grng
        = .ok (full_path ++ coarse, rng1, grng1) := by
  intro coarse
  induction coarse with
  | nil =>
    intro prev full_path rng grng _ _
    exact ⟨rng, grng, by simp [pyramidLoop]⟩
  | cons cur rest ih =>
    intro prev full_path rng grng hinv hch
    have hchoose : ∃ st, chooseStart prev cur full_path 1 1 rng = .ok st ∧
        (Grid.mk 1 1 (cur.1 * 1, cur.2 * 1)).is_valid st.1 = true := by
      cases prev with
      | none => exact chooseStart_first cur full_path 1 1 (by decide) (by decide) rng
      | some pv =>
        obtain ⟨last_pos, hl, hv⟩ := hinv pv rfl cur rfl
        exact ⟨(stepStart pv cur last_pos, rng), by simp [chooseStart, hl], hv⟩
    obtain ⟨st, hst, hval⟩ := hchoose
    obtain ⟨grng1, hsp⟩ := unit_sample_path (cur.1 * 1, cur.2 * 1) st.1
      (endSide cur rest.head?) grng hval
    have hcur : ((cur.1 * 1, cur.2 * 1) : Point) = cur := by
      simp
    have hretry : retryLoop (Grid.mk 1 1 (cur.1 * 1, cur.2 * 1)) prev cur full_path
        (endSide cur rest.head?) (k + 1) rng grng = .ok ([cur], st.2, grng1) := by
      rw [hcur] at hsp
      unfold retryLoop
      simp only [hcur, hst, hsp, List.isEmpty_cons, Bool.false_eq_true, if_false]
    obtain ⟨rng2, grng2, hrest⟩ := ih (some cur) (full_path ++ [cur]) st.2 grng1 (by
      intro pv hpv c hc
      cases hpv
      refine ⟨cur, by simp, ?_⟩
      cases rest with
      | nil => cases hc
      | cons c1 rest1 =>
        cases hc
        have hacc := unit_accepted (cur.1 * 1, cur.2 * 1) (endSide cur (some c))
        have := exit_enters (m := 1) (n := 1) (by decide) (by decide)
          (List.chain'_cons.1 hch).1 hacc
        rw [hcur] at this
        exact this) hch.tail
    refine ⟨rng2, grng2, ?_⟩
    unfold pyramidLoop
    simp only [hretry, hrest, List.append_assoc, List.singleton_append]

end Walks

namespace Walks

/-- C21: composition with a 1x1 sub-grid is the identity.  For a coarse path
whose consecutive cells are 4-adjacent (empty or not), for every state of the
two generators, `sample_path_pyramid` with `subgrid_m = subgrid_n = 1` returns
the coarse path itself, and it does so with a budget of one attempt per coarse
cell: every retry loop ends on its first attempt.  A larger budget gives the
same path. -/
theorem pyramid_unit_identity (retries : Nat) (lowres_path : Points) (lowres_m lowres_n : Int)
    (rng seed : Rng) (hret : 1 ≤ retries) (hadj : lowres_path.Chain' adjacent) :
    (∃ rng1, sample_path_pyramid 1 lowres_path lowres_m lowres_n 1 1 rng seed
        = .ok (lowres_path, rng1)) ∧
      (∃ rng1, sample_path_pyramid retries lowres_path lowres_m lowres_n 1 1 rng seed
        = .ok (lowres_path, rng1)) := by
  have key : ∀ k : Nat, ∃ rng1,
      sample_path_pyramid (k + 1) lowres_path lowres_m lowres_n 1 1 rng seed
        = .ok (lowres_path, rng1) := by
    intro k
    obtain ⟨rng1, grng1, hrun⟩ := pyramidLoop_unit k lowres_path none [] rng seed
      (fun pv hpv => by cases hpv) hadj
    refine ⟨rng1, ?_⟩
    unfold sample_path_pyramid
    rw [hrun]
    simp
  refine ⟨key 0, ?_⟩
  obtain ⟨k, rfl⟩ : ∃ k, retries = k + 1 := ⟨retries - 1, by omega⟩
  exact key k

/-- C21 on the coarse path around the 2x2 grid: with one attempt per cell the
composition with 1x1 sub-grids returns the coarse path. -/
theorem pyramid_unit_identity_witness :
    (1 : Nat) ≤ 3 ∧ ([(0, 0), (0, 1), (1, 1), (1, 0)] : Points).Chain' adjacent ∧
      sample_path_pyramid 1 [(0, 0), (0, 1), (1, 1), (1, 0)] 2 2 1 1 [5] [1, 2, 3]
        = .ok ([(0, 0), (0, 1), (1, 1), (1, 0)], []) ∧
      ((∃ rng1, sample_path_pyramid 1 [(0, 0), (0, 1), (1, 1), (1, 0)] 2 2 1 1 [5] [1, 2, 3]
          = .ok ([(0, 0), (0, 1), (1, 1), (1, 0)], rng1)) ∧
        (∃ rng1, sample_path_pyramid 3 [(0, 0), (0, 1), (1, 1), (1, 0)] 2 2 1 1 [5] [1, 2, 3]
          = .ok ([(0, 0), (0, 1), (1, 1), (1, 0)], rng1))) :=
  ⟨by decide, by simp [adjacent], by rfl,
    pyramid_unit_identity 3 [(0, 0), (0, 1), (1, 1), (1, 0)] 2 2 [5] [1, 2, 3] (by decide)
      (by simp [adjacent])⟩

end Walks
